import Mathlib

/-!
# program_options: a shallow embedding of `program_options.hpp`

The header defines a command-line parser: a registry of options (flags and
typed, value-taking options), a tokenizer for shell-like strings, a dispatch
loop over an argument vector and a validation pass for required options.

Modelling conventions.

* `string_t` (`std::string`, and the C strings of `argv`) is `List Char`.
  The character with code 0 ends a C string and, as a short name, means
  "no short name".
* A C++ exception is an `Except.error` result; a member function that mutates
  the parser returns the new parser state next to its result.
* `options_` (`std::unordered_map<string_t, option_ptr>`) is a partial function
  from names to option objects.  The order in which the map enumerates its
  entries is left open by the language; the functions that iterate over the map
  take that order as the argument `traversal`.
* `ordered_` (`std::vector<option_ptr>`) holds, in declaration order, shared
  pointers to the objects owned by `options_`; it is modelled as the list of
  their keys.
* The template argument `T` of a value-taking option ranges over an index type
  `τ` with an instance of `value_types`, which gives the values of each type,
  its category and its stream rendering.
* A reader is a function `string_t → Option T`; `none` stands for a thrown
  `std::exception`.  Readers have no state of their own.
* `argc` is the length of the list `argv`; argument vectors are short enough for their
  length to fit the type `int`.
* `usage()` returns `none` where the C++ code reads an element that does not exist; its
  padding loops run on a bounded number of iterations given as the argument `fuel`, and
  name lengths are small enough for `max_width + 4` not to wrap around.
-/

namespace program_options

abbrev string_t := List Char

/-- The null character. -/
def NUL : Char := Char.ofNat 0

/-- The C string held by a `std::string`: the characters before the first null. -/
def c_str (s : string_t) : string_t := s.takeWhile (fun c => c != NUL)

namespace detail

inductive type_category
  | IllegalType
  | Integral
  | FloatingPoint
  | String
  deriving DecidableEq, Repr

end detail

open detail

/-- The C++ types that occur as the template argument `T` of `parser::add<T>` and
`parser::get<T>`: `carrier T` is the set of values of `T`, `category T` the result of
`type_name_impl`, and `to_stream T v` the text `operator<<` writes for `v`. -/
class value_types (τ : Type) where
  carrier : τ → Type
  category : τ → type_category
  to_stream : (T : τ) → carrier T → string_t

open value_types

namespace detail

variable {τ : Type} [value_types τ]

def is_legal_type_v (T : τ) : Bool :=
  category T != type_category.IllegalType

def type_name (T : τ) : string_t :=
  match category T with
  | type_category.IllegalType => "IllegalType".toList
  | type_category.Integral => "Integral".toList
  | type_category.FloatingPoint => "FloatingPoint".toList
  | type_category.String => "String".toList

def as_string (T : τ) (arg : carrier T) : string_t :=
  if category T = type_category.String then
    "\"".toList ++ to_stream T arg ++ "\"".toList
  else
    to_stream T arg

end detail

section model

variable {τ : Type} [value_types τ]

/-- The state of `parser::option_without_value`. -/
structure option_without_value where
  name_ : string_t
  short_name_ : Char
  description_ : string_t
  has_set_ : Bool

/-- The state of `parser::option_with_value_with_reader<T, U>`; `reader_` is the
call operator of the reader object. -/
structure option_with_value (T : τ) where
  name_ : string_t
  short_name_ : Char
  is_required_ : Bool
  has_set_ : Bool
  default_value_ : carrier T
  actual_value_ : carrier T
  description_ : string_t
  reader_ : string_t → Option (carrier T)

/-- An object behind an `option_ptr`. -/
inductive option_base (τ : Type) [value_types τ]
  | without_value (o : option_without_value)
  | with_value (T : τ) (o : option_with_value T)

namespace option_with_value

variable {T : τ}

def full_description (T : τ) (is_required : Bool) (default_value : carrier T)
    (description : string_t) : string_t :=
  description ++ " (".toList ++ type_name T ++
    (if is_required then [] else " [=".toList ++ as_string T default_value ++ "]".toList) ++
    ")".toList

/-- The constructor of `option_with_value_with_reader`. -/
def mk_option (T : τ) (name : string_t) (short_name : Char) (is_required : Bool)
    (default_value : carrier T) (description : string_t)
    (reader : string_t → Option (carrier T)) : option_with_value T :=
  { name_ := name
    short_name_ := short_name
    is_required_ := is_required
    has_set_ := false
    default_value_ := default_value
    actual_value_ := default_value
    description_ := full_description T is_required default_value description
    reader_ := reader }

def get (o : option_with_value T) : carrier T := o.actual_value_

/-- The method `set(const string_t&)`: the new object state and the returned flag. -/
def set_value (o : option_with_value T) (value : string_t) : option_with_value T × Bool :=
  match o.reader_ value with
  | none => (o, false)
  | some v => ({ o with actual_value_ := v, has_set_ := true }, true)

def is_valid (o : option_with_value T) : Bool := (!o.is_required_) || o.has_set_

def short_description (o : option_with_value T) : string_t :=
  "--".toList ++ o.name_ ++ "=".toList ++ type_name T

end option_with_value

namespace option_without_value

/-- The constructor of `option_without_value`. -/
def mk_option (name : string_t) (short_name : Char) (description : string_t) :
    option_without_value :=
  { name_ := name, short_name_ := short_name, description_ := description, has_set_ := false }

def short_description (o : option_without_value) : string_t := "--".toList ++ o.name_

end option_without_value

namespace option_base

def has_value : option_base τ → Bool
  | without_value _ => false
  | with_value _ _ => true

/-- The method `set()`: the new object state and the returned flag. -/
def set : option_base τ → option_base τ × Bool
  | without_value o => (without_value { o with has_set_ := true }, true)
  | with_value T o => (with_value T o, false)

/-- The method `set(const string_t&)`: the new object state and the returned flag. -/
def set_value : option_base τ → string_t → option_base τ × Bool
  | without_value o, _ => (without_value o, false)
  | with_value T o, value => (with_value T (o.set_value value).1, (o.set_value value).2)

def has_set : option_base τ → Bool
  | without_value o => o.has_set_
  | with_value _ o => o.has_set_

def is_valid : option_base τ → Bool
  | without_value _ => true
  | with_value _ o => o.is_valid

def is_required : option_base τ → Bool
  | without_value _ => false
  | with_value _ o => o.is_required_

def name : option_base τ → string_t
  | without_value o => o.name_
  | with_value _ o => o.name_

def short_name : option_base τ → Char
  | without_value o => o.short_name_
  | with_value _ o => o.short_name_

def description : option_base τ → string_t
  | without_value o => o.description_
  | with_value _ o => o.description_

def short_description : option_base τ → string_t
  | without_value o => o.short_description
  | with_value _ o => o.short_description

end option_base

/-- The data members of `parser`. -/
structure parser (τ : Type) [value_types τ] where
  options_ : string_t → Option (option_base τ)
  ordered_ : List string_t
  footer_ : string_t
  program_name_ : string_t
  others_ : List string_t
  errors_ : List string_t

namespace parser

/-- A default-constructed parser. -/
def empty : parser τ :=
  { options_ := fun _ => none, ordered_ := [], footer_ := [], program_name_ := [],
    others_ := [], errors_ := [] }

/-- The map `options_` with the entry for `name` set to `o`. -/
def insert_option (p : parser τ) (name : string_t) (o : option_base τ) :
    string_t → Option (option_base τ) :=
  fun k => if k = name then some o else p.options_ k

/-- The overload `add(name, short_name, description)` registering a flag. -/
def add (p : parser τ) (name : string_t) (short_name : Char) (description : string_t) :
    Except string_t Unit × parser τ :=
  if (p.options_ name).isSome then
    (Except.error ("multiple definition: ".toList ++ name), p)
  else
    (Except.ok (),
      { p with
        options_ := p.insert_option name
          (option_base.without_value
            (option_without_value.mk_option name short_name description))
        ordered_ := p.ordered_ ++ [name] })

/-- The overload `add<T, U>(name, short_name, description, is_required, default_value,
reader)` registering a value-taking option. -/
def add_value (p : parser τ) (T : τ) (name : string_t) (short_name : Char)
    (description : string_t) (is_required : Bool) (default_value : carrier T)
    (reader : string_t → Option (carrier T)) : Except string_t Unit × parser τ :=
  if !is_legal_type_v T then
    (Except.error ("illegal type: ".toList ++ name), p)
  else if (p.options_ name).isSome then
    (Except.error ("multiple definition: ".toList ++ name), p)
  else
    (Except.ok (),
      { p with
        options_ := p.insert_option name
          (option_base.with_value T
            (option_with_value.mk_option T name short_name is_required default_value
              description reader))
        ordered_ := p.ordered_ ++ [name] })

def set_footer (p : parser τ) (footer : string_t) : parser τ := { p with footer_ := footer }

def set_program_name (p : parser τ) (program_name : string_t) : parser τ :=
  { p with program_name_ := program_name }

def exist (p : parser τ) (name : string_t) : Except string_t Bool :=
  match p.options_ name with
  | none => Except.error ("there is no flag: --".toList ++ name)
  | some o => Except.ok o.has_set

/-- The member `get<T>(name)`; the `dynamic_cast` succeeds exactly when the object is
an `option_with_value<T>`. -/
def get [DecidableEq τ] (p : parser τ) (T : τ) (name : string_t) :
    Except string_t (carrier T) :=
  match p.options_ name with
  | none => Except.error ("there is no flag: --".toList ++ name)
  | some (option_base.without_value _) =>
      Except.error ("type mismatch flag '".toList ++ name ++ "'".toList)
  | some (option_base.with_value T' o) =>
      if h : T' = T then Except.ok (h ▸ o.get)
      else Except.error ("type mismatch flag '".toList ++ name ++ "'".toList)

def rest (p : parser τ) : List string_t := p.others_

def errors (p : parser τ) : List string_t := p.errors_

def push_error (p : parser τ) (msg : string_t) : parser τ :=
  { p with errors_ := p.errors_ ++ [msg] }

/-- The private member `set_option(name)`. -/
def set_option_name (p : parser τ) (name : string_t) : parser τ :=
  match p.options_ name with
  | none => p.push_error ("undefined options: --".toList ++ name)
  | some o =>
      let p1 : parser τ := { p with options_ := p.insert_option name o.set.1 }
      if !o.set.2 then p1.push_error ("option needs value: --".toList ++ name) else p1

/-- The private member `set_option(name, value)`. -/
def set_option_value (p : parser τ) (name value : string_t) : parser τ :=
  match p.options_ name with
  | none => p.push_error ("undefined options: --".toList ++ name)
  | some o =>
      let p1 : parser τ := { p with options_ := p.insert_option name (o.set_value value).1 }
      if !(o.set_value value).2 then
        p1.push_error ("option value is invalid: --".toList ++ name ++ "=".toList ++ value)
      else p1

/-- The test `strncmp(tok, "--", 2) == 0`. -/
def starts_with_two_dashes : string_t → Bool
  | '-' :: '-' :: _ => true
  | _ => false

/-- The test `strncmp(tok, "-", 1) == 0`. -/
def starts_with_dash : string_t → Bool
  | '-' :: _ => true
  | _ => false

/-- The call `strchr(s, '=')` followed by the construction of `name` (the characters
before the first `=`) and `value` (those after it); `none` when `s` has no `=`. -/
def split_at_equals : string_t → Option (string_t × string_t)
  | [] => none
  | c :: cs =>
      if c = '=' then some ([], cs)
      else
        match split_at_equals cs with
        | none => none
        | some (name, value) => some (c :: name, value)

/-- The first loop of `parse(argc, argv)` over `options_`, from the entries still to
visit and the table built so far: the finished table, or the short name found twice.
A key of the traversal without an entry in `options_` (there is none when the traversal
enumerates the map) is passed over. -/
def build_lookup (p : parser τ) :
    List string_t → (Char → Option string_t) → Except Char (Char → Option string_t)
  | [], lookup => Except.ok lookup
  | key :: keys, lookup =>
      if key = [] then build_lookup p keys lookup
      else
        match p.options_ key with
        | none => build_lookup p keys lookup
        | some o =>
            if o.short_name != NUL then
              if (lookup o.short_name).isSome then Except.error o.short_name
              else
                build_lookup p keys
                  (fun c => if c = o.short_name then some key else lookup c)
            else build_lookup p keys lookup

/-- The inner loop of the short-option branch: `last` is the character read before,
`cs` the characters of the token still ahead.  Returns the state and the final
character of the cluster. -/
def cluster (lookup : Char → Option string_t) : parser τ → Char → string_t → parser τ × Char
  | p, last, [] => (p, last)
  | p, last, c :: cs =>
      match lookup last with
      | none => cluster lookup (p.push_error ("undefined short option: -".toList ++ [last])) c cs
      | some name =>
          if name = [] then
            cluster lookup (p.push_error ("ambiguous short options: -".toList ++ [last])) c cs
          else cluster lookup (p.set_option_name name) c cs

/-- The body of the dispatch loop `for (int i = 1; i != argc; ++i)` for the token
`tok = argv[i]`; `next` is `argv[i + 1]` when `i + 1 < argc`.  Returns the new state and
whether the body advanced `i` by one.  The table `lookup` built by `parse` holds names
of registered options only; for any other table a name without an entry in `options_`
counts as taking no value. -/
def dispatch_step (lookup : Char → Option string_t) (p : parser τ) (tok : string_t)
    (next : Option string_t) : parser τ × Bool :=
  if starts_with_two_dashes tok then
    match split_at_equals (tok.drop 2) with
    | some (name, value) => (p.set_option_value name value, false)
    | none =>
        let name := tok.drop 2
        match p.options_ name with
        | none => (p.push_error ("undefined option: --".toList ++ name), false)
        | some o =>
            if o.has_value then
              match next with
              | none => (p.push_error ("option needs value: --".toList ++ name), false)
              | some _ =>
                  -- `set_option(name, argv[i++])`: the value is `argv[i]`, the token
                  -- being examined, and `i` is advanced afterwards
                  (p.set_option_value name tok, true)
            else (p.set_option_name name, false)
  else if starts_with_dash tok then
    match tok.drop 1 with
    | [] => (p, false)
    | c :: cs =>
        let p1 := (cluster lookup p c cs).1
        let last := (cluster lookup p c cs).2
        match lookup last with
        | none => (p1.push_error ("undefined short option: -".toList ++ [last]), false)
        | some name =>
            if name = [] then
              (p1.push_error ("ambiguous short options: -".toList ++ [last]), false)
            else
              -- `i + 1 < argc && options_[lookup[last]]->has_value()`
              match next, (p1.options_ name).any option_base.has_value with
              | some value, true => (p1.set_option_value name value, true)
              | _, _ => (p1.set_option_name name, false)
  else ({ p with others_ := p.others_ ++ [tok] }, false)

/-- The dispatch loop `for (int i = 1; i != argc; ++i)` of `parse(argc, argv)`; the
argument is the list of tokens from index `i` on. -/
def dispatch (lookup : Char → Option string_t) : parser τ → List string_t → parser τ
  | p, [] => p
  | p, [tok] => (dispatch_step lookup p tok none).1
  | p, tok :: next :: toks =>
      if (dispatch_step lookup p tok (some next)).2 then
        dispatch lookup (dispatch_step lookup p tok (some next)).1 toks
      else dispatch lookup (dispatch_step lookup p tok (some next)).1 (next :: toks)

/-- The final loop of `parse(argc, argv)` over `options_`. -/
def validate (p : parser τ) : List string_t → parser τ
  | [] => p
  | key :: keys =>
      match p.options_ key with
      | none => validate p keys
      | some o =>
          if !o.is_valid then validate (p.push_error ("need option: --".toList ++ key)) keys
          else validate p keys

/-- The overload `parse(int argc, const char* const argv[])`; `argv` lists the `argc`
C strings, `traversal` the keys of `options_` in the order the map enumerates them. -/
def parse (p : parser τ) (traversal : List string_t) (argv : List string_t) :
    Bool × parser τ :=
  let p0 : parser τ := { p with errors_ := [], others_ := [] }
  match argv with
  | [] => (false, p0.push_error "argument number must be longer than 0".toList)
  | argv0 :: toks =>
      let p1 : parser τ :=
        if p0.program_name_ = [] then { p0 with program_name_ := argv0 } else p0
      match build_lookup p1 traversal (fun _ => none) with
      | Except.error short_name =>
          (false, p1.push_error ("short option '".toList ++ [short_name] ++ "' is ambiguous".toList))
      | Except.ok lookup =>
          let p2 := validate (dispatch lookup p1 toks) traversal
          (p2.errors_.isEmpty, p2)

/-- The overload `parse(const std::vector<string_t>&)`. -/
def parse_vector (p : parser τ) (traversal : List string_t) (args : List string_t) :
    Bool × parser τ :=
  parse p traversal (args.map c_str)

/-- The scanning loop of `parse(const string_t&)`, from the characters still to read,
the tokens finished so far, the token under construction and the quote flag: the
tokens, the last buffer and the quote flag at the end of the input, or `none` when a
backslash is the last character. -/
def scan : string_t → List string_t → string_t → Bool → Option (List string_t × string_t × Bool)
  | [], args, buf, in_quote => some (args, buf, in_quote)
  | c :: cs, args, buf, in_quote =>
      if c = '"' then scan cs args buf (!in_quote)
      else if c = ' ' ∧ in_quote = false then scan cs (args ++ [buf]) [] in_quote
      else if c = '\\' then
        match cs with
        | [] => none
        | d :: ds => scan ds args (buf ++ [d]) in_quote
      else scan cs args (buf ++ [c]) in_quote

/-- The overload `parse(const string_t&)`. -/
def parse_string (p : parser τ) (traversal : List string_t) (arg : string_t) :
    Bool × parser τ :=
  match scan arg [] [] false with
  | none => (false, p.push_error "unexpected occurrence of '\\' at end of string".toList)
  | some (args, buf, in_quote) =>
      if in_quote then (false, p.push_error "quote is not closed".toList)
      else if buf ≠ [] then parse_vector p traversal (args ++ [buf])
      else parse_vector p traversal args

/-- The tokenizer part of `parse(const string_t&)`: the vector `args` handed to
`parse(const std::vector<string_t>&)`, or the message of the tokenization error. -/
def tokenize (arg : string_t) : Except string_t (List string_t) :=
  match scan arg [] [] false with
  | none => Except.error "unexpected occurrence of '\\' at end of string".toList
  | some (args, buf, in_quote) =>
      if in_quote then Except.error "quote is not closed".toList
      else if buf ≠ [] then Except.ok (args ++ [buf])
      else Except.ok args

/-- The objects the pointers of `ordered_` refer to, in order; `none` when a name of the
list has no entry in `options_` (no member function produces such a state). -/
def resolve (p : parser τ) : List string_t → Option (List (option_base τ))
  | [] => some []
  | k :: ks =>
      match p.options_ k, resolve p ks with
      | some o, some os => some (o :: os)
      | _, _ => none

/-- The algorithm `std::max_element(first, last, comp)`: the first greatest element, and
`none` for an empty range, where the returned iterator is `last`. -/
def max_element {α : Type} (comp : α → α → Bool) : List α → Option α
  | [] => none
  | x :: xs => some (xs.foldl (fun largest y => if comp largest y then y else largest) x)

/-- The first loop of `usage()`: the short descriptions of the required options. -/
def usage_required : List (option_base τ) → string_t
  | [] => []
  | item :: items =>
      if item.is_required then item.short_description ++ " ".toList ++ usage_required items
      else usage_required items

/-- The padding loop `for (length_t j = ...; j != max_width + 4; ++j) oss << ' '` from
the current value of `j`, with at most `fuel` iterations: the characters written, or
`none` when the loop is still running after `fuel` iterations. -/
def padding : Nat → Nat → Nat → Option string_t
  | 0, j, bound => if j = bound then some [] else none
  | fuel + 1, j, bound =>
      if j = bound then some [] else (padding fuel (j + 1) bound).map (fun s => ' ' :: s)

/-- The second loop of `usage()`: one line per option. -/
def usage_lines (fuel max_width : Nat) : List (option_base τ) → Option string_t
  | [] => some []
  | item :: items =>
      match padding fuel item.name.length (max_width + 4), usage_lines fuel max_width items with
      | some pad, some lines =>
          some ((if item.short_name != NUL then "  -".toList ++ [item.short_name] ++ ", ".toList
              else "      ".toList) ++
            "--".toList ++ item.name ++ pad ++ item.description ++ "\n".toList ++ lines)
      | _, _ => none

/-- The body of `usage()` for the objects `items` that `ordered_` points to.  The result
is `none` when `max_element` has no element to read (its result is dereferenced
unchecked) or when a padding loop does not stop within `fuel` iterations. -/
def usage_text (fuel : Nat) (p : parser τ) (items : List (option_base τ)) : Option string_t :=
  match max_element (fun lhs rhs => decide (lhs.name.length < rhs.name.length)) items with
  | none => none
  | some widest =>
      (usage_lines fuel widest.name.length items).map (fun lines =>
        "Usage: ".toList ++ p.program_name_ ++ " ".toList ++ usage_required items ++
          "[options] ... ".toList ++ p.footer_ ++ "\n".toList ++
          "Options:".toList ++ "\n".toList ++ lines)

/-- The member `usage()`, each padding loop running for at most `fuel` iterations. -/
def usage (fuel : Nat) (p : parser τ) : Option string_t :=
  match resolve p p.ordered_ with
  | none => none
  | some items => usage_text fuel p items

end parser

end model

/-! ## Readers -/

section readers

/-- The `default_reader<T>` call operator, over the conversion `lexical_cast<T>` from
`std::string` (performed by the stream library). -/
def default_reader {V : Type} (lexical_cast : string_t → Option V) (str : string_t) : Option V :=
  lexical_cast str

/-- The `range_reader<T>` call operator. -/
def range_reader {V : Type} [LT V] [DecidableRel (fun (a b : V) => a < b)]
    (lexical_cast : string_t → Option V) (begin_ end_ : V) (str : string_t) : Option V :=
  match default_reader lexical_cast str with
  | none => none
  | some ret => if ret > end_ ∨ ret < begin_ then none else some ret

/-- The `oneof_reader<T>` call operator; `allowed_` lists the elements of the set. -/
def oneof_reader {V : Type} [DecidableEq V]
    (lexical_cast : string_t → Option V) (allowed_ : List V) (str : string_t) : Option V :=
  match default_reader lexical_cast str with
  | none => none
  | some ret => if ret ∈ allowed_ then some ret else none

end readers

/-! ## The registry of the sample program -/

namespace sample

/-- The template arguments used by the sample program. -/
inductive cpp_type
  | int_
  | string_
  deriving DecidableEq, Repr

/-- Decimal digits of a natural number, most significant first. -/
def digits_of (n : Nat) : string_t := (Nat.toDigits 10 n)

/-- The text written by `operator<<` for an `int`. -/
def int_to_stream (v : Int) : string_t :=
  if v < 0 then '-' :: digits_of v.natAbs else digits_of v.natAbs

instance : value_types cpp_type where
  carrier
    | cpp_type.int_ => Int
    | cpp_type.string_ => string_t
  category
    | cpp_type.int_ => detail.type_category.Integral
    | cpp_type.string_ => detail.type_category.String
  to_stream
    | cpp_type.int_ => int_to_stream
    | cpp_type.string_ => fun s => s

/-- The value of a run of decimal digits read left to right from `acc`; `none` when a
character is not a digit. -/
def read_digits : string_t → Nat → Option Nat
  | [], acc => some acc
  | c :: cs, acc =>
      if '0' ≤ c ∧ c ≤ '9' then read_digits cs (10 * acc + (c.toNat - '0'.toNat)) else none

/-- The classification `std::isspace` of the classic locale, which the formatted
extraction uses to skip leading white space: space, `\t`, `\n`, `\v`, `\f` and `\r`. -/
def isspace (c : Char) : Bool :=
  c == ' ' || c == '\t' || c == '\n' || c == Char.ofNat 11 || c == Char.ofNat 12 || c == '\r'

/-- The conversion `lexical_cast<int>` from a string: formatted extraction of an `int`
that must consume the whole text (optional sign, at least one digit, a value that fits
32 bits; leading white space is skipped by the stream). -/
def lexical_cast_int (str : string_t) : Option Int :=
  let body := str.dropWhile isspace
  let signed : Option (Bool × string_t) :=
    match body with
    | '-' :: ds => some (true, ds)
    | '+' :: ds => some (false, ds)
    | ds => some (false, ds)
  match signed with
  | none => none
  | some (_, []) => none
  | some (neg, ds) =>
      match read_digits ds 0 with
      | none => none
      | some n =>
          let v : Int := if neg then -(n : Int) else (n : Int)
          if -2147483648 ≤ v ∧ v ≤ 2147483647 then some v else none

/-- The conversion `lexical_cast<std::string>` from a string. -/
def lexical_cast_string (str : string_t) : Option string_t := some str

/-- The reader `range(1, 65535)` of the option `port`. -/
def port_reader : string_t → Option Int := range_reader lexical_cast_int 1 65535

/-- The registry of the specification's example: `host` (string, required) and `port`
(int, default 80, range 1..65535). -/
def host_port : parser cpp_type :=
  let p0 : parser cpp_type := parser.empty
  let p1 := (p0.add_value cpp_type.string_ "host".toList 'h' "host name".toList true
    ([] : string_t) (default_reader lexical_cast_string)).2
  (p1.add_value cpp_type.int_ "port".toList 'p' "port number".toList false
    (80 : Int) port_reader).2

/-- One enumeration order of the two keys of `host_port`. -/
def host_port_keys : List string_t := ["host".toList, "port".toList]

/-- A registry in which the flags `all` and `append` both declare the short name `a`,
next to the string option `name` with the short name `n`. -/
def clash : parser cpp_type :=
  let p0 : parser cpp_type := parser.empty
  let p1 := (p0.add "all".toList 'a' "select everything".toList).2
  let p2 := (p1.add "append".toList 'a' "append to the output".toList).2
  (p2.add_value cpp_type.string_ "name".toList 'n' "a name".toList false
    ([] : string_t) (default_reader lexical_cast_string)).2

/-- One enumeration order of the keys of `clash`. -/
def clash_keys : List string_t := ["all".toList, "append".toList, "name".toList]

/-- A registry of three string options with distinct short names: the name of the first
contains `=`, the short name of the second is `-`, the name of the third is empty. -/
def odd_names : parser cpp_type :=
  let p0 : parser cpp_type := parser.empty
  let p1 := (p0.add_value cpp_type.string_ "a=b".toList 'x' "".toList false
    ([] : string_t) (default_reader lexical_cast_string)).2
  let p2 := (p1.add_value cpp_type.string_ "dash".toList '-' "".toList false
    ([] : string_t) (default_reader lexical_cast_string)).2
  (p2.add_value cpp_type.string_ "".toList 'e' "".toList false
    ([] : string_t) (default_reader lexical_cast_string)).2

/-- One enumeration order of the keys of `odd_names`. -/
def odd_names_keys : List string_t := ["a=b".toList, "dash".toList, "".toList]

/-- The registry of the clustering example: the flags `a`, `b` and `c`, each with its
name as short name. -/
def abc : parser cpp_type :=
  let p0 : parser cpp_type := parser.empty
  let p1 := (p0.add "a".toList 'a' [] ).2
  let p2 := (p1.add "b".toList 'b' []).2
  (p2.add "c".toList 'c' []).2

/-- The registry `abc` extended by the flags `x` and `y`, which both declare the short
name `z`. -/
def abc_clash : parser cpp_type :=
  ((abc.add "x".toList 'z' []).2.add "y".toList 'z' []).2

/-- A registry with the single flag `dash`, whose short name is `-`. -/
def dash_flag : parser cpp_type :=
  ((parser.empty : parser cpp_type).add "dash".toList '-' []).2

/-- The values of the floating-point type `double`, a legal value type of the parser, as
far as the comparisons `<`, `>` and `<=` of `range_reader<double>` are concerned: minus
infinity, a finite number, plus infinity, or NaN. -/
inductive fp_value
  | neg_inf
  | finite (q : ℚ)
  | pos_inf
  | nan
  deriving DecidableEq

/-- The comparison `a < b` of two `double`s: false whenever an operand is NaN. -/
def fp_value.lt : fp_value → fp_value → Bool
  | fp_value.nan, _ => false
  | _, fp_value.nan => false
  | _, fp_value.neg_inf => false
  | fp_value.neg_inf, _ => true
  | fp_value.pos_inf, _ => false
  | fp_value.finite _, fp_value.pos_inf => true
  | fp_value.finite a, fp_value.finite b => decide (a < b)

/-- The comparison `a <= b` of two `double`s: false whenever an operand is NaN. -/
def fp_value.le : fp_value → fp_value → Bool
  | fp_value.nan, _ => false
  | _, fp_value.nan => false
  | fp_value.neg_inf, _ => true
  | _, fp_value.pos_inf => true
  | _, fp_value.neg_inf => false
  | fp_value.pos_inf, _ => false
  | fp_value.finite a, fp_value.finite b => decide (a ≤ b)

instance : LT fp_value := ⟨fun a b => fp_value.lt a b = true⟩

instance : LE fp_value := ⟨fun a b => fp_value.le a b = true⟩

instance : DecidableRel (fun (a b : fp_value) => a < b) :=
  fun a b => inferInstanceAs (Decidable (fp_value.lt a b = true))

instance : DecidableRel (fun (a b : fp_value) => a ≤ b) :=
  fun a b => inferInstanceAs (Decidable (fp_value.le a b = true))

end sample

/-! ## Notions used to state the properties -/

section notions

variable {τ : Type} [value_types τ]

/-- The list `traversal` is an enumeration of the map `options_`: every key once. -/
def enumerates (p : parser τ) (traversal : List string_t) : Prop :=
  traversal.Nodup ∧ ∀ k, k ∈ traversal ↔ (p.options_ k).isSome = true

/-- The option registered under the non-empty name `k` declares the short name `c`. -/
def declares_short (p : parser τ) (c : Char) (k : string_t) : Prop :=
  k ≠ [] ∧ c ≠ NUL ∧ ∃ o, p.options_ k = some o ∧ o.short_name = c

/-- No short name is declared by two options (with non-empty names). -/
def short_names_distinct (p : parser τ) : Prop :=
  ∀ c k1 k2, declares_short p c k1 → declares_short p c k2 → k1 = k2

/-- The message of the validation pass for the key `k`. -/
def need_option (k : string_t) : string_t := "need option: --".toList ++ k

/-- The messages the validation pass produces on the keys `keys`, in order. -/
def missing (p : parser τ) : List string_t → List string_t
  | [] => []
  | key :: keys =>
      match p.options_ key with
      | none => missing p keys
      | some o => if !o.is_valid then need_option key :: missing p keys else missing p keys

/-- The tokens that do not start with `-` and do not directly follow a token starting
with `-`; `after_dash` tells whether the token before the list starts with `-`. -/
def positional_tokens : Bool → List string_t → List string_t
  | _, [] => []
  | after_dash, tok :: toks =>
      if parser.starts_with_dash tok then positional_tokens true toks
      else if after_dash then positional_tokens false toks
      else tok :: positional_tokens false toks

/-- The part of an option object that no member function changes: the object with
`has_set_` and `actual_value_` put back to their initial values. -/
def option_base.static_part : option_base τ → option_base τ
  | option_base.without_value o => option_base.without_value { o with has_set_ := false }
  | option_base.with_value T o =>
      option_base.with_value T { o with has_set_ := false, actual_value_ := o.default_value_ }

/-- Two parser states hold the same options up to `has_set_` and `actual_value_`. -/
def same_static (p q : parser τ) : Prop :=
  ∀ k, (p.options_ k).map option_base.static_part = (q.options_ k).map option_base.static_part

/-- The state `P` comes from `p` by assignments to options and by appending to both
result lists; the appended errors are none of the validation pass. -/
def evolves (p P : parser τ) : Prop :=
  P.ordered_ = p.ordered_ ∧ P.footer_ = p.footer_ ∧ P.program_name_ = p.program_name_ ∧
  same_static P p ∧
  (∃ es, P.errors_ = p.errors_ ++ es ∧ ∀ e ∈ es, e.head? ≠ some 'n') ∧
  (∃ rs, P.others_ = p.others_ ++ rs)

/-- Two runs, from `p` to `P` and from `q` to `Q`, append the same errors and the same
positional arguments, and leave every option either untouched in both or equal in both. -/
def in_step (p q P Q : parser τ) : Prop :=
  (∃ es, P.errors_ = p.errors_ ++ es ∧ Q.errors_ = q.errors_ ++ es) ∧
  (∃ rs, P.others_ = p.others_ ++ rs ∧ Q.others_ = q.others_ ++ rs) ∧
  (∀ k, (P.options_ k = p.options_ k ∧ Q.options_ k = q.options_ k) ∨
    P.options_ k = Q.options_ k)

/-- The state after the entry block of `parse(argc, argv)` for `argc >= 1`: both result
lists cleared and the program name taken from `argv[0]` when none was set. -/
def prepare (p : parser τ) (argv0 : string_t) : parser τ :=
  if p.program_name_ = [] then
    { p with errors_ := [], others_ := [], program_name_ := argv0 }
  else { p with errors_ := [], others_ := [] }

/-- The state `s` reports the option under `n` as assigned the value `r`, with no
positional argument and no error other than validation messages about other keys. -/
def assigned_cleanly [DecidableEq τ] (s : parser τ) (keys : List string_t) (n : string_t)
    (T : τ) (r : carrier T) : Prop :=
  s.get T n = Except.ok r ∧ s.exist n = Except.ok true ∧ s.rest = [] ∧
  ∀ e ∈ s.errors, ∃ k, k ≠ n ∧ k ∈ keys ∧ e = need_option k

/-- The parser states that the member functions produce from a default-constructed
parser, whatever order the map enumerates its entries in. -/
inductive reachable : parser τ → Prop
  | empty : reachable parser.empty
  | add (p : parser τ) (name : string_t) (c : Char) (d : string_t) :
      reachable p → reachable (p.add name c d).2
  | add_value (p : parser τ) (T : τ) (name : string_t) (c : Char) (d : string_t) (req : Bool)
      (dv : carrier T) (rd : string_t → Option (carrier T)) :
      reachable p → reachable (p.add_value T name c d req dv rd).2
  | set_footer (p : parser τ) (footer : string_t) : reachable p → reachable (p.set_footer footer)
  | set_program_name (p : parser τ) (program_name : string_t) :
      reachable p → reachable (p.set_program_name program_name)
  | parse (p : parser τ) (traversal argv : List string_t) :
      reachable p → reachable (p.parse traversal argv).2
  | parse_vector (p : parser τ) (traversal args : List string_t) :
      reachable p → reachable (p.parse_vector traversal args).2
  | parse_string (p : parser τ) (traversal : List string_t) (arg : string_t) :
      reachable p → reachable (p.parse_string traversal arg).2

/-- The registry invariant: `ordered_` lists every key of `options_` once, and every
option is stored under its own name. -/
def registry_ok (p : parser τ) : Prop :=
  p.ordered_.Nodup ∧ (∀ k, k ∈ p.ordered_ ↔ (p.options_ k).isSome = true) ∧
  ∀ k o, p.options_ k = some o → o.name = k

/-- Every value-taking option whose `has_set_` flag is false holds its default value. -/
def defaults_kept (p : parser τ) : Prop :=
  ∀ k T (o : option_with_value T), p.options_ k = some (option_base.with_value T o) →
    o.has_set_ = false → o.actual_value_ = o.default_value_

/-- One call of `parse`, through any of its three overloads. -/
inductive parse_call
  | argv (args : List string_t)
  | vector (args : List string_t)
  | text (arg : string_t)

/-- The state after one call of `parse`. -/
def run_call (traversal : List string_t) (p : parser τ) : parse_call → parser τ
  | parse_call.argv args => (p.parse traversal args).2
  | parse_call.vector args => (p.parse_vector traversal args).2
  | parse_call.text arg => (p.parse_string traversal arg).2

/-- The state after a sequence of calls of `parse`. -/
def run_calls (traversal : List string_t) (p : parser τ) (calls : List parse_call) : parser τ :=
  calls.foldl (run_call traversal) p

/-- The option object `o'` is `o` after a successful assignment: a flag that has been
set, or a value-taking option holding a value its reader returned. -/
def assigned_from (o o' : option_base τ) : Prop :=
  match o with
  | option_base.without_value a => o' = option_base.without_value { a with has_set_ := true }
  | option_base.with_value T a =>
      ∃ v r, a.reader_ v = some r ∧
        o' = option_base.with_value T { a with actual_value_ := r, has_set_ := true }

/-- The quote state at the end of a string read from the quote state `in_quote`, a
backslash hiding the character after it; `none` when a backslash has nothing after it. -/
def scan_state : string_t → Bool → Option Bool
  | [], in_quote => some in_quote
  | c :: cs, in_quote =>
      if c = '"' then scan_state cs (!in_quote)
      else if c = '\\' then
        match cs with
        | [] => none
        | _ :: ds => scan_state ds in_quote
      else scan_state cs in_quote

/-- The string without its quote markers, its escape backslashes and its delimiter
spaces (the spaces neither inside quotes nor directly after a backslash). -/
def stripped : string_t → Bool → string_t
  | [], _ => []
  | c :: cs, in_quote =>
      if c = '"' then stripped cs (!in_quote)
      else if c = '\\' then
        match cs with
        | [] => []
        | d :: ds => d :: stripped ds in_quote
      else if c = ' ' ∧ in_quote = false then stripped cs in_quote
      else c :: stripped cs in_quote

/-- The number of delimiter spaces of the string. -/
def delimiters : string_t → Bool → Nat
  | [], _ => 0
  | c :: cs, in_quote =>
      if c = '"' then delimiters cs (!in_quote)
      else if c = '\\' then
        match cs with
        | [] => 0
        | _ :: ds => delimiters ds in_quote
      else if c = ' ' ∧ in_quote = false then delimiters cs in_quote + 1
      else delimiters cs in_quote

/-- The length of the longest name among the options. -/
def longest_name (items : List (option_base τ)) : Nat :=
  (items.map (fun o => o.name.length)).foldr max 0

/-- The short alias prefix of an option line. -/
def alias_prefix (o : option_base τ) : string_t :=
  if o.short_name = NUL then "      ".toList else "  -".toList ++ [o.short_name] ++ ", ".toList

/-- The part of an option line in front of the description. -/
def line_front (maxlen : Nat) (o : option_base τ) : string_t :=
  alias_prefix o ++ "--".toList ++ o.name ++ List.replicate (maxlen + 4 - o.name.length) ' '

/-- The reference rendering of the usage text for the options `items`, listed in
declaration order. -/
def reference_usage (p : parser τ) (items : List (option_base τ)) : string_t :=
  "Usage: ".toList ++ p.program_name_ ++ " ".toList ++
    ((items.filter (fun o => o.is_required)).map
      (fun o => o.short_description ++ " ".toList)).flatten ++
    "[options] ... ".toList ++ p.footer_ ++ "\n".toList ++
    "Options:".toList ++ "\n".toList ++
    (items.map (fun o => line_front (longest_name items) o ++ o.description ++ "\n".toList)).flatten

/-- From the state `p` to the state `P` every option is either left as it was or
successfully assigned. -/
def assigns (p P : parser τ) : Prop :=
  ∀ k, P.options_ k = p.options_ k ∨
    ∃ o o', p.options_ k = some o ∧ P.options_ k = some o' ∧ assigned_from o o'

/-- From `p` to `P` nothing was appended to the result lists, every flag is still a
flag, and a flag that was set is still set. -/
def keeps_flags (p P : parser τ) : Prop :=
  P.errors_ = p.errors_ ∧ P.others_ = p.others_ ∧
  ∀ k a, p.options_ k = some (option_base.without_value a) →
    ∃ a', P.options_ k = some (option_base.without_value a') ∧
      (a.has_set_ = true → a'.has_set_ = true)

/-- The flag registered under `k` is set. -/
def flag_is_set (p : parser τ) (k : string_t) : Prop :=
  ∃ a, p.options_ k = some (option_base.without_value a) ∧ a.has_set_ = true

end notions

/-! ## Basic facts about the state transformers -/

section basic

variable {τ : Type} [value_types τ]

namespace parser

@[simp] theorem push_error_errors (p : parser τ) (msg : string_t) :
    (p.push_error msg).errors_ = p.errors_ ++ [msg] := rfl

@[simp] theorem push_error_others (p : parser τ) (msg : string_t) :
    (p.push_error msg).others_ = p.others_ := rfl

@[simp] theorem push_error_options (p : parser τ) (msg : string_t) :
    (p.push_error msg).options_ = p.options_ := rfl

@[simp] theorem push_error_ordered (p : parser τ) (msg : string_t) :
    (p.push_error msg).ordered_ = p.ordered_ := rfl

@[simp] theorem push_error_footer (p : parser τ) (msg : string_t) :
    (p.push_error msg).footer_ = p.footer_ := rfl

@[simp] theorem push_error_program_name (p : parser τ) (msg : string_t) :
    (p.push_error msg).program_name_ = p.program_name_ := rfl

theorem push_error_errors_ne_nil (p : parser τ) (msg : string_t) :
    (p.push_error msg).errors_ ≠ [] := by
  simp

theorem dispatch_nil (lookup : Char → Option string_t) (p : parser τ) :
    dispatch lookup p [] = p := rfl

theorem dispatch_cons (lookup : Char → Option string_t) (p : parser τ) (tok : string_t)
    (toks : List string_t) :
    dispatch lookup p (tok :: toks) =
      dispatch lookup (dispatch_step lookup p tok toks.head?).1
        (if (dispatch_step lookup p tok toks.head?).2 then toks.tail else toks) := by
  cases toks with
  | nil =>
      have h : dispatch lookup p [tok] = (dispatch_step lookup p tok none).1 := rfl
      rw [h]
      simp [dispatch_nil]
  | cons next toks =>
      have h : dispatch lookup p (tok :: next :: toks) =
          if (dispatch_step lookup p tok (some next)).2 then
            dispatch lookup (dispatch_step lookup p tok (some next)).1 toks
          else dispatch lookup (dispatch_step lookup p tok (some next)).1 (next :: toks) := rfl
      rw [h]
      simp only [List.head?_cons, List.tail_cons]
      split <;> rfl

/-- Induction along the iterations of the dispatch loop. -/
theorem dispatch_induction (lookup : Char → Option string_t)
    (R : parser τ → List string_t → parser τ → Prop)
    (hnil : ∀ p, R p [] p)
    (hcons : ∀ p tok toks P,
      R (dispatch_step lookup p tok toks.head?).1
        (if (dispatch_step lookup p tok toks.head?).2 then toks.tail else toks) P →
      R p (tok :: toks) P) :
    ∀ (toks : List string_t) (p : parser τ), R p toks (dispatch lookup p toks) := by
  intro toks
  generalize hn : toks.length = n
  induction n using Nat.strong_induction_on generalizing toks with
  | _ n ih =>
    intro p
    cases toks with
    | nil => rw [dispatch_nil]; exact hnil p
    | cons tok toks =>
        rw [dispatch_cons]
        apply hcons
        refine ih _ ?_ _ rfl _
        simp only [List.length_cons] at hn
        split
        · simp only [List.length_tail]; omega
        · omega

/-- The validation pass only appends its messages. -/
theorem validate_eq (p : parser τ) (keys : List string_t) :
    validate p keys = { p with errors_ := p.errors_ ++ missing p keys } := by
  induction keys generalizing p with
  | nil => simp [validate, missing]
  | cons key keys ih =>
      rw [validate, missing]
      cases h : p.options_ key with
      | none => simp only [ih]
      | some o =>
          by_cases hv : (!o.is_valid) = true
          · simp only [hv, if_true]
            rw [ih]
            have hm : missing (p.push_error ("need option: --".toList ++ key)) keys
                = missing p keys := by
              clear ih h
              induction keys with
              | nil => rfl
              | cons k ks ihk => simp only [missing, push_error_options, ihk]
            rw [hm]
            simp [need_option, push_error]
          · simp only [hv, if_false]
            exact ih p

end parser

theorem need_option_injective (a b : string_t) (h : need_option a = need_option b) : a = b := by
  unfold need_option at h
  exact List.append_cancel_left h

/-- On a duplicate-free list of keys the validation pass names a key once when the option
under it is required and not set, and not at all otherwise. -/
theorem count_missing (p : parser τ) (keys : List string_t) (hnd : keys.Nodup) (n : string_t) :
    (missing p keys).count (need_option n) =
      if n ∈ keys ∧ ∃ o, p.options_ n = some o ∧ o.is_valid = false then 1 else 0 := by
  induction keys with
  | nil => simp [missing]
  | cons key keys ih =>
      have hk : key ∉ keys := (List.nodup_cons.mp hnd).1
      have ih' := ih (List.nodup_cons.mp hnd).2
      rw [missing]
      by_cases hn : n = key
      · subst hn
        have h0 : (missing p keys).count (need_option n) = 0 := by
          rw [ih']; simp [hk]
        cases h : p.options_ n with
        | none => simp [h0]
        | some o =>
            cases hv : o.is_valid with
            | true => simp [h0, hv]
            | false => simp [h0, hv]
      · have hne : need_option key ≠ need_option n := fun h => hn (need_option_injective _ _ h).symm
        have hmem : (n ∈ key :: keys) ↔ n ∈ keys := by simp [hn]
        cases h : p.options_ key with
        | none => simp only [ih', hmem]
        | some o =>
            cases hv : o.is_valid with
            | true => simp [ih', hn, hv]
            | false =>
                simp only [hv, Bool.not_false, if_true]
                rw [List.count_cons_of_ne hne.symm, ih']
                simp only [hmem]

/-! ### The short-name table -/

theorem build_lookup_cons (p : parser τ) (key : string_t) (keys : List string_t)
    (lookup : Char → Option string_t) :
    parser.build_lookup p (key :: keys) lookup =
      if key = [] then parser.build_lookup p keys lookup
      else
        match p.options_ key with
        | none => parser.build_lookup p keys lookup
        | some o =>
            if o.short_name != NUL then
              if (lookup o.short_name).isSome then Except.error o.short_name
              else
                parser.build_lookup p keys
                  (fun c => if c = o.short_name then some key else lookup c)
            else parser.build_lookup p keys lookup := rfl

theorem not_declares_short_of_skipped (p : parser τ) (key : string_t)
    (h : key = [] ∨ p.options_ key = none ∨ ∃ o, p.options_ key = some o ∧ o.short_name = NUL)
    (c : Char) : ¬ declares_short p c key := by
  rintro ⟨hne, hc, o, ho, hs⟩
  rcases h with h | h | ⟨o', ho', hs'⟩
  · exact hne h
  · rw [h] at ho; cases ho
  · rw [ho'] at ho
    cases ho
    exact hc (hs ▸ hs')

/-- When no short name is declared twice the table is built, and it maps a character to
the key that declares it. -/
theorem build_lookup_ok (p : parser τ) (hd : short_names_distinct p) :
    ∀ (keys : List string_t) (lk0 : Char → Option string_t), keys.Nodup →
      (∀ c k, lk0 c = some k → declares_short p c k ∧ k ∉ keys) →
      ∃ lk, parser.build_lookup p keys lk0 = Except.ok lk ∧
        ∀ c k, lk c = some k ↔ (lk0 c = some k ∨ (k ∈ keys ∧ declares_short p c k)) := by
  intro keys
  induction keys with
  | nil =>
      intro lk0 _ _
      exact ⟨lk0, rfl, by simp⟩
  | cons key keys ih =>
      intro lk0 hnd h0
      obtain ⟨hk, hnd'⟩ := List.nodup_cons.mp hnd
      have h0' : ∀ c k, lk0 c = some k → declares_short p c k ∧ k ∉ keys :=
        fun c k h => ⟨(h0 c k h).1, fun hm => (h0 c k h).2 (List.mem_cons_of_mem _ hm)⟩
      have skip : (∀ c, ¬ declares_short p c key) →
          ∃ lk, parser.build_lookup p keys lk0 = Except.ok lk ∧
            ∀ c k, lk c = some k ↔
              (lk0 c = some k ∨ (k ∈ key :: keys ∧ declares_short p c k)) := by
        intro hno
        obtain ⟨lk, hlk, hspec⟩ := ih lk0 hnd' h0'
        refine ⟨lk, hlk, fun c k => ?_⟩
        rw [hspec]
        constructor
        · rintro (h | ⟨hm, hdk⟩)
          · exact Or.inl h
          · exact Or.inr ⟨List.mem_cons_of_mem _ hm, hdk⟩
        · rintro (h | ⟨hm, hdk⟩)
          · exact Or.inl h
          · rcases List.mem_cons.mp hm with rfl | hm
            · exact absurd hdk (hno c)
            · exact Or.inr ⟨hm, hdk⟩
      rw [build_lookup_cons]
      by_cases he : key = []
      · rw [if_pos he]
        exact skip (not_declares_short_of_skipped p key (Or.inl he))
      · rw [if_neg he]
        cases ho : p.options_ key with
        | none => exact skip (not_declares_short_of_skipped p key (Or.inr (Or.inl ho)))
        | some o =>
            by_cases hs : o.short_name = NUL
            · have : (o.short_name != NUL) = false := by simp [hs]
              simp only [this]
              exact skip (not_declares_short_of_skipped p key (Or.inr (Or.inr ⟨o, ho, hs⟩)))
            · have hs' : (o.short_name != NUL) = true := by simp [hs]
              have hdecl : declares_short p o.short_name key := ⟨he, hs, o, ho, rfl⟩
              have hfree : lk0 o.short_name = none := by
                cases hl : lk0 o.short_name with
                | none => rfl
                | some k' =>
                    have := h0 _ _ hl
                    have heq := hd _ _ _ this.1 hdecl
                    exact absurd (heq ▸ List.mem_cons_self _ _) this.2
              simp only [hs', hfree, if_true, Option.isSome_none, Bool.false_eq_true, if_false]
              have h1 : ∀ c k, (fun c => if c = o.short_name then some key else lk0 c) c = some k →
                  declares_short p c k ∧ k ∉ keys := by
                intro c k hck
                by_cases hc : c = o.short_name
                · simp only [hc, if_true, Option.some.injEq] at hck
                  subst hck
                  exact ⟨hc ▸ hdecl, hk⟩
                · simp only [hc, if_false] at hck
                  exact h0' c k hck
              obtain ⟨lk, hlk, hspec⟩ := ih _ hnd' h1
              refine ⟨lk, hlk, fun c k => ?_⟩
              rw [hspec]
              constructor
              · rintro (h | ⟨hm, hdk⟩)
                · by_cases hc : c = o.short_name
                  · simp only [hc, if_true, Option.some.injEq] at h
                    subst h
                    exact Or.inr ⟨List.mem_cons_self _ _, hc ▸ hdecl⟩
                  · simp only [hc, if_false] at h
                    exact Or.inl h
                · exact Or.inr ⟨List.mem_cons_of_mem _ hm, hdk⟩
              · rintro (h | ⟨hm, hdk⟩)
                · by_cases hc : c = o.short_name
                  · rw [hc, hfree] at h; cases h
                  · left; simp only [hc, if_false]; exact h
                · rcases List.mem_cons.mp hm with rfl | hm
                  · obtain ⟨_, _, o', ho', hs''⟩ := hdk
                    rw [ho] at ho'
                    cases ho'
                    left
                    simp [hs'']
                  · exact Or.inr ⟨hm, hdk⟩

/-- When two different keys of the list declare the same short name, or a key of the
list declares one that is already in the table, building the table fails. -/
theorem build_lookup_error (p : parser τ) :
    ∀ (keys : List string_t) (lk0 : Char → Option string_t),
      ((∃ k1 k2 c, k1 ∈ keys ∧ k2 ∈ keys ∧ k1 ≠ k2 ∧ declares_short p c k1 ∧
          declares_short p c k2) ∨
        (∃ k1 c, k1 ∈ keys ∧ declares_short p c k1 ∧ (lk0 c).isSome = true)) →
      ∃ c, parser.build_lookup p keys lk0 = Except.error c := by
  intro keys
  induction keys with
  | nil =>
      intro lk0 h
      rcases h with ⟨k1, _, _, h1, _⟩ | ⟨k1, _, h1, _⟩ <;> cases h1
  | cons key keys ih =>
      intro lk0 h
      have skip : (∀ c, ¬ declares_short p c key) →
          ∃ c, parser.build_lookup p keys lk0 = Except.error c := by
        intro hno
        apply ih
        rcases h with ⟨k1, k2, c, h1, h2, hne, hd1, hd2⟩ | ⟨k1, c, h1, hd1, hl⟩
        · rcases List.mem_cons.mp h1 with e1 | m1
          · exact absurd (e1 ▸ hd1) (hno c)
          · rcases List.mem_cons.mp h2 with e2 | m2
            · exact absurd (e2 ▸ hd2) (hno c)
            · exact Or.inl ⟨k1, k2, c, m1, m2, hne, hd1, hd2⟩
        · rcases List.mem_cons.mp h1 with e1 | m1
          · exact absurd (e1 ▸ hd1) (hno c)
          · exact Or.inr ⟨k1, c, m1, hd1, hl⟩
      rw [build_lookup_cons]
      by_cases he : key = []
      · rw [if_pos he]
        exact skip (not_declares_short_of_skipped p key (Or.inl he))
      · rw [if_neg he]
        cases ho : p.options_ key with
        | none => exact skip (not_declares_short_of_skipped p key (Or.inr (Or.inl ho)))
        | some o =>
            by_cases hs : o.short_name = NUL
            · have : (o.short_name != NUL) = false := by simp [hs]
              simp only [this]
              exact skip (not_declares_short_of_skipped p key (Or.inr (Or.inr ⟨o, ho, hs⟩)))
            · have hs' : (o.short_name != NUL) = true := by simp [hs]
              have hdecl : declares_short p o.short_name key := ⟨he, hs, o, ho, rfl⟩
              have hkey : ∀ c, declares_short p c key → c = o.short_name := by
                rintro c ⟨_, _, o', ho', hs''⟩
                rw [ho] at ho'
                cases ho'
                exact hs''.symm
              simp only [hs', if_true]
              cases hl0 : (lk0 o.short_name).isSome with
              | true => exact ⟨o.short_name, by simp⟩
              | false =>
                  simp only [Bool.false_eq_true, if_false]
                  apply ih
                  rcases h with ⟨k1, k2, c, h1, h2, hne, hd1, hd2⟩ | ⟨k1, c, h1, hd1, hl⟩
                  · rcases List.mem_cons.mp h1 with e1 | m1
                    · rcases List.mem_cons.mp h2 with e2 | m2
                      · exact absurd (e1.trans e2.symm) hne
                      · have hc := hkey c (e1 ▸ hd1)
                        exact Or.inr ⟨k2, c, m2, hd2, by simp [hc]⟩
                    · rcases List.mem_cons.mp h2 with e2 | m2
                      · have hc := hkey c (e2 ▸ hd2)
                        exact Or.inr ⟨k1, c, m1, hd1, by simp [hc]⟩
                      · exact Or.inl ⟨k1, k2, c, m1, m2, hne, hd1, hd2⟩
                  · rcases List.mem_cons.mp h1 with e1 | m1
                    · have hc := hkey c (e1 ▸ hd1)
                      rw [hc, hl0] at hl
                      cases hl
                    · refine Or.inr ⟨k1, c, m1, hd1, ?_⟩
                      by_cases hc : c = o.short_name
                      · simp [hc]
                      · simp [hc, hl]

/-- Building the table reads only the short names of the options. -/
theorem build_lookup_congr (p q : parser τ)
    (h : ∀ k, (p.options_ k).map option_base.short_name =
      (q.options_ k).map option_base.short_name) :
    ∀ (keys : List string_t) (lk0 : Char → Option string_t),
      parser.build_lookup p keys lk0 = parser.build_lookup q keys lk0 := by
  intro keys
  induction keys with
  | nil => intro lk0; rfl
  | cons key keys ih =>
      intro lk0
      rw [build_lookup_cons, build_lookup_cons]
      have hk := h key
      cases hp : p.options_ key with
      | none =>
          cases hq : q.options_ key with
          | none => simp only [ih]
          | some o' => rw [hp, hq] at hk; cases hk
      | some o =>
          cases hq : q.options_ key with
          | none => rw [hp, hq] at hk; cases hk
          | some o' =>
              rw [hp, hq] at hk
              simp only [Option.map_some', Option.some.injEq] at hk
              simp only [hk, ih]

/-! ### Option objects -/

namespace option_base

theorem static_part_set (o : option_base τ) : o.set.1.static_part = o.static_part := by
  cases o <;> rfl

theorem static_part_set_value (o : option_base τ) (v : string_t) :
    (o.set_value v).1.static_part = o.static_part := by
  cases o with
  | without_value o => rfl
  | with_value T o =>
      simp only [set_value, option_with_value.set_value]
      cases o.reader_ v <;> rfl

theorem has_value_static (o : option_base τ) : o.static_part.has_value = o.has_value := by
  cases o <;> rfl

theorem short_name_static (o : option_base τ) : o.static_part.short_name = o.short_name := by
  cases o <;> rfl

theorem has_value_eq_of_static {o o' : option_base τ} (h : o.static_part = o'.static_part) :
    o.has_value = o'.has_value := by
  rw [← has_value_static o, h, has_value_static]

theorem short_name_eq_of_static {o o' : option_base τ} (h : o.static_part = o'.static_part) :
    o.short_name = o'.short_name := by
  rw [← short_name_static o, h, short_name_static]

/-- For two objects with the same static part, `set()` returns the same flag and either
changes neither object or makes them equal. -/
theorem set_of_static {o o' : option_base τ} (h : o.static_part = o'.static_part) :
    o.set.2 = o'.set.2 ∧ ((o.set.1 = o ∧ o'.set.1 = o') ∨ o.set.1 = o'.set.1) := by
  cases o with
  | without_value a =>
      cases o' with
      | without_value b =>
          simp only [static_part, without_value.injEq, option_without_value.mk.injEq] at h
          refine ⟨rfl, Or.inr ?_⟩
          simp only [set, without_value.injEq, option_without_value.mk.injEq]
          exact ⟨h.1, h.2.1, h.2.2.1, trivial⟩
      | with_value T b => simp [static_part] at h
  | with_value T a =>
      cases o' with
      | without_value b => simp [static_part] at h
      | with_value T' b => exact ⟨rfl, Or.inl ⟨rfl, rfl⟩⟩

/-- For two objects with the same static part, `set(value)` returns the same flag and
either changes neither object or makes them equal. -/
theorem set_value_of_static {o o' : option_base τ} (h : o.static_part = o'.static_part)
    (v : string_t) :
    (o.set_value v).2 = (o'.set_value v).2 ∧
      (((o.set_value v).1 = o ∧ (o'.set_value v).1 = o') ∨
        (o.set_value v).1 = (o'.set_value v).1) := by
  cases o with
  | without_value a =>
      cases o' with
      | without_value b => exact ⟨rfl, Or.inl ⟨rfl, rfl⟩⟩
      | with_value T b => simp [static_part] at h
  | with_value T a =>
      cases o' with
      | without_value b => simp [static_part] at h
      | with_value T' b =>
          simp only [static_part, with_value.injEq] at h
          obtain ⟨hT, hab⟩ := h
          subst hT
          simp only [heq_eq_eq, option_with_value.mk.injEq] at hab
          obtain ⟨h1, h2, h3, _, h5, _, h7, h8⟩ := hab
          simp only [set_value, option_with_value.set_value, h8]
          cases hr : b.reader_ v with
          | none => exact ⟨rfl, Or.inl ⟨rfl, rfl⟩⟩
          | some r =>
              refine ⟨rfl, Or.inr ?_⟩
              simp only [with_value.injEq, heq_eq_eq, option_with_value.mk.injEq, true_and]
              exact ⟨h1, h2, h3, h5, h7, trivial⟩

end option_base

/-! ### Runs that only assign and append -/

theorem same_static_refl (p : parser τ) : same_static p p := fun _ => rfl

theorem same_static_symm {p q : parser τ} (h : same_static p q) : same_static q p :=
  fun k => (h k).symm

theorem same_static_trans {p q r : parser τ} (h1 : same_static p q) (h2 : same_static q r) :
    same_static p r := fun k => (h1 k).trans (h2 k)

theorem same_static_of_options {p q : parser τ} (h : p.options_ = q.options_) :
    same_static p q := fun k => by rw [h]

theorem same_static_insert (p : parser τ) (name : string_t) (o o' : option_base τ)
    (ho : p.options_ name = some o) (hs : o'.static_part = o.static_part) :
    same_static { p with options_ := p.insert_option name o' } p := by
  intro k
  by_cases hk : k = name
  · simp [parser.insert_option, hk, ho, hs]
  · simp [parser.insert_option, hk]

theorem evolves_refl (p : parser τ) : evolves p p :=
  ⟨rfl, rfl, rfl, same_static_refl p, ⟨[], by simp⟩, ⟨[], by simp⟩⟩

theorem evolves_trans {p q r : parser τ} (h1 : evolves p q) (h2 : evolves q r) :
    evolves p r := by
  obtain ⟨a1, b1, c1, s1, ⟨es1, e1, he1⟩, ⟨rs1, r1⟩⟩ := h1
  obtain ⟨a2, b2, c2, s2, ⟨es2, e2, he2⟩, ⟨rs2, r2⟩⟩ := h2
  refine ⟨a2.trans a1, b2.trans b1, c2.trans c1, same_static_trans s2 s1,
    ⟨es1 ++ es2, by rw [e2, e1, List.append_assoc], ?_⟩, ⟨rs1 ++ rs2, by rw [r2, r1, List.append_assoc]⟩⟩
  intro e he
  rcases List.mem_append.mp he with h | h
  · exact he1 e h
  · exact he2 e h

theorem evolves_push_error (p : parser τ) (msg : string_t) (h : msg.head? ≠ some 'n') :
    evolves p (p.push_error msg) :=
  ⟨rfl, rfl, rfl, same_static_refl p, ⟨[msg], rfl, by simpa using h⟩, ⟨[], by simp⟩⟩

theorem evolves_set_option_name (p : parser τ) (name : string_t) :
    evolves p (p.set_option_name name) := by
  unfold parser.set_option_name
  cases ho : p.options_ name with
  | none => exact evolves_push_error p _ (by simp)
  | some o =>
      have h1 : evolves p { p with options_ := p.insert_option name o.set.1 } :=
        ⟨rfl, rfl, rfl, same_static_insert p name o _ ho (option_base.static_part_set o),
          ⟨[], by simp⟩, ⟨[], by simp⟩⟩
      dsimp only
      split
      · exact evolves_trans h1 (evolves_push_error _ _ (by simp))
      · exact h1

theorem evolves_set_option_value (p : parser τ) (name value : string_t) :
    evolves p (p.set_option_value name value) := by
  unfold parser.set_option_value
  cases ho : p.options_ name with
  | none => exact evolves_push_error p _ (by simp)
  | some o =>
      have h1 : evolves p { p with options_ := p.insert_option name (o.set_value value).1 } :=
        ⟨rfl, rfl, rfl,
          same_static_insert p name o _ ho (option_base.static_part_set_value o value),
          ⟨[], by simp⟩, ⟨[], by simp⟩⟩
      dsimp only
      split
      · exact evolves_trans h1 (evolves_push_error _ _ (by simp))
      · exact h1

theorem evolves_cluster (lookup : Char → Option string_t) (cs : string_t) :
    ∀ (p : parser τ) (last : Char), evolves p (parser.cluster lookup p last cs).1 := by
  induction cs with
  | nil => intro p last; exact evolves_refl p
  | cons c cs ih =>
      intro p last
      rw [parser.cluster]
      split
      · exact evolves_trans (evolves_push_error p _ (by simp)) (ih _ _)
      · split
        · exact evolves_trans (evolves_push_error p _ (by simp)) (ih _ _)
        · exact evolves_trans (evolves_set_option_name p _) (ih _ _)

theorem evolves_others (p : parser τ) (tok : string_t) :
    evolves p { p with others_ := p.others_ ++ [tok] } :=
  ⟨rfl, rfl, rfl, same_static_refl p, ⟨[], by simp⟩, ⟨[tok], rfl⟩⟩

theorem evolves_dispatch_step (lookup : Char → Option string_t) (p : parser τ)
    (tok : string_t) (next : Option string_t) :
    evolves p (parser.dispatch_step lookup p tok next).1 := by
  unfold parser.dispatch_step
  split
  · split
    · exact evolves_set_option_value p _ _
    · dsimp only
      split
      · exact evolves_push_error p _ (by simp)
      · split
        · split
          · exact evolves_push_error p _ (by simp)
          · exact evolves_set_option_value p _ _
        · exact evolves_set_option_name p _
  · split
    · split
      · exact evolves_refl p
      · dsimp only
        split
        · exact evolves_trans (evolves_cluster lookup _ p _) (evolves_push_error _ _ (by simp))
        · split
          · exact evolves_trans (evolves_cluster lookup _ p _) (evolves_push_error _ _ (by simp))
          · split
            · exact evolves_trans (evolves_cluster lookup _ p _) (evolves_set_option_value _ _ _)
            · exact evolves_trans (evolves_cluster lookup _ p _) (evolves_set_option_name _ _)
    · exact evolves_others p tok

theorem evolves_dispatch (lookup : Char → Option string_t) (toks : List string_t)
    (p : parser τ) : evolves p (parser.dispatch lookup p toks) :=
  parser.dispatch_induction lookup (fun p _ P => evolves p P) evolves_refl
    (fun p tok toks _ h => evolves_trans (evolves_dispatch_step lookup p tok toks.head?) h)
    toks p

/-! ### Two runs side by side -/

theorem same_static_of_evolves {p q P Q : parser τ} (h : same_static p q)
    (hp : evolves p P) (hq : evolves q Q) : same_static P Q :=
  same_static_trans hp.2.2.2.1 (same_static_trans h (same_static_symm hq.2.2.2.1))

theorem in_step_refl (p q : parser τ) : in_step p q p q :=
  ⟨⟨[], by simp⟩, ⟨[], by simp⟩, fun _ => Or.inl ⟨rfl, rfl⟩⟩

theorem in_step_trans {p q p1 q1 P Q : parser τ} (h1 : in_step p q p1 q1)
    (h2 : in_step p1 q1 P Q) : in_step p q P Q := by
  obtain ⟨⟨es1, e1, e1'⟩, ⟨rs1, r1, r1'⟩, o1⟩ := h1
  obtain ⟨⟨es2, e2, e2'⟩, ⟨rs2, r2, r2'⟩, o2⟩ := h2
  refine ⟨⟨es1 ++ es2, by rw [e2, e1, List.append_assoc], by rw [e2', e1', List.append_assoc]⟩,
    ⟨rs1 ++ rs2, by rw [r2, r1, List.append_assoc], by rw [r2', r1', List.append_assoc]⟩, ?_⟩
  intro k
  rcases o2 k with ⟨a, b⟩ | c
  · rcases o1 k with ⟨a', b'⟩ | c'
    · exact Or.inl ⟨a.trans a', b.trans b'⟩
    · exact Or.inr (a.trans (c'.trans b.symm))
  · exact Or.inr c

theorem in_step_push_error (p q : parser τ) (msg : string_t) :
    in_step p q (p.push_error msg) (q.push_error msg) :=
  ⟨⟨[msg], rfl, rfl⟩, ⟨[], by simp⟩, fun _ => Or.inl ⟨rfl, rfl⟩⟩

theorem in_step_others (p q : parser τ) (tok : string_t) :
    in_step p q { p with others_ := p.others_ ++ [tok] } { q with others_ := q.others_ ++ [tok] } :=
  ⟨⟨[], by simp⟩, ⟨[tok], rfl, rfl⟩, fun _ => Or.inl ⟨rfl, rfl⟩⟩

theorem in_step_insert (p q : parser τ) (name : string_t) (o o' x x' : option_base τ)
    (hp : p.options_ name = some o) (hq : q.options_ name = some o')
    (hx : (x = o ∧ x' = o') ∨ x = x') :
    in_step p q { p with options_ := p.insert_option name x }
      { q with options_ := q.insert_option name x' } := by
  refine ⟨⟨[], by simp⟩, ⟨[], by simp⟩, ?_⟩
  intro k
  by_cases hk : k = name
  · rcases hx with ⟨a, b⟩ | c
    · left
      simp [parser.insert_option, hk, hp, hq, a, b]
    · right
      simp [parser.insert_option, hk, c]
  · left
    simp [parser.insert_option, hk]

theorem static_of_same_static {p q : parser τ} (h : same_static p q) {name : string_t}
    {o o' : option_base τ} (hp : p.options_ name = some o) (hq : q.options_ name = some o') :
    o.static_part = o'.static_part := by
  have hk := h name
  rw [hp, hq] at hk
  simpa using hk

theorem none_of_same_static {p q : parser τ} (h : same_static p q) {name : string_t}
    (hp : p.options_ name = none) : q.options_ name = none := by
  have hk := h name
  rw [hp] at hk
  cases hq : q.options_ name with
  | none => rfl
  | some o' => rw [hq] at hk; cases hk

theorem in_step_set_option_name {p q : parser τ} (h : same_static p q) (name : string_t) :
    in_step p q (p.set_option_name name) (q.set_option_name name) := by
  unfold parser.set_option_name
  cases hp : p.options_ name with
  | none =>
      rw [none_of_same_static h hp]
      exact in_step_push_error p q _
  | some o =>
      cases hq : q.options_ name with
      | none => rw [none_of_same_static (same_static_symm h) hq] at hp; cases hp
      | some o' =>
          obtain ⟨hflag, hobj⟩ := option_base.set_of_static (static_of_same_static h hp hq)
          have h1 := in_step_insert p q name o o' o.set.1 o'.set.1 hp hq hobj
          dsimp only
          rw [hflag]
          split
          · exact in_step_trans h1 (in_step_push_error _ _ _)
          · exact h1

theorem in_step_set_option_value {p q : parser τ} (h : same_static p q) (name value : string_t) :
    in_step p q (p.set_option_value name value) (q.set_option_value name value) := by
  unfold parser.set_option_value
  cases hp : p.options_ name with
  | none =>
      rw [none_of_same_static h hp]
      exact in_step_push_error p q _
  | some o =>
      cases hq : q.options_ name with
      | none => rw [none_of_same_static (same_static_symm h) hq] at hp; cases hp
      | some o' =>
          obtain ⟨hflag, hobj⟩ :=
            option_base.set_value_of_static (static_of_same_static h hp hq) value
          have h1 := in_step_insert p q name o o' (o.set_value value).1 (o'.set_value value).1
            hp hq hobj
          dsimp only
          rw [hflag]
          split
          · exact in_step_trans h1 (in_step_push_error _ _ _)
          · exact h1

theorem in_step_cluster (lookup : Char → Option string_t) (cs : string_t) :
    ∀ (p q : parser τ) (last : Char), same_static p q →
      (parser.cluster lookup p last cs).2 = (parser.cluster lookup q last cs).2 ∧
      in_step p q (parser.cluster lookup p last cs).1 (parser.cluster lookup q last cs).1 := by
  induction cs with
  | nil => intro p q last _; exact ⟨rfl, in_step_refl p q⟩
  | cons c cs ih =>
      intro p q last h
      rw [parser.cluster, parser.cluster]
      cases hl : lookup last with
      | none =>
          dsimp only
          have h' := same_static_of_evolves h (evolves_push_error p
            ("undefined short option: -".toList ++ [last]) (by simp))
            (evolves_push_error q ("undefined short option: -".toList ++ [last]) (by simp))
          exact ⟨(ih _ _ c h').1, in_step_trans (in_step_push_error p q _) (ih _ _ c h').2⟩
      | some name =>
          dsimp only
          by_cases hn : name = []
          · simp only [hn, if_true]
            have h' := same_static_of_evolves h (evolves_push_error p
              ("ambiguous short options: -".toList ++ [last]) (by simp))
              (evolves_push_error q ("ambiguous short options: -".toList ++ [last]) (by simp))
            exact ⟨(ih _ _ c h').1, in_step_trans (in_step_push_error p q _) (ih _ _ c h').2⟩
          · simp only [hn, if_false]
            have h' := same_static_of_evolves h (evolves_set_option_name p name)
              (evolves_set_option_name q name)
            exact ⟨(ih _ _ c h').1,
              in_step_trans (in_step_set_option_name h name) (ih _ _ c h').2⟩

theorem any_has_value_of_same_static {p q : parser τ} (h : same_static p q)
    (name : string_t) :
    (p.options_ name).any option_base.has_value = (q.options_ name).any option_base.has_value := by
  cases hp : p.options_ name with
  | none => rw [none_of_same_static h hp]
  | some o =>
      cases hq : q.options_ name with
      | none => rw [none_of_same_static (same_static_symm h) hq] at hp; cases hp
      | some o' =>
          simp only [Option.any_some]
          exact option_base.has_value_eq_of_static (static_of_same_static h hp hq)

theorem in_step_dispatch_step (lookup : Char → Option string_t) {p q : parser τ}
    (h : same_static p q) (tok : string_t) (next : Option string_t) :
    (parser.dispatch_step lookup p tok next).2 = (parser.dispatch_step lookup q tok next).2 ∧
    in_step p q (parser.dispatch_step lookup p tok next).1
      (parser.dispatch_step lookup q tok next).1 := by
  unfold parser.dispatch_step
  by_cases h2 : parser.starts_with_two_dashes tok = true
  · simp only [h2, if_true]
    cases hs : parser.split_at_equals (tok.drop 2) with
    | some nv =>
        obtain ⟨name, value⟩ := nv
        exact ⟨rfl, in_step_set_option_value h name value⟩
    | none =>
        dsimp only
        cases hp : p.options_ (tok.drop 2) with
        | none =>
            rw [none_of_same_static h hp]
            exact ⟨rfl, in_step_push_error p q _⟩
        | some o =>
            cases hq : q.options_ (tok.drop 2) with
            | none => rw [none_of_same_static (same_static_symm h) hq] at hp; cases hp
            | some o' =>
                dsimp only
                rw [option_base.has_value_eq_of_static (static_of_same_static h hp hq)]
                cases o'.has_value with
                | true =>
                    cases next with
                    | none => exact ⟨rfl, in_step_push_error p q _⟩
                    | some v => exact ⟨rfl, in_step_set_option_value h _ _⟩
                | false => exact ⟨rfl, in_step_set_option_name h _⟩
  · simp only [h2, Bool.false_eq_true, if_false]
    by_cases h1 : parser.starts_with_dash tok = true
    · simp only [h1, if_true]
      cases hd : tok.drop 1 with
      | nil => exact ⟨rfl, in_step_refl p q⟩
      | cons c cs =>
          dsimp only
          obtain ⟨hlast, hcl⟩ := in_step_cluster lookup cs p q c h
          have hst := same_static_of_evolves h (evolves_cluster lookup cs p c)
            (evolves_cluster lookup cs q c)
          rw [← hlast]
          cases hl : lookup (parser.cluster lookup p c cs).2 with
          | none => exact ⟨rfl, in_step_trans hcl (in_step_push_error _ _ _)⟩
          | some name =>
              dsimp only
              by_cases hn : name = []
              · simp only [hn, if_true]
                exact ⟨trivial, in_step_trans hcl (in_step_push_error _ _ _)⟩
              · simp only [hn, if_false]
                rw [← any_has_value_of_same_static hst name]
                cases next with
                | none => exact ⟨rfl, in_step_trans hcl (in_step_set_option_name hst name)⟩
                | some v =>
                    cases ((parser.cluster lookup p c cs).1.options_ name).any
                      option_base.has_value with
                    | true => exact ⟨rfl, in_step_trans hcl (in_step_set_option_value hst name v)⟩
                    | false => exact ⟨rfl, in_step_trans hcl (in_step_set_option_name hst name)⟩
    · simp only [h1, Bool.false_eq_true, if_false]
      exact ⟨trivial, in_step_others p q tok⟩

/-- Two dispatch runs over the same tokens from states with the same static parts append
the same errors and positional arguments and touch the same options in the same way. -/
theorem in_step_dispatch (lookup : Char → Option string_t) (toks : List string_t)
    (p : parser τ) :
    ∀ q, same_static p q →
      in_step p q (parser.dispatch lookup p toks) (parser.dispatch lookup q toks) :=
  parser.dispatch_induction lookup
    (fun p toks P => ∀ q, same_static p q → in_step p q P (parser.dispatch lookup q toks))
    (fun p q _ => in_step_refl p q)
    (fun p tok toks P ih q h => by
      obtain ⟨hflag, hstep⟩ := in_step_dispatch_step lookup h tok toks.head?
      have hst := same_static_of_evolves h (evolves_dispatch_step lookup p tok toks.head?)
        (evolves_dispatch_step lookup q tok toks.head?)
      rw [parser.dispatch_cons, ← hflag]
      exact in_step_trans hstep (ih _ hst))
    toks p

/-! ### The whole of `parse` -/

theorem parser_ext {p q : parser τ} (h1 : p.options_ = q.options_) (h2 : p.ordered_ = q.ordered_)
    (h3 : p.footer_ = q.footer_) (h4 : p.program_name_ = q.program_name_)
    (h5 : p.others_ = q.others_) (h6 : p.errors_ = q.errors_) : p = q := by
  cases p
  cases q
  simp only [parser.mk.injEq]
  exact ⟨h1, h2, h3, h4, h5, h6⟩

theorem parse_nil (p : parser τ) (traversal : List string_t) :
    p.parse traversal [] =
      (false, ({ p with errors_ := [], others_ := [] } : parser τ).push_error
        "argument number must be longer than 0".toList) := rfl

theorem parse_cons (p : parser τ) (traversal : List string_t) (argv0 : string_t)
    (toks : List string_t) :
    p.parse traversal (argv0 :: toks) =
      match parser.build_lookup (prepare p argv0) traversal (fun _ => none) with
      | Except.error short_name =>
          (false, (prepare p argv0).push_error
            ("short option '".toList ++ [short_name] ++ "' is ambiguous".toList))
      | Except.ok lookup =>
          ((parser.validate (parser.dispatch lookup (prepare p argv0) toks)
              traversal).errors_.isEmpty,
            parser.validate (parser.dispatch lookup (prepare p argv0) toks) traversal) := by
  unfold parser.parse prepare
  by_cases h : p.program_name_ = []
  · simp only [h, if_true]
  · simp only [h, if_false]

@[simp] theorem prepare_options (p : parser τ) (argv0 : string_t) :
    (prepare p argv0).options_ = p.options_ := by
  unfold prepare; split <;> rfl

@[simp] theorem prepare_errors (p : parser τ) (argv0 : string_t) :
    (prepare p argv0).errors_ = [] := by
  unfold prepare; split <;> rfl

@[simp] theorem prepare_others (p : parser τ) (argv0 : string_t) :
    (prepare p argv0).others_ = [] := by
  unfold prepare; split <;> rfl

@[simp] theorem prepare_ordered (p : parser τ) (argv0 : string_t) :
    (prepare p argv0).ordered_ = p.ordered_ := by
  unfold prepare; split <;> rfl

@[simp] theorem prepare_footer (p : parser τ) (argv0 : string_t) :
    (prepare p argv0).footer_ = p.footer_ := by
  unfold prepare; split <;> rfl

theorem prepare_program_name (p : parser τ) (argv0 : string_t) :
    (prepare p argv0).program_name_ = if p.program_name_ = [] then argv0 else p.program_name_ := by
  unfold prepare; split <;> rfl

/-- Preparing a state that already went through `prepare` (and whose options were
assigned in between) changes nothing but the two result lists. -/
theorem prepare_again (p V : parser τ) (argv0 : string_t)
    (h2 : V.ordered_ = (prepare p argv0).ordered_) (h3 : V.footer_ = (prepare p argv0).footer_)
    (h4 : V.program_name_ = (prepare p argv0).program_name_) :
    prepare V argv0 = { prepare p argv0 with options_ := V.options_ } := by
  apply parser_ext
  · simp
  · simp [h2]
  · simp [h3]
  · rw [prepare_program_name, h4]
    simp only [prepare_program_name]
    by_cases h : p.program_name_ = []
    · simp [h]
    · simp [h]
  · simp
  · simp

theorem validate_options (p : parser τ) (keys : List string_t) :
    (parser.validate p keys).options_ = p.options_ := by
  rw [parser.validate_eq]

/-- Running `parse` a second time on the same argument vector reproduces the state and
the result of the first run. -/
theorem parse_parse (p : parser τ) (traversal : List string_t) (argv : List string_t) :
    (p.parse traversal argv).2.parse traversal argv = p.parse traversal argv := by
  cases argv with
  | nil => rfl
  | cons argv0 toks =>
      rw [parse_cons p]
      cases hb : parser.build_lookup (prepare p argv0) traversal (fun _ => none) with
      | error c =>
          dsimp only
          rw [parse_cons]
          have hprep : prepare ((prepare p argv0).push_error
              ("short option '".toList ++ [c] ++ "' is ambiguous".toList)) argv0
              = prepare p argv0 := by
            rw [prepare_again p ((prepare p argv0).push_error
              ("short option '".toList ++ [c] ++ "' is ambiguous".toList)) argv0 rfl rfl rfl]
            rfl
          rw [hprep, hb]
      | ok lk =>
          dsimp only
          rw [parse_cons]
          have hev := evolves_dispatch lk toks (prepare p argv0)
          obtain ⟨hord, hfoot, hname, hstat, -, -⟩ := hev
          have hprep : prepare (parser.validate (parser.dispatch lk (prepare p argv0) toks)
              traversal) argv0 =
              { prepare p argv0 with
                options_ := (parser.dispatch lk (prepare p argv0) toks).options_ } := by
            rw [prepare_again p _ argv0]
            · rw [validate_options]
            · rw [parser.validate_eq]; exact hord
            · rw [parser.validate_eq]; exact hfoot
            · rw [parser.validate_eq]; exact hname
          rw [hprep]
          have hss : same_static (prepare p argv0)
              { prepare p argv0 with
                options_ := (parser.dispatch lk (prepare p argv0) toks).options_ } :=
            same_static_symm hstat
          have hb' : parser.build_lookup
              { prepare p argv0 with
                options_ := (parser.dispatch lk (prepare p argv0) toks).options_ }
              traversal (fun _ => none) = Except.ok lk := by
            rw [← hb]
            apply build_lookup_congr
            intro k
            have hk := hss k
            cases h1 : (prepare p argv0).options_ k with
            | none =>
                have := none_of_same_static hss h1
                simp only at this
                simp [this]
            | some o =>
                cases h2 : (parser.dispatch lk (prepare p argv0) toks).options_ k with
                | none =>
                    have h3 := none_of_same_static (same_static_symm hss) h2
                    rw [h1] at h3
                    cases h3
                | some o' =>
                    have := static_of_same_static hss h1 h2
                    simp [option_base.short_name_eq_of_static this]
          rw [hb']
          dsimp only
          obtain ⟨⟨es, he1, he2⟩, ⟨rs, hr1, hr2⟩, hopt⟩ :=
            in_step_dispatch lk toks (prepare p argv0) _ hss
          obtain ⟨hord', hfoot', hname', -, -, -⟩ := evolves_dispatch lk toks
            ({ prepare p argv0 with
                options_ := (parser.dispatch lk (prepare p argv0) toks).options_ } : parser τ)
          have hD : parser.dispatch lk
              { prepare p argv0 with
                options_ := (parser.dispatch lk (prepare p argv0) toks).options_ } toks =
              parser.dispatch lk (prepare p argv0) toks := by
            apply parser_ext
            · funext k
              rcases hopt k with ⟨a, b⟩ | c
              · rw [b]
              · exact c.symm
            · rw [hord', hord]
            · rw [hfoot', hfoot]
            · rw [hname', hname]
            · rw [hr2, hr1]
            · rw [he2, he1]
          rw [hD]

/-! ### Positional arguments -/

theorem starts_with_dash_of_two_dashes (tok : string_t)
    (h : parser.starts_with_two_dashes tok = true) : parser.starts_with_dash tok = true := by
  unfold parser.starts_with_two_dashes at h
  split at h
  · rfl
  · cases h

@[simp] theorem set_option_name_others (p : parser τ) (name : string_t) :
    (p.set_option_name name).others_ = p.others_ := by
  unfold parser.set_option_name
  split
  · rfl
  · dsimp only
    split <;> rfl

@[simp] theorem set_option_value_others (p : parser τ) (name value : string_t) :
    (p.set_option_value name value).others_ = p.others_ := by
  unfold parser.set_option_value
  split
  · rfl
  · dsimp only
    split <;> rfl

@[simp] theorem cluster_others (lookup : Char → Option string_t) (cs : string_t) :
    ∀ (p : parser τ) (last : Char), (parser.cluster lookup p last cs).1.others_ = p.others_ := by
  induction cs with
  | nil => intro p last; rfl
  | cons c cs ih =>
      intro p last
      rw [parser.cluster]
      split
      · rw [ih]; rfl
      · split
        · rw [ih]; rfl
        · rw [ih, set_option_name_others]

/-- A token that does not start with `-` is appended to the positional list, and the
loop goes on with the token after it. -/
theorem dispatch_step_positional (lookup : Char → Option string_t) (p : parser τ)
    (tok : string_t) (next : Option string_t) (h : parser.starts_with_dash tok = false) :
    parser.dispatch_step lookup p tok next = ({ p with others_ := p.others_ ++ [tok] }, false) := by
  have h2 : parser.starts_with_two_dashes tok = false := by
    cases h' : parser.starts_with_two_dashes tok with
    | false => rfl
    | true => rw [starts_with_dash_of_two_dashes tok h'] at h; cases h
  unfold parser.dispatch_step
  simp [h, h2]

/-- A token that starts with `-` leaves the positional list as it is. -/
theorem dispatch_step_dash_others (lookup : Char → Option string_t) (p : parser τ)
    (tok : string_t) (next : Option string_t) (h : parser.starts_with_dash tok = true) :
    (parser.dispatch_step lookup p tok next).1.others_ = p.others_ := by
  unfold parser.dispatch_step
  split
  · split
    · simp
    · dsimp only
      split
      · rfl
      · split
        · split
          · rfl
          · simp
        · simp
  · simp only [h, if_true]
    split
    · rfl
    · split
      · simp
      · split
        · simp
        · split
          · simp
          · simp

theorem positional_tokens_mono (toks : List string_t) :
    (positional_tokens true toks).Sublist (positional_tokens false toks) := by
  cases toks with
  | nil => exact List.Sublist.refl _
  | cons tok toks =>
      rw [positional_tokens, positional_tokens]
      split
      · exact List.Sublist.refl _
      · simp

theorem positional_tokens_sublist_false (b : Bool) (toks : List string_t) :
    (positional_tokens b toks).Sublist (positional_tokens false toks) := by
  cases b with
  | false => exact List.Sublist.refl _
  | true => exact positional_tokens_mono toks

/-- The positional list grows by a subsequence of the tokens that contains every token
neither starting with `-` nor directly following one that does. -/
theorem dispatch_others (lookup : Char → Option string_t) (toks : List string_t)
    (p : parser τ) :
    ∃ rs, (parser.dispatch lookup p toks).others_ = p.others_ ++ rs ∧ rs.Sublist toks ∧
      (positional_tokens false toks).Sublist rs :=
  parser.dispatch_induction lookup
    (fun p toks P => ∃ rs, P.others_ = p.others_ ++ rs ∧ rs.Sublist toks ∧
      (positional_tokens false toks).Sublist rs)
    (fun p => ⟨[], by simp, List.Sublist.refl _, by simp [positional_tokens]⟩)
    (fun p tok toks P ih => by
      obtain ⟨rs, h1, h2, h3⟩ := ih
      cases hd : parser.starts_with_dash tok with
      | false =>
          rw [dispatch_step_positional lookup p tok _ hd] at h1 h2 h3
          simp only [Bool.false_eq_true, if_false] at h1 h2 h3
          refine ⟨tok :: rs, by rw [h1]; simp, h2.cons₂ tok, ?_⟩
          rw [positional_tokens]
          simp only [hd, Bool.false_eq_true, if_false]
          exact h3.cons₂ tok
      | true =>
          rw [dispatch_step_dash_others lookup p tok _ hd] at h1
          refine ⟨rs, h1, ?_, ?_⟩
          · refine List.Sublist.cons tok (h2.trans ?_)
            split
            · exact List.tail_sublist toks
            · exact List.Sublist.refl _
          · rw [positional_tokens]
            simp only [hd, if_true]
            refine List.Sublist.trans ?_ h3
            split
            · cases toks with
              | nil => simp [positional_tokens]
              | cons next t =>
                  rw [positional_tokens]
                  simp only [List.tail_cons, if_true]
                  split
                  · exact positional_tokens_mono t
                  · exact List.Sublist.refl _
            · exact positional_tokens_mono toks)
    toks p

theorem mem_positional_tokens :
    ∀ (toks : List string_t) (b : Bool) (i : Nat) (tok : string_t),
      toks[i]? = some tok → parser.starts_with_dash tok = false → (i = 0 → b = false) →
      (∀ j prev, i = j + 1 → toks[j]? = some prev → parser.starts_with_dash prev = false) →
      tok ∈ positional_tokens b toks := by
  intro toks
  induction toks with
  | nil => intro b i tok h; simp at h
  | cons t ts ih =>
      intro b i tok h hd hb hprev
      rw [positional_tokens]
      cases i with
      | zero =>
          simp only [List.getElem?_cons_zero, Option.some.injEq] at h
          subst h
          simp [hd, hb rfl]
      | succ j =>
          simp only [List.getElem?_cons_succ] at h
          have hrec : ∀ b', (j = 0 → b' = false) → tok ∈ positional_tokens b' ts := by
            intro b' hb'
            refine ih b' j tok h hd hb' ?_
            intro j' prev hj hp
            exact hprev (j' + 1) prev (by omega) (by simpa using hp)
          split
          · rename_i hdt
            refine hrec true ?_
            intro hj
            have := hprev 0 t (by omega) (by simp)
            rw [this] at hdt
            cases hdt
          · split
            · exact hrec false (fun _ => rfl)
            · exact List.mem_cons_of_mem _ (hrec false (fun _ => rfl))

/-! ### Assigning one option -/

theorem split_at_equals_append (n v : string_t) (h : '=' ∉ n) :
    parser.split_at_equals (n ++ '=' :: v) = some (n, v) := by
  induction n with
  | nil => simp [parser.split_at_equals]
  | cons c cs ih =>
      have hc : c ≠ '=' := fun e => h (e ▸ List.mem_cons_self _ _)
      have hcs : '=' ∉ cs := fun e => h (List.mem_cons_of_mem _ e)
      simp [parser.split_at_equals, hc, ih hcs]

theorem mem_missing (p : parser τ) (keys : List string_t) (e : string_t)
    (h : e ∈ missing p keys) :
    ∃ k, k ∈ keys ∧ e = need_option k ∧ ∃ o, p.options_ k = some o ∧ o.is_valid = false := by
  induction keys with
  | nil => simp [missing] at h
  | cons key keys ih =>
      rw [missing] at h
      cases ho : p.options_ key with
      | none =>
          rw [ho] at h
          obtain ⟨k, hk, rest⟩ := ih h
          exact ⟨k, List.mem_cons_of_mem _ hk, rest⟩
      | some o =>
          rw [ho] at h
          dsimp only at h
          cases hv : o.is_valid with
          | true =>
              simp only [hv, Bool.not_true, Bool.false_eq_true, if_false] at h
              obtain ⟨k, hk, rest⟩ := ih h
              exact ⟨k, List.mem_cons_of_mem _ hk, rest⟩
          | false =>
              simp only [hv, Bool.not_false, if_true] at h
              rcases List.mem_cons.mp h with h | h
              · exact ⟨key, List.mem_cons_self _ _, h, o, ho, hv⟩
              · obtain ⟨k, hk, rest⟩ := ih h
                exact ⟨k, List.mem_cons_of_mem _ hk, rest⟩

/-- The effect of `set_option(name, value)` when the reader accepts the value. -/
theorem set_option_value_accepted (p : parser τ) (name v : string_t) (T : τ)
    (o : option_with_value T) (r : carrier T)
    (hreg : p.options_ name = some (option_base.with_value T o))
    (hacc : o.reader_ v = some r) :
    p.set_option_value name v =
      { p with
        options_ := p.insert_option name
          (option_base.with_value T { o with actual_value_ := r, has_set_ := true }) } := by
  simp [parser.set_option_value, hreg, option_base.set_value, option_with_value.set_value, hacc]

/-- What the queries report once `parse` has assigned `r` to the option under `name`
and dispatch has recorded nothing else. -/
theorem queries_after_assignment [DecidableEq τ] (p : parser τ) (keys : List string_t)
    (name : string_t) (T : τ) (o : option_with_value T) (r : carrier T)
    (herr : p.errors_ = []) (hoth : p.others_ = []) :
    (parser.validate
        { p with
          options_ := p.insert_option name
            (option_base.with_value T { o with actual_value_ := r, has_set_ := true }) }
        keys).get T name = Except.ok r ∧
    (parser.validate
        { p with
          options_ := p.insert_option name
            (option_base.with_value T { o with actual_value_ := r, has_set_ := true }) }
        keys).exist name = Except.ok true ∧
    (parser.validate
        { p with
          options_ := p.insert_option name
            (option_base.with_value T { o with actual_value_ := r, has_set_ := true }) }
        keys).rest = [] ∧
    ∀ e ∈ (parser.validate
        { p with
          options_ := p.insert_option name
            (option_base.with_value T { o with actual_value_ := r, has_set_ := true }) }
        keys).errors, ∃ k, k ≠ name ∧ k ∈ keys ∧ e = need_option k := by
  rw [parser.validate_eq]
  refine ⟨?_, ?_, ?_, ?_⟩
  · simp [parser.get, parser.insert_option, option_with_value.get]
  · simp [parser.exist, parser.insert_option, option_base.has_set]
  · simp [parser.rest, hoth]
  · intro e he
    simp only [parser.errors, herr, List.nil_append] at he
    obtain ⟨k, hk, hek, o', ho', hv⟩ := mem_missing _ _ _ he
    refine ⟨k, ?_, hk, hek⟩
    rintro rfl
    simp only [parser.insert_option, if_true, Option.some.injEq] at ho'
    subst ho'
    simp [option_base.is_valid, option_with_value.is_valid] at hv

/-! ### Registries with and without a short-name collision -/

theorem declares_short_prepare (p : parser τ) (argv0 : string_t) (c : Char) (k : string_t) :
    declares_short (prepare p argv0) c k ↔ declares_short p c k := by
  unfold declares_short
  rw [prepare_options]

/-- On a registry without short-name collision `parse` builds its table, which maps
every declared short name to the name of its option. -/
theorem lookup_of_registry (p : parser τ) (traversal : List string_t)
    (henum : enumerates p traversal) (hd : short_names_distinct p) (argv0 : string_t) :
    ∃ lk, parser.build_lookup (prepare p argv0) traversal (fun _ => none) = Except.ok lk ∧
      ∀ c k, lk c = some k ↔ declares_short p c k := by
  have hd' : short_names_distinct (prepare p argv0) := by
    intro c k1 k2 h1 h2
    exact hd c k1 k2 ((declares_short_prepare p argv0 c k1).mp h1)
      ((declares_short_prepare p argv0 c k2).mp h2)
  obtain ⟨lk, hlk, hspec⟩ := build_lookup_ok (prepare p argv0) hd' traversal (fun _ => none)
    henum.1 (by simp)
  refine ⟨lk, hlk, fun c k => ?_⟩
  rw [hspec, declares_short_prepare]
  constructor
  · rintro (h | ⟨_, h⟩)
    · cases h
    · exact h
  · intro h
    refine Or.inr ⟨?_, h⟩
    obtain ⟨_, _, o, ho, _⟩ := h
    exact (henum.2 k).mpr (by simp [ho])

/-- On a registry in which two keys of the traversal declare the same short name,
`parse` stops after the table construction with a single error. -/
theorem parse_of_collision (p : parser τ) (traversal : List string_t) (argv0 : string_t)
    (toks : List string_t) (k1 k2 : string_t) (c : Char) (h1 : k1 ∈ traversal)
    (h2 : k2 ∈ traversal) (hne : k1 ≠ k2) (hd1 : declares_short p c k1)
    (hd2 : declares_short p c k2) :
    ∃ c', p.parse traversal (argv0 :: toks) =
      (false, (prepare p argv0).push_error
        ("short option '".toList ++ [c'] ++ "' is ambiguous".toList)) := by
  obtain ⟨c', hc'⟩ := build_lookup_error (prepare p argv0) traversal (fun _ => none)
    (Or.inl ⟨k1, k2, c, h1, h2, hne, (declares_short_prepare p argv0 c k1).mpr hd1,
      (declares_short_prepare p argv0 c k2).mpr hd2⟩)
  exact ⟨c', by rw [parse_cons, hc']⟩

theorem is_valid_eq_false_iff (o : option_base τ) :
    o.is_valid = false ↔ o.is_required = true ∧ o.has_set = false := by
  cases o with
  | without_value a => simp [option_base.is_valid, option_base.is_required]
  | with_value T a =>
      simp [option_base.is_valid, option_base.is_required, option_base.has_set,
        option_with_value.is_valid]

theorem need_option_head (k : string_t) : (need_option k).head? = some 'n' := rfl

theorem starts_with_two_dashes_short (c : Char) (h : c ≠ '-') :
    parser.starts_with_two_dashes ['-', c] = false := by
  unfold parser.starts_with_two_dashes
  split
  · rename_i heq
    simp only [List.cons.injEq, true_and] at heq
    exact absurd heq.1 h
  · rfl

/-! ### Facts about the sample registries -/

theorem host_port_options (k : string_t) :
    sample.host_port.options_ k =
      if k = "port".toList then
        some (option_base.with_value sample.cpp_type.int_
          (option_with_value.mk_option sample.cpp_type.int_ "port".toList 'p' false (80 : Int)
            "port number".toList sample.port_reader))
      else if k = "host".toList then
        some (option_base.with_value sample.cpp_type.string_
          (option_with_value.mk_option sample.cpp_type.string_ "host".toList 'h' true
            ([] : string_t) "host name".toList (default_reader sample.lexical_cast_string)))
      else none := rfl

theorem host_port_enumerates : enumerates sample.host_port sample.host_port_keys := by
  refine ⟨by decide, fun k => ?_⟩
  rw [host_port_options]
  by_cases h1 : k = "port".toList
  · subst h1
    decide
  · by_cases h2 : k = "host".toList
    · subst h2
      decide
    · rw [if_neg h1, if_neg h2]
      refine ⟨fun hm => ?_, fun hs => by simp at hs⟩
      rcases List.mem_cons.mp hm with h | h
      · exact absurd h h2
      · rcases List.mem_cons.mp h with h | h
        · exact absurd h h1
        · cases h

theorem host_port_declares (c : Char) (k : string_t)
    (h : declares_short sample.host_port c k) :
    (k = "port".toList ∧ c = 'p') ∨ (k = "host".toList ∧ c = 'h') := by
  obtain ⟨_, _, o, ho, hs⟩ := h
  rw [host_port_options] at ho
  by_cases h1 : k = "port".toList
  · rw [if_pos h1] at ho
    cases ho
    exact Or.inl ⟨h1, hs.symm⟩
  · by_cases h2 : k = "host".toList
    · rw [if_neg h1, if_pos h2] at ho
      cases ho
      exact Or.inr ⟨h2, hs.symm⟩
    · rw [if_neg h1, if_neg h2] at ho
      cases ho

theorem host_port_short_names_distinct : short_names_distinct sample.host_port := by
  intro c k1 k2 h1 h2
  rcases host_port_declares c k1 h1 with ⟨a, b⟩ | ⟨a, b⟩ <;>
    rcases host_port_declares c k2 h2 with ⟨a', b'⟩ | ⟨a', b'⟩
  · rw [a, a']
  · rw [b] at b'; exact absurd b' (by decide)
  · rw [b] at b'; exact absurd b' (by decide)
  · rw [a, a']

/-! ### Options are only ever assigned -/

theorem assigned_from_trans {o o1 o2 : option_base τ} (h1 : assigned_from o o1)
    (h2 : assigned_from o1 o2) : assigned_from o o2 := by
  cases o with
  | without_value a =>
      simp only [assigned_from] at h1
      subst h1
      simp only [assigned_from] at h2
      subst h2
      simp only [assigned_from]
  | with_value T a =>
      simp only [assigned_from] at h1
      obtain ⟨v1, r1, hr1, rfl⟩ := h1
      simp only [assigned_from] at h2
      obtain ⟨v2, r2, hr2, rfl⟩ := h2
      exact ⟨v2, r2, hr2, rfl⟩

theorem assigned_from_has_set {o o' : option_base τ} (h : assigned_from o o') :
    o'.has_set = true := by
  cases o with
  | without_value a =>
      simp only [assigned_from] at h
      subst h
      rfl
  | with_value T a =>
      simp only [assigned_from] at h
      obtain ⟨v, r, -, rfl⟩ := h
      rfl

theorem assigned_from_static {o o' : option_base τ} (h : assigned_from o o') :
    o'.static_part = o.static_part := by
  cases o with
  | without_value a =>
      simp only [assigned_from] at h
      subst h
      rfl
  | with_value T a =>
      simp only [assigned_from] at h
      obtain ⟨v, r, -, rfl⟩ := h
      rfl

theorem assigns_refl (p : parser τ) : assigns p p := fun _ => Or.inl rfl

theorem assigns_of_options {p P : parser τ} (h : P.options_ = p.options_) : assigns p P :=
  fun k => Or.inl (by rw [h])

theorem assigns_trans {p q r : parser τ} (h1 : assigns p q) (h2 : assigns q r) :
    assigns p r := by
  intro k
  rcases h2 k with e2 | ⟨o1, o2, hq, hr, ha2⟩
  · rcases h1 k with e1 | ⟨o, o1, hp, hq, ha1⟩
    · exact Or.inl (e2.trans e1)
    · exact Or.inr ⟨o, o1, hp, e2.trans hq, ha1⟩
  · rcases h1 k with e1 | ⟨o, o1', hp, hq', ha1⟩
    · exact Or.inr ⟨o1, o2, e1 ▸ hq, hr, ha2⟩
    · rw [hq] at hq'
      cases hq'
      exact Or.inr ⟨o, o2, hp, hr, assigned_from_trans ha1 ha2⟩

theorem assigns_insert (p : parser τ) (name : string_t) (o x : option_base τ)
    (ho : p.options_ name = some o) (hx : x = o ∨ assigned_from o x) :
    assigns p { p with options_ := p.insert_option name x } := by
  intro k
  by_cases hk : k = name
  · subst hk
    rcases hx with rfl | hx
    · left; simp [parser.insert_option, ho]
    · right; exact ⟨o, x, ho, by simp [parser.insert_option], hx⟩
  · left; simp [parser.insert_option, hk]

theorem set_assigned (o : option_base τ) : o.set.1 = o ∨ assigned_from o o.set.1 := by
  cases o with
  | without_value a => right; simp [option_base.set, assigned_from]
  | with_value T a => left; rfl

theorem set_value_assigned (o : option_base τ) (v : string_t) :
    (o.set_value v).1 = o ∨ assigned_from o (o.set_value v).1 := by
  cases o with
  | without_value a => left; rfl
  | with_value T a =>
      cases hr : a.reader_ v with
      | none => left; simp [option_base.set_value, option_with_value.set_value, hr]
      | some r =>
          right
          simp only [option_base.set_value, option_with_value.set_value, hr, assigned_from]
          exact ⟨v, r, hr, rfl⟩

theorem assigns_set_option_name (p : parser τ) (name : string_t) :
    assigns p (p.set_option_name name) := by
  unfold parser.set_option_name
  cases ho : p.options_ name with
  | none => exact assigns_refl p
  | some o =>
      have h1 := assigns_insert p name o o.set.1 ho (set_assigned o)
      dsimp only
      split
      · exact h1
      · exact h1

theorem assigns_set_option_value (p : parser τ) (name value : string_t) :
    assigns p (p.set_option_value name value) := by
  unfold parser.set_option_value
  cases ho : p.options_ name with
  | none => exact assigns_refl p
  | some o =>
      have h1 := assigns_insert p name o (o.set_value value).1 ho (set_value_assigned o value)
      dsimp only
      split
      · exact h1
      · exact h1

theorem assigns_cluster (lookup : Char → Option string_t) (cs : string_t) :
    ∀ (p : parser τ) (last : Char), assigns p (parser.cluster lookup p last cs).1 := by
  induction cs with
  | nil => intro p last; exact assigns_refl p
  | cons c cs ih =>
      intro p last
      rw [parser.cluster]
      split
      · exact assigns_trans (assigns_refl p) (ih _ _)
      · split
        · exact assigns_trans (assigns_refl p) (ih _ _)
        · exact assigns_trans (assigns_set_option_name p _) (ih _ _)

theorem assigns_dispatch_step (lookup : Char → Option string_t) (p : parser τ)
    (tok : string_t) (next : Option string_t) :
    assigns p (parser.dispatch_step lookup p tok next).1 := by
  unfold parser.dispatch_step
  split
  · split
    · exact assigns_set_option_value p _ _
    · dsimp only
      split
      · exact assigns_refl p
      · split
        · split
          · exact assigns_refl p
          · exact assigns_set_option_value p _ _
        · exact assigns_set_option_name p _
  · split
    · split
      · exact assigns_refl p
      · dsimp only
        split
        · exact assigns_cluster lookup _ p _
        · split
          · exact assigns_cluster lookup _ p _
          · split
            · exact assigns_trans (assigns_cluster lookup _ p _) (assigns_set_option_value _ _ _)
            · exact assigns_trans (assigns_cluster lookup _ p _) (assigns_set_option_name _ _)
    · exact assigns_refl p

theorem assigns_dispatch (lookup : Char → Option string_t) (toks : List string_t)
    (p : parser τ) : assigns p (parser.dispatch lookup p toks) :=
  parser.dispatch_induction lookup (fun p _ P => assigns p P) assigns_refl
    (fun p tok toks _ h => assigns_trans (assigns_dispatch_step lookup p tok toks.head?) h)
    toks p

/-- What a call of `parse(argc, argv)` leaves alone. -/
theorem parse_frame (p : parser τ) (traversal argv : List string_t) :
    (p.parse traversal argv).2.ordered_ = p.ordered_ ∧
    (p.parse traversal argv).2.footer_ = p.footer_ ∧
    assigns p (p.parse traversal argv).2 ∧
    (p.program_name_ ≠ [] → (p.parse traversal argv).2.program_name_ = p.program_name_) := by
  cases argv with
  | nil => exact ⟨rfl, rfl, assigns_refl p, fun _ => rfl⟩
  | cons argv0 toks =>
      rw [parse_cons]
      have hname : p.program_name_ ≠ [] → (prepare p argv0).program_name_ = p.program_name_ := by
        intro h
        rw [prepare_program_name, if_neg h]
      cases hb : parser.build_lookup (prepare p argv0) traversal (fun _ => none) with
      | error c =>
          exact ⟨by simp, by simp, assigns_of_options (by simp), by simpa using hname⟩
      | ok lk =>
          dsimp only
          rw [parser.validate_eq]
          obtain ⟨hord, hfoot, hprog, -, -, -⟩ := evolves_dispatch lk toks (prepare p argv0)
          refine ⟨by simp [hord], by simp [hfoot], ?_, fun h => by simp [hprog, hname h]⟩
          exact assigns_trans (assigns_of_options (prepare_options p argv0))
            (assigns_dispatch lk toks (prepare p argv0))

theorem parse_string_eq (p : parser τ) (traversal : List string_t) (arg : string_t) :
    p.parse_string traversal arg =
      match parser.tokenize arg with
      | Except.error msg => (false, p.push_error msg)
      | Except.ok args => p.parse_vector traversal args := by
  unfold parser.parse_string parser.tokenize
  cases parser.scan arg [] [] false with
  | none => rfl
  | some r =>
      obtain ⟨args, buf, q⟩ := r
      cases q with
      | true => rfl
      | false =>
          by_cases hb : buf = []
          · simp [hb]
          · simp [hb]

/-- What a call of `parse` through any overload leaves alone. -/
theorem run_call_frame (traversal : List string_t) (p : parser τ) (call : parse_call) :
    (run_call traversal p call).ordered_ = p.ordered_ ∧
    (run_call traversal p call).footer_ = p.footer_ ∧
    assigns p (run_call traversal p call) ∧
    (p.program_name_ ≠ [] → (run_call traversal p call).program_name_ = p.program_name_) := by
  cases call with
  | argv args => exact parse_frame p traversal args
  | vector args => exact parse_frame p traversal (args.map c_str)
  | text arg =>
      simp only [run_call]
      rw [parse_string_eq]
      cases parser.tokenize arg with
      | error msg => exact ⟨rfl, rfl, assigns_refl p, fun _ => rfl⟩
      | ok args => exact parse_frame p traversal (args.map c_str)

/-! ### Invariants of the reachable states -/

theorem option_base.name_static (o : option_base τ) : o.static_part.name = o.name := by
  cases o <;> rfl

theorem assigned_from_name {o o' : option_base τ} (h : assigned_from o o') :
    o'.name = o.name := by
  rw [← option_base.name_static o', assigned_from_static h, option_base.name_static]

theorem same_static_of_assigns {p P : parser τ} (h : assigns p P) : same_static P p := by
  intro k
  rcases h k with e | ⟨o, o', hp, hP, ha⟩
  · rw [e]
  · rw [hp, hP]
    simp [assigned_from_static ha]

theorem is_some_of_assigns {p P : parser τ} (h : assigns p P) (k : string_t) :
    (P.options_ k).isSome = (p.options_ k).isSome := by
  rcases h k with e | ⟨o, o', hp, hP, -⟩
  · rw [e]
  · rw [hp, hP]; rfl

theorem registry_ok_of_assigns {p P : parser τ} (hord : P.ordered_ = p.ordered_)
    (h : assigns p P) (hp : registry_ok p) : registry_ok P := by
  obtain ⟨h1, h2, h3⟩ := hp
  refine ⟨hord ▸ h1, fun k => ?_, fun k o' ho' => ?_⟩
  · rw [hord, is_some_of_assigns h k]
    exact h2 k
  · rcases h k with e | ⟨o, o'', hpk, hPk, ha⟩
    · exact h3 k o' (e ▸ ho')
    · rw [hPk] at ho'
      cases ho'
      rw [assigned_from_name ha]
      exact h3 k o hpk

theorem defaults_kept_of_assigns {p P : parser τ} (h : assigns p P) (hp : defaults_kept p) :
    defaults_kept P := by
  intro k T o' ho' hset
  rcases h k with e | ⟨o, o'', hpk, hPk, ha⟩
  · exact hp k T o' (e ▸ ho') hset
  · rw [hPk] at ho'
    cases ho'
    have := assigned_from_has_set ha
    simp only [option_base.has_set] at this
    rw [this] at hset
    cases hset

theorem has_set_of_assigns {p P : parser τ} (h : assigns p P) (k : string_t)
    (o : option_base τ) (ho : p.options_ k = some o) (hset : o.has_set = true) :
    ∃ o', P.options_ k = some o' ∧ o'.has_set = true := by
  rcases h k with e | ⟨o1, o', -, hPk, ha⟩
  · exact ⟨o, e.trans ho, hset⟩
  · exact ⟨o', hPk, assigned_from_has_set ha⟩

theorem registry_ok_empty : registry_ok (parser.empty : parser τ) :=
  ⟨List.nodup_nil, fun k => by simp [parser.empty], fun k o h => by simp [parser.empty] at h⟩

theorem registry_ok_insert (p : parser τ) (name : string_t) (o : option_base τ)
    (hp : registry_ok p) (hnew : p.options_ name = none) (hname : o.name = name) :
    registry_ok { p with options_ := p.insert_option name o, ordered_ := p.ordered_ ++ [name] } := by
  obtain ⟨h1, h2, h3⟩ := hp
  have hnot : name ∉ p.ordered_ := by
    intro hm
    have := (h2 name).mp hm
    rw [hnew] at this
    cases this
  refine ⟨?_, fun k => ?_, fun k o' ho' => ?_⟩
  · exact List.Nodup.append h1 (List.nodup_singleton name) (by simpa using hnot)
  · by_cases hk : k = name
    · simp [parser.insert_option, hk]
    · simp [parser.insert_option, hk, h2 k]
  · by_cases hk : k = name
    · simp only [parser.insert_option, hk, if_true, Option.some.injEq] at ho'
      rw [← ho', hk]
      exact hname
    · simp only [parser.insert_option, hk, if_false] at ho'
      exact h3 k o' ho'

theorem defaults_kept_insert (p : parser τ) (name : string_t) (o : option_base τ)
    (hp : defaults_kept p)
    (ho : ∀ T (a : option_with_value T), o = option_base.with_value T a →
      a.actual_value_ = a.default_value_) :
    defaults_kept { p with options_ := p.insert_option name o, ordered_ := p.ordered_ ++ [name] } := by
  intro k T a ha hset
  by_cases hk : k = name
  · simp only [parser.insert_option, hk, if_true, Option.some.injEq] at ha
    exact ho T a ha
  · simp only [parser.insert_option, hk, if_false] at ha
    exact hp k T a ha hset

theorem add_ok (p : parser τ) (name : string_t) (c : Char) (d : string_t)
    (hp : registry_ok p ∧ defaults_kept p) :
    registry_ok (p.add name c d).2 ∧ defaults_kept (p.add name c d).2 := by
  unfold parser.add
  cases h : p.options_ name with
  | some o => simpa using hp
  | none =>
      simp only [Option.isSome_none, Bool.false_eq_true, if_false]
      exact ⟨registry_ok_insert p name _ hp.1 h rfl,
        defaults_kept_insert p name _ hp.2 (fun T a e => by cases e)⟩

theorem add_value_ok (p : parser τ) (T : τ) (name : string_t) (c : Char) (d : string_t)
    (req : Bool) (dv : carrier T) (rd : string_t → Option (carrier T))
    (hp : registry_ok p ∧ defaults_kept p) :
    registry_ok (p.add_value T name c d req dv rd).2 ∧
      defaults_kept (p.add_value T name c d req dv rd).2 := by
  unfold parser.add_value
  by_cases hl : is_legal_type_v T = true
  · cases h : p.options_ name with
    | some o => simpa [hl] using hp
    | none =>
        simp only [hl, Bool.not_true, Bool.false_eq_true, if_false, Option.isSome_none]
        refine ⟨registry_ok_insert p name _ hp.1 h rfl,
          defaults_kept_insert p name _ hp.2 (fun T' a e => ?_)⟩
        cases e
        rfl
  · simpa [hl] using hp

/-- Every reachable state satisfies the registry invariant, and its unset value-taking
options hold their defaults. -/
theorem reachable_ok {p : parser τ} (h : reachable p) : registry_ok p ∧ defaults_kept p := by
  induction h with
  | empty => exact ⟨registry_ok_empty, fun k T o ho => by simp [parser.empty] at ho⟩
  | add p name c d _ ih => exact add_ok p name c d ih
  | add_value p T name c d req dv rd _ ih => exact add_value_ok p T name c d req dv rd ih
  | set_footer p footer _ ih => exact ih
  | set_program_name p program_name _ ih => exact ih
  | parse p traversal argv _ ih =>
      obtain ⟨h1, -, h3, -⟩ := run_call_frame traversal p (parse_call.argv argv)
      exact ⟨registry_ok_of_assigns h1 h3 ih.1, defaults_kept_of_assigns h3 ih.2⟩
  | parse_vector p traversal args _ ih =>
      obtain ⟨h1, -, h3, -⟩ := run_call_frame traversal p (parse_call.vector args)
      exact ⟨registry_ok_of_assigns h1 h3 ih.1, defaults_kept_of_assigns h3 ih.2⟩
  | parse_string p traversal arg _ ih =>
      obtain ⟨h1, -, h3, -⟩ := run_call_frame traversal p (parse_call.text arg)
      exact ⟨registry_ok_of_assigns h1 h3 ih.1, defaults_kept_of_assigns h3 ih.2⟩

/-- The declaration order is one enumeration of the map of a reachable state. -/
theorem enumerates_ordered {p : parser τ} (h : reachable p) : enumerates p p.ordered_ :=
  ⟨(reachable_ok h).1.1, (reachable_ok h).1.2.1⟩

/-- A sufficient test for a registry without short-name collision. -/
theorem short_names_distinct_of_nodup (p : parser τ) (keys : List string_t)
    (henum : enumerates p keys)
    (h : (keys.map (fun k => (p.options_ k).map option_base.short_name)).Nodup) :
    short_names_distinct p := by
  intro c k1 k2 h1 h2
  obtain ⟨-, -, o1, ho1, hs1⟩ := h1
  obtain ⟨-, -, o2, ho2, hs2⟩ := h2
  have m1 : k1 ∈ keys := (henum.2 k1).mpr (by simp [ho1])
  have m2 : k2 ∈ keys := (henum.2 k2).mpr (by simp [ho2])
  refine List.inj_on_of_nodup_map h m1 m2 ?_
  simp [ho1, ho2, hs1, hs2]

/-! ### The tokenizer -/

theorem scan_cons (c : Char) (cs : string_t) (args : List string_t) (buf : string_t)
    (q : Bool) :
    parser.scan (c :: cs) args buf q =
      if c = '"' then parser.scan cs args buf (!q)
      else if c = ' ' ∧ q = false then parser.scan cs (args ++ [buf]) [] q
      else if c = '\\' then
        match cs with
        | [] => none
        | d :: ds => parser.scan ds args (buf ++ [d]) q
      else parser.scan cs args (buf ++ [c]) q := by
  cases cs <;> rfl

theorem scan_state_cons (c : Char) (cs : string_t) (q : Bool) :
    scan_state (c :: cs) q =
      if c = '"' then scan_state cs (!q)
      else if c = '\\' then
        match cs with
        | [] => none
        | _ :: ds => scan_state ds q
      else scan_state cs q := by
  cases cs <;> rfl

theorem stripped_cons (c : Char) (cs : string_t) (q : Bool) :
    stripped (c :: cs) q =
      if c = '"' then stripped cs (!q)
      else if c = '\\' then
        match cs with
        | [] => []
        | d :: ds => d :: stripped ds q
      else if c = ' ' ∧ q = false then stripped cs q
      else c :: stripped cs q := by
  cases cs <;> rfl

theorem delimiters_cons (c : Char) (cs : string_t) (q : Bool) :
    delimiters (c :: cs) q =
      if c = '"' then delimiters cs (!q)
      else if c = '\\' then
        match cs with
        | [] => 0
        | _ :: ds => delimiters ds q
      else if c = ' ' ∧ q = false then delimiters cs q + 1
      else delimiters cs q := by
  cases cs <;> rfl

/-- The scanning loop against the three descriptions of its input: it fails exactly on
a dangling backslash, ends in the quote state of the input, and its pieces, joined,
are the pieces before followed by the stripped input, one more piece per delimiter. -/
theorem scan_spec : ∀ (n : Nat) (cs : string_t), cs.length ≤ n →
    ∀ (args : List string_t) (buf : string_t) (q : Bool),
      (parser.scan cs args buf q = none ∧ scan_state cs q = none) ∨
      ∃ args' buf' q', parser.scan cs args buf q = some (args', buf', q') ∧
        scan_state cs q = some q' ∧
        (args' ++ [buf']).flatten = (args ++ [buf]).flatten ++ stripped cs q ∧
        args'.length = args.length + delimiters cs q := by
  intro n
  induction n with
  | zero =>
      intro cs hlen args buf q
      have : cs = [] := List.length_eq_zero.mp (Nat.le_zero.mp hlen)
      subst this
      exact Or.inr ⟨args, buf, q, rfl, rfl, by simp [stripped], by simp [delimiters]⟩
  | succ n ih =>
      intro cs hlen args buf q
      cases cs with
      | nil => exact Or.inr ⟨args, buf, q, rfl, rfl, by simp [stripped], by simp [delimiters]⟩
      | cons c cs =>
          have hlen' : cs.length ≤ n := by simpa using hlen
          rw [scan_cons, scan_state_cons, stripped_cons, delimiters_cons]
          by_cases hq : c = '"'
          · simp only [hq, if_true]
            exact ih cs hlen' args buf (!q)
          · simp only [hq, if_false]
            by_cases hb : c = '\\'
            · have hsp : ¬ (c = ' ' ∧ q = false) := by
                rintro ⟨h, -⟩
                rw [hb] at h
                exact absurd h (by decide)
              simp only [hsp, hb, if_true, if_false]
              cases cs with
              | nil => exact Or.inl ⟨rfl, rfl⟩
              | cons d ds =>
                  have hlen'' : ds.length ≤ n := by
                    simp only [List.length_cons] at hlen'
                    omega
                  rcases ih ds hlen'' args (buf ++ [d]) q with h | ⟨a', b', q', h1, h2, h3, h4⟩
                  · exact Or.inl h
                  · refine Or.inr ⟨a', b', q', h1, h2, ?_, h4⟩
                    rw [h3]
                    simp
            · simp only [hb, if_false]
              by_cases hsp : c = ' ' ∧ q = false
              · simp only [hsp, and_self, if_true]
                rcases ih cs hlen' (args ++ [buf]) [] false with h | ⟨a', b', q', h1, h2, h3, h4⟩
                · exact Or.inl h
                · right
                  refine ⟨a', b', q', h1, h2, ?_, ?_⟩
                  · rw [h3]; simp
                  · rw [h4]; simp; omega
              · simp only [hsp, if_false]
                rcases ih cs hlen' args (buf ++ [c]) q with h | ⟨a', b', q', h1, h2, h3, h4⟩
                · exact Or.inl h
                · refine Or.inr ⟨a', b', q', h1, h2, ?_, h4⟩
                  rw [h3]
                  simp

/-- Without backslashes the final quote state is decided by the parity of the number
of double quotes. -/
theorem scan_state_of_no_backslash (cs : string_t) (h : '\\' ∉ cs) (q : Bool) :
    scan_state cs q = some (if cs.count '"' % 2 = 1 then !q else q) := by
  induction cs generalizing q with
  | nil => simp [scan_state]
  | cons c cs ih =>
      have hc : c ≠ '\\' := fun e => h (e ▸ List.mem_cons_self _ _)
      have hcs : '\\' ∉ cs := fun e => h (List.mem_cons_of_mem _ e)
      rw [scan_state_cons]
      by_cases hq : c = '"'
      · simp only [hq, if_true, List.count_cons_self]
        rw [ih hcs]
        congr 1
        by_cases hp : cs.count '"' % 2 = 1
        · have : ¬ (cs.count '"' + 1) % 2 = 1 := by omega
          simp [hp, this]
        · have : (cs.count '"' + 1) % 2 = 1 := by omega
          simp [hp, this]
      · simp only [hq, hc, if_false]
        rw [ih hcs, List.count_cons_of_ne (Ne.symm hq)]

/-- The tokenizer fails exactly when the input ends inside a quote or on a dangling
backslash; otherwise it returns the pieces, the last one only when it is not empty. -/
theorem tokenize_spec (arg : string_t) :
    (parser.tokenize arg = Except.error "unexpected occurrence of '\\' at end of string".toList ∧
      scan_state arg false = none) ∨
    (parser.tokenize arg = Except.error "quote is not closed".toList ∧
      scan_state arg false = some true) ∨
    (∃ args buf, scan_state arg false = some false ∧
      parser.tokenize arg = Except.ok (if buf ≠ [] then args ++ [buf] else args) ∧
      (args ++ [buf]).flatten = stripped arg false ∧ args.length = delimiters arg false) := by
  unfold parser.tokenize
  rcases scan_spec arg.length arg (Nat.le_refl _) [] [] false with
    ⟨h1, h2⟩ | ⟨args, buf, q, h1, h2, h3, h4⟩
  · left
    rw [h1]
    exact ⟨rfl, h2⟩
  · right
    rw [h1]
    cases q with
    | true => left; exact ⟨rfl, h2⟩
    | false =>
        right
        refine ⟨args, buf, h2, ?_, by simpa using h3, by simpa using h4⟩
        by_cases hb : buf = []
        · simp [hb]
        · simp [hb]

/-! ### The positional list holds no token starting with a dash -/

theorem dispatch_others_no_dash (lookup : Char → Option string_t) (toks : List string_t)
    (p : parser τ) :
    ∀ t ∈ (parser.dispatch lookup p toks).others_,
      t ∈ p.others_ ∨ parser.starts_with_dash t = false :=
  parser.dispatch_induction lookup
    (fun p _ P => ∀ t ∈ P.others_, t ∈ p.others_ ∨ parser.starts_with_dash t = false)
    (fun _ t ht => Or.inl ht)
    (fun p tok toks P ih t ht => by
      rcases ih t ht with h | h
      · cases hd : parser.starts_with_dash tok with
        | false =>
            rw [dispatch_step_positional lookup p tok _ hd] at h
            rcases List.mem_append.mp h with h | h
            · exact Or.inl h
            · rw [List.mem_singleton.mp h]
              exact Or.inr hd
        | true =>
            rw [dispatch_step_dash_others lookup p tok _ hd] at h
            exact Or.inl h
      · exact Or.inr h)
    toks p

theorem parse_rest_no_dash (p : parser τ) (traversal argv : List string_t) :
    ∀ t ∈ (p.parse traversal argv).2.others_, parser.starts_with_dash t = false := by
  cases argv with
  | nil => intro t ht; simp [parse_nil] at ht
  | cons argv0 toks =>
      rw [parse_cons]
      cases hb : parser.build_lookup (prepare p argv0) traversal (fun _ => none) with
      | error c => intro t ht; simp at ht
      | ok lk =>
          intro t ht
          simp only [parser.validate_eq] at ht
          rcases dispatch_others_no_dash lk toks (prepare p argv0) t ht with h | h
          · simp at h
          · exact h

/-! ### No missing-required message for an option that is set -/

theorem need_option_not_mem_parse (p : parser τ) (traversal argv : List string_t)
    (k : string_t) (o : option_base τ) (ho : p.options_ k = some o) (hset : o.has_set = true) :
    need_option k ∉ (p.parse traversal argv).2.errors_ := by
  cases argv with
  | nil =>
      rw [parse_nil]
      intro hm
      simp only [parser.push_error_errors, List.nil_append, List.mem_singleton] at hm
      have := congrArg List.head? hm
      rw [need_option_head] at this
      exact absurd this (by decide)
  | cons argv0 toks =>
      rw [parse_cons]
      cases hb : parser.build_lookup (prepare p argv0) traversal (fun _ => none) with
      | error c =>
          intro hm
          simp only [parser.push_error_errors, prepare_errors, List.nil_append,
            List.mem_singleton] at hm
          have := congrArg List.head? hm
          rw [need_option_head] at this
          exact absurd this (by simp)
      | ok lk =>
          dsimp only
          rw [parser.validate_eq]
          obtain ⟨-, -, -, -, ⟨es, hes, hhead⟩, -⟩ := evolves_dispatch lk toks (prepare p argv0)
          intro hm
          simp only [hes, prepare_errors, List.nil_append] at hm
          rcases List.mem_append.mp hm with h | h
          · exact hhead _ h (need_option_head k)
          · obtain ⟨k', -, hk', o', ho', hv⟩ := mem_missing _ _ _ h
            have hkk : k = k' := need_option_injective _ _ hk'
            subst hkk
            obtain ⟨o'', ho'', hset''⟩ := has_set_of_assigns
              (assigns_dispatch lk toks (prepare p argv0)) k o
              (by rw [prepare_options]; exact ho) hset
            have heq : o'' = o' := Option.some.inj (ho''.symm.trans ho')
            rw [heq, ((is_valid_eq_false_iff o').mp hv).2] at hset''
            cases hset''

theorem need_option_not_mem_run_call (traversal : List string_t) (p : parser τ)
    (call : parse_call) (k : string_t) (o : option_base τ) (ho : p.options_ k = some o)
    (hset : o.has_set = true) (hold : need_option k ∉ p.errors_) :
    need_option k ∉ (run_call traversal p call).errors_ := by
  cases call with
  | argv args => exact need_option_not_mem_parse p traversal args k o ho hset
  | vector args => exact need_option_not_mem_parse p traversal (args.map c_str) k o ho hset
  | text arg =>
      simp only [run_call]
      rw [parse_string_eq]
      rcases tokenize_spec arg with ⟨h, -⟩ | ⟨h, -⟩ | ⟨args, buf, -, h, -, -⟩
      · rw [h]
        intro hm
        rcases List.mem_append.mp hm with h' | h'
        · exact hold h'
        · have := congrArg List.head? (List.mem_singleton.mp h')
          rw [need_option_head] at this
          exact absurd this (by decide)
      · rw [h]
        intro hm
        rcases List.mem_append.mp hm with h' | h'
        · exact hold h'
        · have := congrArg List.head? (List.mem_singleton.mp h')
          rw [need_option_head] at this
          exact absurd this (by decide)
      · rw [h]
        exact need_option_not_mem_parse p traversal _ k o ho hset

theorem run_calls_cons (traversal : List string_t) (p : parser τ) (call : parse_call)
    (calls : List parse_call) :
    run_calls traversal p (call :: calls) = run_calls traversal (run_call traversal p call) calls :=
  rfl

/-! ### The usage text -/

namespace option_base

theorem is_required_static (o : option_base τ) : o.static_part.is_required = o.is_required := by
  cases o <;> rfl

theorem description_static (o : option_base τ) : o.static_part.description = o.description := by
  cases o <;> rfl

theorem short_description_static (o : option_base τ) :
    o.static_part.short_description = o.short_description := by
  cases o <;> rfl

end option_base

theorem resolve_static {p q : parser τ} (h : same_static p q) (ks : List string_t) :
    (parser.resolve p ks).map (List.map option_base.static_part) =
      (parser.resolve q ks).map (List.map option_base.static_part) := by
  induction ks with
  | nil => rfl
  | cons k ks ih =>
      rw [parser.resolve, parser.resolve]
      cases hp : p.options_ k with
      | none => rw [none_of_same_static h hp]
      | some o =>
          cases hq : q.options_ k with
          | none => rw [none_of_same_static (same_static_symm h) hq] at hp; cases hp
          | some o' =>
              have hs := static_of_same_static h hp hq
              cases hrp : parser.resolve p ks with
              | none =>
                  rw [hrp] at ih
                  cases hrq : parser.resolve q ks with
                  | none => rfl
                  | some os' => rw [hrq] at ih; cases ih
              | some os =>
                  rw [hrp] at ih
                  cases hrq : parser.resolve q ks with
                  | none => rw [hrq] at ih; cases ih
                  | some os' =>
                      rw [hrq] at ih
                      simp only [Option.map_some', Option.some.injEq] at ih
                      simp [hs, ih]

theorem usage_required_static (items : List (option_base τ)) :
    parser.usage_required (items.map option_base.static_part) = parser.usage_required items := by
  induction items with
  | nil => rfl
  | cons o os ih =>
      simp only [List.map_cons, parser.usage_required, option_base.is_required_static,
        option_base.short_description_static, ih]

theorem usage_lines_static (fuel w : Nat) (items : List (option_base τ)) :
    parser.usage_lines fuel w (items.map option_base.static_part) =
      parser.usage_lines fuel w items := by
  induction items with
  | nil => rfl
  | cons o os ih =>
      simp only [List.map_cons, parser.usage_lines, option_base.name_static,
        option_base.short_name_static, option_base.description_static, ih]

theorem foldl_largest_map {α : Type} (g : α → α) (comp : α → α → Bool)
    (hg : ∀ a b, comp (g a) (g b) = comp a b) (xs : List α) (x : α) :
    (xs.map g).foldl (fun largest y => if comp largest y then y else largest) (g x) =
      g (xs.foldl (fun largest y => if comp largest y then y else largest) x) := by
  induction xs generalizing x with
  | nil => rfl
  | cons y ys ih =>
      simp only [List.map_cons, List.foldl_cons, hg]
      by_cases hc : comp x y = true
      · simp only [hc, if_true]; exact ih y
      · simp only [hc, if_false]; exact ih x

theorem max_element_map {α : Type} (g : α → α) (comp : α → α → Bool)
    (hg : ∀ a b, comp (g a) (g b) = comp a b) (xs : List α) :
    parser.max_element comp (xs.map g) = (parser.max_element comp xs).map g := by
  cases xs with
  | nil => rfl
  | cons x xs =>
      simp only [List.map_cons, parser.max_element, Option.map_some', Option.some.injEq]
      exact foldl_largest_map g comp hg xs x

theorem usage_text_static (fuel : Nat) (p : parser τ) (items : List (option_base τ)) :
    parser.usage_text fuel p (items.map option_base.static_part) =
      parser.usage_text fuel p items := by
  unfold parser.usage_text
  rw [max_element_map option_base.static_part _
    (fun a b => by simp only [option_base.name_static]) items]
  cases parser.max_element (fun lhs rhs => decide (lhs.name.length < rhs.name.length)) items with
  | none => rfl
  | some w =>
      simp only [Option.map_some', option_base.name_static, usage_lines_static,
        usage_required_static]

theorem usage_text_congr (fuel : Nat) (p q : parser τ) (items : List (option_base τ))
    (h1 : p.program_name_ = q.program_name_) (h2 : p.footer_ = q.footer_) :
    parser.usage_text fuel p items = parser.usage_text fuel q items := by
  unfold parser.usage_text
  rw [h1, h2]

/-- The usage text reads the declaration order, the static parts of the options, the
footer and the program name, and nothing else. -/
theorem usage_congr (fuel : Nat) {p q : parser τ} (hs : same_static p q)
    (hord : p.ordered_ = q.ordered_) (hname : p.program_name_ = q.program_name_)
    (hfoot : p.footer_ = q.footer_) : p.usage fuel = q.usage fuel := by
  unfold parser.usage
  have hr := resolve_static hs p.ordered_
  rw [← hord]
  cases hp : parser.resolve p p.ordered_ with
  | none =>
      rw [hp] at hr
      cases hq : parser.resolve q p.ordered_ with
      | none => rfl
      | some os' => rw [hq] at hr; cases hr
  | some os =>
      rw [hp] at hr
      cases hq : parser.resolve q p.ordered_ with
      | none => rw [hq] at hr; cases hr
      | some os' =>
          rw [hq] at hr
          simp only [Option.map_some', Option.some.injEq] at hr
          dsimp only
          rw [← usage_text_static fuel p os, hr, usage_text_static,
            usage_text_congr fuel p q os' hname hfoot]

theorem parse_program_name (p : parser τ) (traversal : List string_t) (argv0 : string_t)
    (toks : List string_t) :
    (p.parse traversal (argv0 :: toks)).2.program_name_ =
      if p.program_name_ = [] then argv0 else p.program_name_ := by
  rw [parse_cons]
  cases hb : parser.build_lookup (prepare p argv0) traversal (fun _ => none) with
  | error c => simp [prepare_program_name]
  | ok lk =>
      dsimp only
      rw [parser.validate_eq]
      obtain ⟨-, -, hprog, -, -, -⟩ := evolves_dispatch lk toks (prepare p argv0)
      simp [hprog, prepare_program_name]

theorem padding_eq : ∀ (fuel j bound : Nat), j ≤ bound → bound - j ≤ fuel →
    parser.padding fuel j bound = some (List.replicate (bound - j) ' ') := by
  intro fuel
  induction fuel with
  | zero =>
      intro j bound h1 h2
      have hj : j = bound := by omega
      simp [parser.padding, hj]
  | succ fuel ih =>
      intro j bound h1 h2
      rw [parser.padding]
      by_cases hj : j = bound
      · simp [hj]
      · rw [if_neg hj, ih (j + 1) bound (by omega) (by omega)]
        have : bound - j = (bound - (j + 1)) + 1 := by omega
        rw [this, List.replicate_succ]
        simp

theorem name_le_longest (items : List (option_base τ)) (o : option_base τ) (h : o ∈ items) :
    o.name.length ≤ longest_name items := by
  induction items with
  | nil => cases h
  | cons x xs ih =>
      simp only [longest_name, List.map_cons, List.foldr_cons]
      rcases List.mem_cons.mp h with rfl | h
      · exact Nat.le_max_left _ _
      · exact Nat.le_trans (ih h) (Nat.le_max_right _ _)

theorem foldl_largest_length (xs : List (option_base τ)) (x : option_base τ) :
    (xs.foldl (fun largest y => if decide (largest.name.length < y.name.length) then y
      else largest) x).name.length = max x.name.length (longest_name xs) := by
  induction xs generalizing x with
  | nil => simp [longest_name]
  | cons y ys ih =>
      simp only [List.foldl_cons, longest_name, List.map_cons, List.foldr_cons]
      by_cases hc : x.name.length < y.name.length
      · simp only [hc, decide_True, if_true]
        rw [ih y]
        simp only [longest_name]
        omega
      · simp only [hc, decide_False, Bool.false_eq_true, if_false]
        rw [ih x]
        simp only [longest_name]
        omega

/-- On a non-empty list `max_element` returns an option with a name of maximal length. -/
theorem max_element_longest (items : List (option_base τ)) (h : items ≠ []) :
    ∃ w, parser.max_element (fun lhs rhs => decide (lhs.name.length < rhs.name.length)) items =
      some w ∧ w.name.length = longest_name items := by
  cases items with
  | nil => exact absurd rfl h
  | cons x xs =>
      refine ⟨_, rfl, ?_⟩
      rw [foldl_largest_length]
      simp [longest_name]

theorem usage_lines_eq (fuel w : Nat) (hf : w + 4 ≤ fuel) (items : List (option_base τ))
    (h : ∀ o ∈ items, o.name.length ≤ w) :
    parser.usage_lines fuel w items =
      some (items.map (fun o => line_front w o ++ o.description ++ "\n".toList)).flatten := by
  induction items with
  | nil => rfl
  | cons o os ih =>
      have ho := h o (List.mem_cons_self _ _)
      rw [parser.usage_lines, ih (fun x hx => h x (List.mem_cons_of_mem _ hx)),
        padding_eq fuel o.name.length (w + 4) (by omega) (by omega)]
      simp only [List.map_cons, List.flatten_cons, line_front, alias_prefix]
      by_cases hs : o.short_name = NUL
      · simp [hs]
      · simp [hs]

theorem usage_required_eq (items : List (option_base τ)) :
    parser.usage_required items =
      ((items.filter (fun o => o.is_required)).map
        (fun o => o.short_description ++ " ".toList)).flatten := by
  induction items with
  | nil => rfl
  | cons o os ih =>
      rw [parser.usage_required, ih]
      by_cases hr : o.is_required = true
      · simp [hr]
      · simp [hr]

theorem resolve_of_mem (p : parser τ) (ks : List string_t)
    (h : ∀ k ∈ ks, (p.options_ k).isSome = true) (hname : ∀ k o, p.options_ k = some o → o.name = k) :
    ∃ items, parser.resolve p ks = some items ∧ items.map option_base.name = ks ∧
      ∀ o ∈ items, o.name ∈ ks ∧ p.options_ o.name = some o := by
  induction ks with
  | nil => exact ⟨[], rfl, rfl, fun o ho => by cases ho⟩
  | cons k ks ih =>
      obtain ⟨items, h1, h2, h3⟩ := ih (fun x hx => h x (List.mem_cons_of_mem _ hx))
      have hk := h k (List.mem_cons_self _ _)
      cases ho : p.options_ k with
      | none => rw [ho] at hk; cases hk
      | some o =>
          have hn := hname k o ho
          refine ⟨o :: items, by simp [parser.resolve, ho, h1], by simp [hn, h2], ?_⟩
          intro x hx
          rcases List.mem_cons.mp hx with rfl | hx
          · rw [hn]
            exact ⟨List.mem_cons_self _ _, ho⟩
          · exact ⟨List.mem_cons_of_mem _ (h3 x hx).1, (h3 x hx).2⟩

theorem line_front_length (w : Nat) (o : option_base τ) (h : o.name.length ≤ w) :
    (line_front w o).length = w + 12 := by
  unfold line_front alias_prefix
  by_cases hs : o.short_name = NUL
  · simp only [hs, if_true, List.length_append, List.length_replicate]
    have h6 : "      ".toList.length = 6 := rfl
    have h2 : "--".toList.length = 2 := rfl
    omega
  · simp only [hs, if_false, List.length_append, List.length_replicate, List.length_singleton]
    have h3 : "  -".toList.length = 3 := rfl
    have h2 : ", ".toList.length = 2 := rfl
    have h2' : "--".toList.length = 2 := rfl
    omega

/-! ### Clusters of flags -/

theorem keeps_flags_refl (p : parser τ) : keeps_flags p p :=
  ⟨rfl, rfl, fun _ a h => ⟨a, h, fun x => x⟩⟩

theorem keeps_flags_trans {p q r : parser τ} (h1 : keeps_flags p q) (h2 : keeps_flags q r) :
    keeps_flags p r := by
  refine ⟨h2.1.trans h1.1, h2.2.1.trans h1.2.1, fun k a h => ?_⟩
  obtain ⟨a1, ha1, hs1⟩ := h1.2.2 k a h
  obtain ⟨a2, ha2, hs2⟩ := h2.2.2 k a1 ha1
  exact ⟨a2, ha2, fun x => hs2 (hs1 x)⟩

theorem flag_is_set_of_keeps {p P : parser τ} (h : keeps_flags p P) {k : string_t}
    (hk : flag_is_set p k) : flag_is_set P k := by
  obtain ⟨a, ha, hs⟩ := hk
  obtain ⟨a', ha', hs'⟩ := h.2.2 k a ha
  exact ⟨a', ha', hs' hs⟩

/-- The call `set_option(name)` on a flag sets it and does nothing else. -/
theorem set_option_name_flag (p : parser τ) (k : string_t) (a : option_without_value)
    (h : p.options_ k = some (option_base.without_value a)) :
    keeps_flags p (p.set_option_name k) ∧ flag_is_set (p.set_option_name k) k := by
  have he : p.set_option_name k =
      { p with
        options_ := p.insert_option k (option_base.without_value { a with has_set_ := true }) } := by
    simp [parser.set_option_name, h, option_base.set]
  rw [he]
  refine ⟨⟨rfl, rfl, fun k' a' h' => ?_⟩,
    ⟨{ a with has_set_ := true }, by simp [parser.insert_option], rfl⟩⟩
  by_cases hk : k' = k
  · subst hk
    exact ⟨{ a with has_set_ := true }, by simp [parser.insert_option], fun _ => rfl⟩
  · exact ⟨a', by simp [parser.insert_option, hk, h'], fun x => x⟩

/-- The inner loop on a cluster whose characters all resolve to flags: it records no
error and sets the flag of every character but the one it returns. -/
theorem cluster_of_flags (lookup : Char → Option string_t) (cs : string_t) :
    ∀ (p : parser τ) (last : Char),
      (∀ d ∈ last :: cs, ∃ k a, lookup d = some k ∧ k ≠ [] ∧
        p.options_ k = some (option_base.without_value a)) →
      keeps_flags p (parser.cluster lookup p last cs).1 ∧
      (parser.cluster lookup p last cs).2 ∈ last :: cs ∧
      ∀ d ∈ last :: cs, d = (parser.cluster lookup p last cs).2 ∨
        ∀ k, lookup d = some k → flag_is_set (parser.cluster lookup p last cs).1 k := by
  induction cs with
  | nil =>
      intro p last _
      refine ⟨keeps_flags_refl p, List.mem_cons_self _ _, fun d hd => Or.inl ?_⟩
      simpa using hd
  | cons c cs ih =>
      intro p last h
      obtain ⟨k, a, hl, hk, ha⟩ := h last (List.mem_cons_self _ _)
      have hcl : parser.cluster lookup p last (c :: cs) =
          parser.cluster lookup (p.set_option_name k) c cs := by
        rw [parser.cluster]
        simp [hl, hk]
      rw [hcl]
      obtain ⟨hkeep, hset⟩ := set_option_name_flag p k a ha
      have h' : ∀ d ∈ c :: cs, ∃ k' a', lookup d = some k' ∧ k' ≠ [] ∧
          (p.set_option_name k).options_ k' = some (option_base.without_value a') := by
        intro d hd
        obtain ⟨k', a', hl', hk', ha'⟩ := h d (List.mem_cons_of_mem _ hd)
        obtain ⟨a'', ha'', -⟩ := hkeep.2.2 k' a' ha'
        exact ⟨k', a'', hl', hk', ha''⟩
      obtain ⟨i1, i2, i3⟩ := ih (p.set_option_name k) c h'
      refine ⟨keeps_flags_trans hkeep i1, List.mem_cons_of_mem _ i2, fun d hd => ?_⟩
      rcases List.mem_cons.mp hd with rfl | hd
      · right
        intro k2 hk2
        rw [hl] at hk2
        cases hk2
        exact flag_is_set_of_keeps i1 hset
      · exact i3 d hd

theorem starts_with_two_dashes_cluster (c : Char) (cs : string_t) (h : c ≠ '-') :
    parser.starts_with_two_dashes ('-' :: c :: cs) = false := by
  unfold parser.starts_with_two_dashes
  split
  · rename_i heq
    simp only [List.cons.injEq, true_and] at heq
    exact absurd heq.1 h
  · rfl

/-- The loop body on a cluster token whose characters all resolve to flags. -/
theorem dispatch_step_of_flags (lookup : Char → Option string_t) (p : parser τ) (c : Char)
    (cs : string_t) (hc : c ≠ '-')
    (h : ∀ d ∈ c :: cs, ∃ k a, lookup d = some k ∧ k ≠ [] ∧
      p.options_ k = some (option_base.without_value a)) :
    keeps_flags p (parser.dispatch_step lookup p ('-' :: c :: cs) none).1 ∧
    ∀ d ∈ c :: cs, ∀ k, lookup d = some k →
      flag_is_set (parser.dispatch_step lookup p ('-' :: c :: cs) none).1 k := by
  obtain ⟨i1, i2, i3⟩ := cluster_of_flags lookup cs p c h
  obtain ⟨k, a, hl, hk, ha⟩ := h _ i2
  obtain ⟨a', ha', -⟩ := i1.2.2 k a ha
  have hstep : (parser.dispatch_step lookup p ('-' :: c :: cs) none).1 =
      (parser.cluster lookup p c cs).1.set_option_name k := by
    unfold parser.dispatch_step
    simp [starts_with_two_dashes_cluster c cs hc, parser.starts_with_dash, hl, hk]
  rw [hstep]
  obtain ⟨j1, j2⟩ := set_option_name_flag _ k a' ha'
  refine ⟨keeps_flags_trans i1 j1, fun d hd k' hk' => ?_⟩
  rcases i3 d hd with rfl | hset
  · rw [hl] at hk'
    cases hk'
    exact j2
  · exact flag_is_set_of_keeps j1 (hset k' hk')

/-! ### Tokens without null characters -/

theorem stripped_subset : ∀ (n : Nat) (cs : string_t), cs.length ≤ n →
    ∀ (q : Bool) (x : Char), x ∈ stripped cs q → x ∈ cs := by
  intro n
  induction n with
  | zero =>
      intro cs hlen q x hx
      have : cs = [] := List.length_eq_zero.mp (Nat.le_zero.mp hlen)
      subst this
      simp [stripped] at hx
  | succ n ih =>
      intro cs hlen q x hx
      cases cs with
      | nil => simp [stripped] at hx
      | cons c cs =>
          have hlen' : cs.length ≤ n := by simpa using hlen
          rw [stripped_cons] at hx
          by_cases hq : c = '"'
          · rw [if_pos hq] at hx
            exact List.mem_cons_of_mem _ (ih cs hlen' _ x hx)
          · rw [if_neg hq] at hx
            by_cases hb : c = '\\'
            · rw [if_pos hb] at hx
              cases cs with
              | nil => cases hx
              | cons d ds =>
                  have hlen'' : ds.length ≤ n := by
                    simp only [List.length_cons] at hlen'
                    omega
                  rcases List.mem_cons.mp hx with rfl | hx
                  · exact List.mem_cons_of_mem _ (List.mem_cons_self _ _)
                  · exact List.mem_cons_of_mem _ (List.mem_cons_of_mem _ (ih ds hlen'' _ x hx))
            · rw [if_neg hb] at hx
              by_cases hsp : c = ' ' ∧ q = false
              · rw [if_pos hsp] at hx
                exact List.mem_cons_of_mem _ (ih cs hlen' _ x hx)
              · rw [if_neg hsp] at hx
                rcases List.mem_cons.mp hx with rfl | hx
                · exact List.mem_cons_self _ _
                · exact List.mem_cons_of_mem _ (ih cs hlen' _ x hx)

theorem c_str_of_no_nul (t : string_t) (h : NUL ∉ t) : c_str t = t := by
  unfold c_str
  rw [List.takeWhile_eq_self_iff]
  intro x hx
  have : x ≠ NUL := fun e => h (e ▸ hx)
  simpa using this

/-! ### The dispatch-time ambiguity message -/

/-- The table built by `parse` never maps a character to the empty name. -/
theorem build_lookup_values_nonempty (p : parser τ) :
    ∀ (keys : List string_t) (lk0 lk : Char → Option string_t),
      (∀ c, lk0 c ≠ some []) → parser.build_lookup p keys lk0 = Except.ok lk →
      ∀ c, lk c ≠ some [] := by
  intro keys
  induction keys with
  | nil =>
      intro lk0 lk h0 h
      have : lk0 = lk := by
        have h' : (Except.ok lk0 : Except Char (Char → Option string_t)) = Except.ok lk := h
        injection h'
      exact this ▸ h0
  | cons key keys ih =>
      intro lk0 lk h0 h
      rw [build_lookup_cons] at h
      by_cases he : key = []
      · rw [if_pos he] at h
        exact ih lk0 lk h0 h
      · rw [if_neg he] at h
        cases ho : p.options_ key with
        | none =>
            rw [ho] at h
            exact ih lk0 lk h0 h
        | some o =>
            rw [ho] at h
            dsimp only at h
            by_cases hs : (o.short_name != NUL) = true
            · rw [if_pos hs] at h
              by_cases hl : (lk0 o.short_name).isSome = true
              · rw [if_pos hl] at h
                cases h
              · rw [if_neg hl] at h
                refine ih _ lk (fun c => ?_) h
                by_cases hc : c = o.short_name
                · simp only [hc, if_true]
                  intro hk
                  exact he (Option.some.inj hk)
                · simp only [hc, if_false]
                  exact h0 c
            · rw [if_neg hs] at h
              exact ih lk0 lk h0 h

/-- The short name reported by a failed table construction is declared by two
different options. -/
theorem build_lookup_error_declared (p : parser τ) :
    ∀ (keys : List string_t) (lk0 : Char → Option string_t) (c : Char), keys.Nodup →
      (∀ c k, lk0 c = some k → declares_short p c k ∧ k ∉ keys) →
      parser.build_lookup p keys lk0 = Except.error c →
      ∃ k1 k2, k1 ≠ k2 ∧ declares_short p c k1 ∧ declares_short p c k2 := by
  intro keys
  induction keys with
  | nil =>
      intro lk0 c _ _ h
      have h' : (Except.ok lk0 : Except Char (Char → Option string_t)) = Except.error c := h
      cases h'
  | cons key keys ih =>
      intro lk0 c hnd h0 h
      obtain ⟨hk, hnd'⟩ := List.nodup_cons.mp hnd
      have h0' : ∀ c k, lk0 c = some k → declares_short p c k ∧ k ∉ keys :=
        fun c k hc => ⟨(h0 c k hc).1, fun hm => (h0 c k hc).2 (List.mem_cons_of_mem _ hm)⟩
      rw [build_lookup_cons] at h
      by_cases he : key = []
      · rw [if_pos he] at h
        exact ih lk0 c hnd' h0' h
      · rw [if_neg he] at h
        cases ho : p.options_ key with
        | none =>
            rw [ho] at h
            exact ih lk0 c hnd' h0' h
        | some o =>
            rw [ho] at h
            dsimp only at h
            by_cases hs : (o.short_name != NUL) = true
            · rw [if_pos hs] at h
              have hnul : o.short_name ≠ NUL := by simpa using hs
              have hdecl : declares_short p o.short_name key := ⟨he, hnul, o, ho, rfl⟩
              by_cases hl : (lk0 o.short_name).isSome = true
              · rw [if_pos hl] at h
                have hc : o.short_name = c := by
                  have h' : (Except.error o.short_name : Except Char (Char → Option string_t)) =
                      Except.error c := h
                  injection h'
                obtain ⟨k', hk'⟩ := Option.isSome_iff_exists.mp hl
                obtain ⟨hd', hnot⟩ := h0 _ _ hk'
                refine ⟨k', key, ?_, hc ▸ hd', hc ▸ hdecl⟩
                rintro rfl
                exact hnot (List.mem_cons_self _ _)
              · rw [if_neg hl] at h
                refine ih _ c hnd' (fun c' k' hc' => ?_) h
                by_cases hcc : c' = o.short_name
                · simp only [hcc, if_true, Option.some.injEq] at hc'
                  subst hc'
                  exact ⟨hcc ▸ hdecl, hk⟩
                · simp only [hcc, if_false] at hc'
                  exact h0' c' k' hc'
            · rw [if_neg hs] at h
              exact ih lk0 c hnd' h0' h

theorem push_error_mem (p : parser τ) (msg e : string_t) (h : e ∈ (p.push_error msg).errors_) :
    e ∈ p.errors_ ∨ e = msg := by
  rcases List.mem_append.mp h with h | h
  · exact Or.inl h
  · exact Or.inr (List.mem_singleton.mp h)

theorem set_option_name_errors (p : parser τ) (name : string_t) :
    ∀ e ∈ (p.set_option_name name).errors_, e ∈ p.errors_ ∨ e[1]? ≠ some 'm' := by
  intro e he
  unfold parser.set_option_name at he
  cases ho : p.options_ name with
  | none =>
      rw [ho] at he
      rcases push_error_mem _ _ _ he with h | h
      · exact Or.inl h
      · exact Or.inr (by rw [h]; simp)
  | some o =>
      rw [ho] at he
      dsimp only at he
      split at he
      · rcases push_error_mem _ _ _ he with h | h
        · exact Or.inl h
        · exact Or.inr (by rw [h]; simp)
      · exact Or.inl he

theorem set_option_value_errors (p : parser τ) (name value : string_t) :
    ∀ e ∈ (p.set_option_value name value).errors_, e ∈ p.errors_ ∨ e[1]? ≠ some 'm' := by
  intro e he
  unfold parser.set_option_value at he
  cases ho : p.options_ name with
  | none =>
      rw [ho] at he
      rcases push_error_mem _ _ _ he with h | h
      · exact Or.inl h
      · exact Or.inr (by rw [h]; simp)
  | some o =>
      rw [ho] at he
      dsimp only at he
      split at he
      · rcases push_error_mem _ _ _ he with h | h
        · exact Or.inl h
        · exact Or.inr (by rw [h]; simp)
      · exact Or.inl he

theorem cluster_errors (lookup : Char → Option string_t) (hlk : ∀ c, lookup c ≠ some [])
    (cs : string_t) :
    ∀ (p : parser τ) (last : Char), ∀ e ∈ (parser.cluster lookup p last cs).1.errors_,
      e ∈ p.errors_ ∨ e[1]? ≠ some 'm' := by
  induction cs with
  | nil => intro p last e he; exact Or.inl he
  | cons c cs ih =>
      intro p last e he
      rw [parser.cluster] at he
      cases hl : lookup last with
      | none =>
          rw [hl] at he
          rcases ih _ _ e he with h | h
          · rcases push_error_mem _ _ _ h with h | h
            · exact Or.inl h
            · exact Or.inr (by rw [h]; simp)
          · exact Or.inr h
      | some name =>
          rw [hl] at he
          have hn : name ≠ [] := fun e' => hlk last (by rw [hl, e'])
          simp only [hn, if_false] at he
          rcases ih _ _ e he with h | h
          · exact set_option_name_errors p name e h
          · exact Or.inr h

theorem dispatch_step_errors (lookup : Char → Option string_t) (hlk : ∀ c, lookup c ≠ some [])
    (p : parser τ) (tok : string_t) (next : Option string_t) :
    ∀ e ∈ (parser.dispatch_step lookup p tok next).1.errors_,
      e ∈ p.errors_ ∨ e[1]? ≠ some 'm' := by
  intro e he
  have hpush : ∀ (q : parser τ) (msg : string_t), msg[1]? ≠ some 'm' →
      (∀ x ∈ q.errors_, x ∈ p.errors_ ∨ x[1]? ≠ some 'm') →
      e ∈ (q.push_error msg).errors_ → e ∈ p.errors_ ∨ e[1]? ≠ some 'm' := by
    intro q msg hmsg hq h
    rcases push_error_mem _ _ _ h with h | h
    · exact hq e h
    · exact Or.inr (h ▸ hmsg)
  have hcl : ∀ (cs : string_t) (q : parser τ) (last : Char),
      ∀ x ∈ (parser.cluster lookup q last cs).1.errors_, x ∈ q.errors_ ∨ x[1]? ≠ some 'm' :=
    cluster_errors lookup hlk
  unfold parser.dispatch_step at he
  split at he
  · split at he
    · exact set_option_value_errors p _ _ e he
    · dsimp only at he
      split at he
      · exact hpush p _ (by simp) (fun x hx => Or.inl hx) he
      · split at he
        · split at he
          · exact hpush p _ (by simp) (fun x hx => Or.inl hx) he
          · exact set_option_value_errors p _ _ e he
        · exact set_option_name_errors p _ e he
  · split at he
    · split at he
      · exact Or.inl he
      · dsimp only at he
        split at he
        · exact hpush _ _ (by simp) (hcl _ p _) he
        · rename_i name hl
          have hn : name ≠ [] := fun e' => hlk _ (by rw [hl, e'])
          simp only [hn, if_false] at he
          split at he
          · rcases set_option_value_errors _ _ _ e he with h | h
            · exact hcl _ p _ e h
            · exact Or.inr h
          · rcases set_option_name_errors _ _ e he with h | h
            · exact hcl _ p _ e h
            · exact Or.inr h
    · exact Or.inl he

theorem dispatch_errors (lookup : Char → Option string_t) (hlk : ∀ c, lookup c ≠ some [])
    (toks : List string_t) (p : parser τ) :
    ∀ e ∈ (parser.dispatch lookup p toks).errors_, e ∈ p.errors_ ∨ e[1]? ≠ some 'm' :=
  parser.dispatch_induction lookup
    (fun p _ P => ∀ e ∈ P.errors_, e ∈ p.errors_ ∨ e[1]? ≠ some 'm')
    (fun _ e he => Or.inl he)
    (fun p tok toks P ih e he => by
      rcases ih e he with h | h
      · exact dispatch_step_errors lookup hlk p tok _ e h
      · exact Or.inr h)
    toks p

/-- No error recorded by `parse(argc, argv)` has `m` as its second character; the
dispatch-time ambiguity message has. -/
theorem parse_errors_second_char (p : parser τ) (traversal argv : List string_t) :
    ∀ e ∈ (p.parse traversal argv).2.errors_, e[1]? ≠ some 'm' := by
  cases argv with
  | nil =>
      intro e he
      rw [parse_nil] at he
      simp only [parser.push_error_errors, List.nil_append, List.mem_singleton] at he
      rw [he]
      simp
  | cons argv0 toks =>
      rw [parse_cons]
      cases hb : parser.build_lookup (prepare p argv0) traversal (fun _ => none) with
      | error c =>
          intro e he
          simp only [parser.push_error_errors, prepare_errors, List.nil_append,
            List.mem_singleton] at he
          rw [he]
          simp
      | ok lk =>
          intro e he
          have hlk := build_lookup_values_nonempty (prepare p argv0) traversal _ lk
            (fun c => by simp) hb
          simp only [parser.validate_eq] at he
          rcases List.mem_append.mp he with h | h
          · rcases dispatch_errors lk hlk toks (prepare p argv0) e h with h' | h'
            · simp at h'
            · exact h'
          · obtain ⟨k, -, hk, -⟩ := mem_missing _ _ _ h
            rw [hk]
            simp [need_option]

/-- No error list of a reachable state holds a message with `m` as second character. -/
theorem reachable_errors_second_char {p : parser τ} (h : reachable p) :
    ∀ e ∈ p.errors_, e[1]? ≠ some 'm' := by
  induction h with
  | empty => intro e he; cases he
  | add p name c d _ ih =>
      intro e he
      unfold parser.add at he
      split at he
      · exact ih e he
      · exact ih e he
  | add_value p T name c d req dv rd _ ih =>
      intro e he
      unfold parser.add_value at he
      split at he
      · exact ih e he
      · split at he
        · exact ih e he
        · exact ih e he
  | set_footer p footer _ ih => exact ih
  | set_program_name p program_name _ ih => exact ih
  | parse p traversal argv _ _ => exact parse_errors_second_char p traversal argv
  | parse_vector p traversal args _ _ => exact parse_errors_second_char p traversal _
  | parse_string p traversal arg _ ih =>
      intro e he
      unfold parser.parse_string at he
      cases hs : parser.scan arg [] [] false with
      | none =>
          rw [hs] at he
          rcases push_error_mem _ _ _ he with h | h
          · exact ih e h
          · rw [h]; simp
      | some r =>
          obtain ⟨args, buf, q⟩ := r
          rw [hs] at he
          dsimp only at he
          split at he
          · rcases push_error_mem _ _ _ he with h | h
            · exact ih e h
            · rw [h]; simp
          · split at he
            · exact parse_errors_second_char p traversal _ e he
            · exact parse_errors_second_char p traversal _ e he

/-! ### Termination of the padding loop -/

theorem padding_none : ∀ (fuel j bound : Nat), j ≤ bound → fuel < bound - j →
    parser.padding fuel j bound = none := by
  intro fuel
  induction fuel with
  | zero =>
      intro j bound h1 h2
      have hj : j ≠ bound := by omega
      simp [parser.padding, hj]
  | succ fuel ih =>
      intro j bound h1 h2
      rw [parser.padding]
      have hj : j ≠ bound := by omega
      rw [if_neg hj, ih (j + 1) bound (by omega) (by omega)]
      rfl

/-- The padding loop from `j` up to `bound` with `j ≤ bound` runs for exactly `bound - j`
iterations, writing one space in each. -/
theorem padding_iff (fuel j bound : Nat) (h : j ≤ bound) :
    parser.padding fuel j bound =
      if bound - j ≤ fuel then some (List.replicate (bound - j) ' ') else none := by
  by_cases hf : bound - j ≤ fuel
  · rw [if_pos hf, padding_eq fuel j bound h hf]
  · rw [if_neg hf, padding_none fuel j bound h (by omega)]

theorem foldl_largest_mem (xs : List (option_base τ)) (x : option_base τ) :
    xs.foldl (fun largest y => if decide (largest.name.length < y.name.length) then y
      else largest) x ∈ x :: xs := by
  induction xs generalizing x with
  | nil => simp
  | cons y ys ih =>
      simp only [List.foldl_cons]
      by_cases hc : x.name.length < y.name.length
      · simp only [hc, decide_True, if_true]
        exact List.mem_cons_of_mem _ (ih y)
      · simp only [hc, decide_False, Bool.false_eq_true, if_false]
        rcases List.mem_cons.mp (ih x) with h | h
        · rw [h]; exact List.mem_cons_self _ _
        · exact List.mem_cons_of_mem _ (List.mem_cons_of_mem _ h)

theorem max_element_mem (items : List (option_base τ)) (w : option_base τ)
    (h : parser.max_element (fun lhs rhs => decide (lhs.name.length < rhs.name.length)) items =
      some w) : w ∈ items := by
  cases items with
  | nil => cases h
  | cons x xs =>
      have h' := Option.some.inj h
      rw [← h']
      exact foldl_largest_mem xs x

/-- When a padding loop runs out of iterations, so does the second loop of `usage()`. -/
theorem usage_lines_none (fuel w : Nat) (items : List (option_base τ)) (o : option_base τ)
    (ho : o ∈ items) (h : parser.padding fuel o.name.length (w + 4) = none) :
    parser.usage_lines fuel w items = none := by
  induction items with
  | nil => cases ho
  | cons x xs ih =>
      rw [parser.usage_lines]
      rcases List.mem_cons.mp ho with rfl | hm
      · rw [h]
      · rw [ih hm]
        cases parser.padding fuel x.name.length (w + 4) <;> rfl

/-! ### Comparison of floating-point values -/

/-- Two floating-point values other than NaN are comparable. -/
theorem fp_value_le_iff_not_lt (a b : sample.fp_value) (ha : a ≠ sample.fp_value.nan)
    (hb : b ≠ sample.fp_value.nan) : a ≤ b ↔ ¬ b < a := by
  show sample.fp_value.le a b = true ↔ ¬ sample.fp_value.lt b a = true
  cases a <;> cases b <;> simp [sample.fp_value.le, sample.fp_value.lt] at ha hb ⊢

end basic

/-! ## Claims -/

section claims

variable {τ : Type} [value_types τ]

open parser

/-- C1 (evaluation of the code at the failing input): on the registry `host` (string,
required), `port` (int, default 80, range 1..65535) the call
`parse(["prog", "--host", "example.com"])` succeeds, yet `get<string>("host")` is the
option token `--host` itself and not the following token `example.com`, which is
stepped over without being used. -/
theorem parse_long_option_takes_its_own_token_as_value :
    (sample.host_port.parse sample.host_port_keys
        ["prog".toList, "--host".toList, "example.com".toList]).1 = true ∧
    (sample.host_port.parse sample.host_port_keys
        ["prog".toList, "--host".toList, "example.com".toList]).2.get
          sample.cpp_type.string_ "host".toList = Except.ok "--host".toList ∧
    (sample.host_port.parse sample.host_port_keys
        ["prog".toList, "--host".toList, "example.com".toList]).2.get
          sample.cpp_type.string_ "host".toList ≠ Except.ok "example.com".toList ∧
    (sample.host_port.parse sample.host_port_keys
        ["prog".toList, "--host".toList, "example.com".toList]).2.get
          sample.cpp_type.int_ "port".toList = Except.ok (80 : Int) ∧
    (sample.host_port.parse sample.host_port_keys
        ["prog".toList, "--host".toList, "example.com".toList]).2.exist "host".toList =
          Except.ok true ∧
    (sample.host_port.parse sample.host_port_keys
        ["prog".toList, "--host".toList, "example.com".toList]).2.rest = [] := by
  refine ⟨by decide, rfl, ?_, rfl, rfl, by decide⟩
  intro h
  have h2 : (Except.ok "--host".toList : Except string_t string_t)
      = Except.ok "example.com".toList := h
  injection h2 with h3
  exact absurd h3 (by decide)

/-- C3: for every registry and every input, each overload of `parse` (argument vector
of any length, `std::vector` of strings, shell-like string) returns `true` exactly when
the error list is empty right after the call. -/
theorem parse_returns_true_iff_no_errors (p : parser τ) (traversal : List string_t) :
    (∀ argv : List string_t,
      (p.parse traversal argv).1 = true ↔ (p.parse traversal argv).2.errors = []) ∧
    (∀ args : List string_t,
      (p.parse_vector traversal args).1 = true ↔
        (p.parse_vector traversal args).2.errors = []) ∧
    (∀ arg : string_t,
      (p.parse_string traversal arg).1 = true ↔
        (p.parse_string traversal arg).2.errors = []) := by
  have hparse : ∀ (q : parser τ) (argv : List string_t),
      (q.parse traversal argv).1 = true ↔ (q.parse traversal argv).2.errors = [] := by
    intro q argv
    unfold parser.parse parser.errors
    cases argv with
    | nil => simp
    | cons argv0 toks =>
        dsimp only
        split
        · simp
        · simp [List.isEmpty_iff]
  refine ⟨hparse p, fun args => hparse p _, ?_⟩
  intro arg
  unfold parser.parse_string
  split
  · simp [parser.errors]
  · split
    · simp [parser.errors]
    · split
      · exact hparse p _
      · exact hparse p _

/-- C4: when the reader of the value-taking option registered under `name` rejects the
raw string `v`, `set_option(name, v)` (the only way `parse` assigns a value) appends the
error `option value is invalid: --name=v` and changes nothing else: the option object,
hence its actual value and its `has_set` flag, is the one from before, as is every other
option and the positional list. -/
theorem set_option_value_rejected_keeps_option (p : parser τ) (name v : string_t) (T : τ)
    (o : option_with_value T)
    (hreg : p.options_ name = some (option_base.with_value T o))
    (hrej : o.reader_ v = none) :
    (option_base.with_value T o).set_value v = (option_base.with_value T o, false) ∧
    (p.set_option_value name v).errors =
      p.errors ++ ["option value is invalid: --".toList ++ name ++ "=".toList ++ v] ∧
    (p.set_option_value name v).options_ name = some (option_base.with_value T o) ∧
    (∀ k, (p.set_option_value name v).options_ k = p.options_ k) ∧
    (p.set_option_value name v).rest = p.rest := by
  have hset : (option_base.with_value T o).set_value v = (option_base.with_value T o, false) := by
    simp [option_base.set_value, option_with_value.set_value, hrej]
  have hopt : ∀ k, (p.set_option_value name v).options_ k = p.options_ k := by
    intro k
    simp only [parser.set_option_value, hreg, hset]
    by_cases hk : k = name
    · simp [parser.insert_option, hk, hreg]
    · simp [parser.insert_option, hk]
  refine ⟨hset, ?_, ?_, hopt, ?_⟩
  · simp [parser.set_option_value, hreg, hset, parser.errors]
  · rw [hopt, hreg]
  · simp [parser.set_option_value, hreg, hset, parser.rest]

/-- Witness for C4: the range reader of `port` rejects `99999`. -/
theorem set_option_value_rejected_keeps_option_witness :
    sample.host_port.options_ "port".toList =
      some (option_base.with_value sample.cpp_type.int_
        (option_with_value.mk_option sample.cpp_type.int_ "port".toList 'p' false (80 : Int)
          "port number".toList sample.port_reader)) ∧
    sample.port_reader "99999".toList = none ∧
    (sample.host_port.set_option_value "port".toList "99999".toList).errors =
      sample.host_port.errors ++ ["option value is invalid: --port=99999".toList] ∧
    ∀ k, (sample.host_port.set_option_value "port".toList "99999".toList).options_ k =
      sample.host_port.options_ k :=
  ⟨rfl, by decide,
    (set_option_value_rejected_keeps_option sample.host_port "port".toList "99999".toList
      sample.cpp_type.int_ _ rfl rfl).2.1,
    (set_option_value_rejected_keeps_option sample.host_port "port".toList "99999".toList
      sample.cpp_type.int_ _ rfl rfl).2.2.2.1⟩

/-- C7 (evaluation of the code at the failing input): after
`parse(["prog", "file", "--nope"])` has left two errors and one positional argument,
the call `parse("\"unterminated")` returns `false` and both lists still hold the
entries of the earlier call; the new tokenization error comes after them. -/
theorem parse_string_keeps_previous_results_on_tokenization_failure :
    (sample.host_port.parse sample.host_port_keys
        ["prog".toList, "file".toList, "--nope".toList]).2.errors =
      ["undefined option: --nope".toList, "need option: --host".toList] ∧
    (sample.host_port.parse sample.host_port_keys
        ["prog".toList, "file".toList, "--nope".toList]).2.rest = ["file".toList] ∧
    ((sample.host_port.parse sample.host_port_keys
        ["prog".toList, "file".toList, "--nope".toList]).2.parse_string
          sample.host_port_keys "\"unterminated".toList).1 = false ∧
    ((sample.host_port.parse sample.host_port_keys
        ["prog".toList, "file".toList, "--nope".toList]).2.parse_string
          sample.host_port_keys "\"unterminated".toList).2.errors =
      ["undefined option: --nope".toList, "need option: --host".toList,
        "quote is not closed".toList] ∧
    ((sample.host_port.parse sample.host_port_keys
        ["prog".toList, "file".toList, "--nope".toList]).2.parse_string
          sample.host_port_keys "\"unterminated".toList).2.rest = ["file".toList] := by
  refine ⟨by decide, by decide, by decide, by decide, by decide⟩

/-- C9: registering under a name that is already registered (as a flag or as a
value-taking option) fails and leaves the whole parser state as it was, for both
overloads of `add`; registering a new name succeeds (for a value-taking option: when
its value type passes the legality check that precedes the name check), appends the
name at the end of the declaration order, stores the freshly constructed option under
it and leaves every other entry untouched. -/
theorem add_rejects_registered_name_and_appends_new_name (p : parser τ) (name : string_t) :
    ((p.options_ name).isSome = true →
      (∀ (c : Char) (d : string_t),
        p.add name c d = (Except.error ("multiple definition: ".toList ++ name), p)) ∧
      (∀ (T : τ) (c : Char) (d : string_t) (req : Bool) (dv : carrier T)
          (rd : string_t → Option (carrier T)),
        (p.add_value T name c d req dv rd).2 = p ∧
        ((p.add_value T name c d req dv rd).1 =
            Except.error ("multiple definition: ".toList ++ name) ∨
          (p.add_value T name c d req dv rd).1 =
            Except.error ("illegal type: ".toList ++ name)))) ∧
    (p.options_ name = none →
      (∀ (c : Char) (d : string_t),
        (p.add name c d).1 = Except.ok () ∧
        (p.add name c d).2.ordered_ = p.ordered_ ++ [name] ∧
        (p.add name c d).2.options_ name =
          some (option_base.without_value
            { name_ := name, short_name_ := c, description_ := d, has_set_ := false }) ∧
        (∀ k, k ≠ name → (p.add name c d).2.options_ k = p.options_ k)) ∧
      (∀ (T : τ) (c : Char) (d : string_t) (req : Bool) (dv : carrier T)
          (rd : string_t → Option (carrier T)), is_legal_type_v T = true →
        (p.add_value T name c d req dv rd).1 = Except.ok () ∧
        (p.add_value T name c d req dv rd).2.ordered_ = p.ordered_ ++ [name] ∧
        (p.add_value T name c d req dv rd).2.options_ name =
          some (option_base.with_value T
            { name_ := name, short_name_ := c, is_required_ := req, has_set_ := false,
              default_value_ := dv, actual_value_ := dv,
              description_ := option_with_value.full_description T req dv d,
              reader_ := rd }) ∧
        (∀ k, k ≠ name → (p.add_value T name c d req dv rd).2.options_ k = p.options_ k))) := by
  refine ⟨fun hreg => ⟨?_, ?_⟩, fun hnew => ⟨?_, ?_⟩⟩
  · intro c d
    simp [parser.add, hreg]
  · intro T c d req dv rd
    unfold parser.add_value
    by_cases hl : is_legal_type_v T = true
    · simp [hl, hreg]
    · simp [hl]
  · intro c d
    have hn : (p.options_ name).isSome = false := by simp [hnew]
    refine ⟨by simp [parser.add, hn], by simp [parser.add, hn], ?_, ?_⟩
    · simp [parser.add, hn, parser.insert_option, option_without_value.mk_option]
    · intro k hk
      simp [parser.add, hn, parser.insert_option, hk]
  · intro T c d req dv rd hl
    have hn : (p.options_ name).isSome = false := by simp [hnew]
    refine ⟨by simp [parser.add_value, hn, hl], by simp [parser.add_value, hn, hl], ?_, ?_⟩
    · simp [parser.add_value, hn, hl, parser.insert_option, option_with_value.mk_option]
    · intro k hk
      simp [parser.add_value, hn, hl, parser.insert_option, hk]

/-- Witness for C9: on the registry `host`, `port` the name `host` is taken and the
name `gzip` is new. -/
theorem add_rejects_registered_name_and_appends_new_name_witness :
    (sample.host_port.add "host".toList 'x' "again".toList =
        (Except.error "multiple definition: host".toList, sample.host_port)) ∧
    ((sample.host_port.add "gzip".toList 'g' "gzip when transfer".toList).1 = Except.ok () ∧
      (sample.host_port.add "gzip".toList 'g' "gzip when transfer".toList).2.ordered_ =
        ["host".toList, "port".toList, "gzip".toList]) ∧
    ((sample.host_port.add_value sample.cpp_type.string_ "type".toList 't'
        "protocol type".toList false "http".toList
        (default_reader sample.lexical_cast_string)).1 = Except.ok () ∧
      (sample.host_port.add_value sample.cpp_type.string_ "type".toList 't'
        "protocol type".toList false "http".toList
        (default_reader sample.lexical_cast_string)).2.ordered_ =
        ["host".toList, "port".toList, "type".toList]) :=
  ⟨((add_rejects_registered_name_and_appends_new_name sample.host_port "host".toList).1
      rfl).1 'x' "again".toList,
    ⟨(((add_rejects_registered_name_and_appends_new_name sample.host_port "gzip".toList).2
        rfl).1 'g' "gzip when transfer".toList).1,
      (((add_rejects_registered_name_and_appends_new_name sample.host_port "gzip".toList).2
        rfl).1 'g' "gzip when transfer".toList).2.1⟩,
    ⟨(((add_rejects_registered_name_and_appends_new_name sample.host_port "type".toList).2
        rfl).2 sample.cpp_type.string_ 't' "protocol type".toList false "http".toList
        (default_reader sample.lexical_cast_string) rfl).1,
      (((add_rejects_registered_name_and_appends_new_name sample.host_port "type".toList).2
        rfl).2 sample.cpp_type.string_ 't' "protocol type".toList false "http".toList
        (default_reader sample.lexical_cast_string) rfl).2.1⟩⟩

/-- C2 (as amended): on a registry without short-name collision, for a registered
value-taking option `n` and a string `v` its reader accepts with result `r`:
if `n` contains no `=`, parsing `[prog, "--n=v"]` assigns the option, and if `n` is not
empty and its short name `c` is neither the null character nor `-`, parsing
`[prog, "-c", v]` assigns it too.  Afterwards `get(n)` is `r`, `exist(n)` is true,
`rest()` is empty and every recorded error is a missing-required message for a key
other than `n`. -/
theorem parse_equals_form_and_short_form_assign [DecidableEq τ] (p : parser τ)
    (traversal : List string_t) (henum : enumerates p traversal)
    (hd : short_names_distinct p) (prog n v : string_t) (T : τ) (o : option_with_value T)
    (r : carrier T) (hreg : p.options_ n = some (option_base.with_value T o))
    (hacc : o.reader_ v = some r) :
    ('=' ∉ n →
      assigned_cleanly (p.parse traversal [prog, '-' :: '-' :: (n ++ '=' :: v)]).2
        traversal n T r) ∧
    (n ≠ [] → o.short_name_ ≠ NUL → o.short_name_ ≠ '-' →
      assigned_cleanly (p.parse traversal [prog, ['-', o.short_name_], v]).2
        traversal n T r) := by
  obtain ⟨lk, hlk, hspec⟩ := lookup_of_registry p traversal henum hd prog
  have hreg' : (prepare p prog).options_ n = some (option_base.with_value T o) := by
    rw [prepare_options]; exact hreg
  constructor
  · intro hneq
    rw [parse_cons, hlk]
    dsimp only
    have hD : parser.dispatch lk (prepare p prog) ['-' :: '-' :: (n ++ '=' :: v)] =
        (prepare p prog).set_option_value n v := by
      show (parser.dispatch_step lk (prepare p prog) _ none).1 = _
      unfold parser.dispatch_step
      simp [parser.starts_with_two_dashes, split_at_equals_append n v hneq]
    rw [hD, set_option_value_accepted (prepare p prog) n v T o r hreg' hacc]
    exact queries_after_assignment (prepare p prog) traversal n T o r (by simp) (by simp)
  · intro hne hnul hdash
    rw [parse_cons, hlk]
    dsimp only
    have hlkc : lk o.short_name_ = some n := (hspec _ _).mpr ⟨hne, hnul, _, hreg, rfl⟩
    have hstep : parser.dispatch_step lk (prepare p prog) ['-', o.short_name_] (some v) =
        ((prepare p prog).set_option_value n v, true) := by
      unfold parser.dispatch_step
      simp [starts_with_two_dashes_short _ hdash, parser.starts_with_dash, parser.cluster,
        hlkc, hne, hreg, option_base.has_value]
    have hD : parser.dispatch lk (prepare p prog) [['-', o.short_name_], v] =
        (prepare p prog).set_option_value n v := by
      rw [parser.dispatch_cons]
      simp [hstep, parser.dispatch_nil]
    rw [hD, set_option_value_accepted (prepare p prog) n v T o r hreg' hacc]
    exact queries_after_assignment (prepare p prog) traversal n T o r (by simp) (by simp)

/-- Witness for C2: on the registry `host`, `port` the arguments `--host=a=b` and
`-h a=b` both assign `a=b` to `host`. -/
theorem parse_equals_form_and_short_form_assign_witness :
    assigned_cleanly
      (sample.host_port.parse sample.host_port_keys ["prog".toList, "--host=a=b".toList]).2
      sample.host_port_keys "host".toList sample.cpp_type.string_ "a=b".toList ∧
    assigned_cleanly
      (sample.host_port.parse sample.host_port_keys
        ["prog".toList, "-h".toList, "a=b".toList]).2
      sample.host_port_keys "host".toList sample.cpp_type.string_ "a=b".toList :=
  ⟨(parse_equals_form_and_short_form_assign sample.host_port sample.host_port_keys
      host_port_enumerates host_port_short_names_distinct "prog".toList "host".toList
      "a=b".toList sample.cpp_type.string_ _ "a=b".toList rfl rfl).1 (by decide),
    (parse_equals_form_and_short_form_assign sample.host_port sample.host_port_keys
      host_port_enumerates host_port_short_names_distinct "prog".toList "host".toList
      "a=b".toList sample.cpp_type.string_ _ "a=b".toList rfl rfl).2 (by decide) (by decide)
      (by decide)⟩

/-- C2 (counterexample): the claim fails (1) on the registry `clash`, where the short name
`n` of the option `name` is owned by no other option but two other options share `a`:
parsing `--name=v` fails and leaves `name` unassigned; (2) for the option named `a=b`:
`--a=b=v` is split at the first `=` and reports the undefined option `a`; (3) for the
option `dash` with short name `-`: the token `--` is read as a long option with an empty
name; (4) for the option with the empty name and short name `e`: `-e` is undefined. -/
theorem parse_equals_form_and_short_form_counterexample :
    ((sample.clash.parse sample.clash_keys ["prog".toList, "--name=v".toList]).1 = false ∧
      (sample.clash.parse sample.clash_keys ["prog".toList, "--name=v".toList]).2.get
        sample.cpp_type.string_ "name".toList = Except.ok ([] : string_t) ∧
      (sample.clash.parse sample.clash_keys ["prog".toList, "--name=v".toList]).2.exist
        "name".toList = Except.ok false) ∧
    ((sample.odd_names.parse sample.odd_names_keys ["prog".toList, "--a=b=v".toList]).2.errors =
        ["undefined options: --a".toList] ∧
      (sample.odd_names.parse sample.odd_names_keys ["prog".toList, "--a=b=v".toList]).2.exist
        "a=b".toList = Except.ok false) ∧
    ((sample.odd_names.parse sample.odd_names_keys
        ["prog".toList, "--".toList, "v".toList]).2.exist "dash".toList = Except.ok false) ∧
    ((sample.odd_names.parse sample.odd_names_keys
        ["prog".toList, "-e".toList, "v".toList]).2.errors =
        ["undefined short option: -e".toList] ∧
      (sample.odd_names.parse sample.odd_names_keys
        ["prog".toList, "-e".toList, "v".toList]).2.rest = ["v".toList] ∧
      (sample.odd_names.parse sample.odd_names_keys
        ["prog".toList, "-e".toList, "v".toList]).2.exist [] = Except.ok false) := by
  refine ⟨⟨by decide, rfl, rfl⟩, ⟨by decide, rfl⟩, rfl, ⟨by decide, by decide, rfl⟩⟩

/-- C5: on a registry without short-name collision and for a non-empty argument vector,
the error list after `parse` holds the message `need option: --n` exactly once when the
option under `n` is required and its `has_set` flag is false, and not at all for any
other `n`, whatever errors dispatch recorded before; the options of the final state are
those at the end of the dispatch loop. -/
theorem parse_reports_each_missing_required_option_once (p : parser τ)
    (traversal : List string_t) (henum : enumerates p traversal)
    (hd : short_names_distinct p) (argv0 : string_t) (toks : List string_t) (n : string_t) :
    (p.parse traversal (argv0 :: toks)).2.errors.count (need_option n) =
        (if ∃ o, (p.parse traversal (argv0 :: toks)).2.options_ n = some o ∧
          o.is_required = true ∧ o.has_set = false then 1 else 0) ∧
    ∃ lookup, parser.build_lookup (prepare p argv0) traversal (fun _ => none) =
        Except.ok lookup ∧
      (p.parse traversal (argv0 :: toks)).2.options_ =
        (parser.dispatch lookup (prepare p argv0) toks).options_ := by
  obtain ⟨lk, hlk, -⟩ := lookup_of_registry p traversal henum hd argv0
  refine ⟨?_, lk, hlk, by rw [parse_cons, hlk]; exact validate_options _ _⟩
  rw [parse_cons, hlk]
  dsimp only
  rw [parser.validate_eq]
  simp only [parser.errors]
  obtain ⟨-, -, -, hstat, ⟨es, hes, hhead⟩, -⟩ := evolves_dispatch lk toks (prepare p argv0)
  rw [hes, prepare_errors, List.nil_append, List.count_append]
  have h0 : es.count (need_option n) = 0 := by
    rw [List.count_eq_zero]
    intro hmem
    exact hhead _ hmem (need_option_head n)
  rw [h0, Nat.zero_add, count_missing _ _ henum.1]
  have hiff : (n ∈ traversal ∧ ∃ o, (parser.dispatch lk (prepare p argv0) toks).options_ n = some o ∧
        o.is_valid = false) ↔
      ∃ o, (parser.dispatch lk (prepare p argv0) toks).options_ n = some o ∧
        o.is_required = true ∧ o.has_set = false := by
    constructor
    · rintro ⟨-, o, ho, hv⟩
      exact ⟨o, ho, (is_valid_eq_false_iff o).mp hv⟩
    · rintro ⟨o, ho, hv⟩
      refine ⟨(henum.2 n).mpr ?_, o, ho, (is_valid_eq_false_iff o).mpr hv⟩
      cases hp : p.options_ n with
      | some o' => rfl
      | none =>
          have hp' : (prepare p argv0).options_ n = none := by rw [prepare_options]; exact hp
          rw [none_of_same_static (same_static_symm hstat) hp'] at ho
          cases ho
  simp only [hiff]

/-- Witness for C5: `parse(["prog", "--port", "99999"])` on the registry `host`, `port`
fails with an error for `port` followed by the missing-required error for `host`. -/
theorem parse_reports_each_missing_required_option_once_witness :
    (sample.host_port.parse sample.host_port_keys
        ["prog".toList, "--port".toList, "99999".toList]).2.errors.count
          (need_option "host".toList) = 1 ∧
    (sample.host_port.parse sample.host_port_keys
        ["prog".toList, "--port".toList, "99999".toList]).2.errors.count
          (need_option "port".toList) = 0 ∧
    (sample.host_port.parse sample.host_port_keys
        ["prog".toList, "--port".toList, "99999".toList]).1 = false ∧
    (sample.host_port.parse sample.host_port_keys
        ["prog".toList, "--port".toList, "99999".toList]).2.errors =
      ["option value is invalid: --port=--port".toList, "need option: --host".toList] :=
  ⟨(parse_reports_each_missing_required_option_once sample.host_port sample.host_port_keys
      host_port_enumerates host_port_short_names_distinct "prog".toList
      ["--port".toList, "99999".toList] "host".toList).1.trans (by decide),
    (parse_reports_each_missing_required_option_once sample.host_port sample.host_port_keys
      host_port_enumerates host_port_short_names_distinct "prog".toList
      ["--port".toList, "99999".toList] "port".toList).1.trans (by decide),
    by decide, by decide⟩

/-- C6 (as amended): on a registry without short-name collision and for a non-empty
argument vector, every token at an index `i >= 1` that does not start with `-` and whose
predecessor does not start with `-` is in `rest()`; `rest()` contains all such tokens in
their order and is itself a subsequence of the tokens after `argv[0]`.  Errors never stop
the loop: from a state that already holds the errors `e` dispatch keeps them in front and
produces the same positional list and the same option states as from any other error list. -/
theorem parse_scans_every_token_without_collision (p : parser τ)
    (traversal : List string_t) (henum : enumerates p traversal)
    (hd : short_names_distinct p) (argv0 : string_t) (toks : List string_t) :
    (∀ (i : Nat) (tok prev : string_t), 1 ≤ i → (argv0 :: toks)[i]? = some tok →
      (argv0 :: toks)[i - 1]? = some prev → parser.starts_with_dash tok = false →
      parser.starts_with_dash prev = false →
      tok ∈ (p.parse traversal (argv0 :: toks)).2.rest) ∧
    (positional_tokens false toks).Sublist (p.parse traversal (argv0 :: toks)).2.rest ∧
    (p.parse traversal (argv0 :: toks)).2.rest.Sublist toks ∧
    (∀ (lookup : Char → Option string_t) (q : parser τ) (e : List string_t),
      e <+: (parser.dispatch lookup { q with errors_ := e } toks).errors_ ∧
      (parser.dispatch lookup { q with errors_ := e } toks).others_ =
        (parser.dispatch lookup q toks).others_ ∧
      (parser.dispatch lookup { q with errors_ := e } toks).options_ =
        (parser.dispatch lookup q toks).options_) := by
  obtain ⟨lk, hlk, -⟩ := lookup_of_registry p traversal henum hd argv0
  obtain ⟨rs, hrs, hsub, hpos⟩ := dispatch_others lk toks (prepare p argv0)
  have hrest : (p.parse traversal (argv0 :: toks)).2.rest = rs := by
    rw [parse_cons, hlk]
    dsimp only
    rw [parser.validate_eq]
    simp [parser.rest, hrs]
  rw [hrest]
  refine ⟨?_, hpos, hsub, ?_⟩
  · intro i tok prev hi htok hprev hdt hdp
    obtain ⟨j, rfl⟩ : ∃ j, i = j + 1 := ⟨i - 1, by omega⟩
    simp only [List.getElem?_cons_succ, Nat.add_sub_cancel] at htok hprev
    refine hpos.subset (mem_positional_tokens toks false j tok htok hdt (fun _ => rfl) ?_)
    intro j' prev' hj hp
    subst hj
    simp only [List.getElem?_cons_succ] at hprev
    rw [hp] at hprev
    cases hprev
    exact hdp
  · intro lookup q e
    have hss : same_static q { q with errors_ := e } := same_static_of_options rfl
    obtain ⟨⟨es, he1, he2⟩, ⟨rs', hr1, hr2⟩, hopt⟩ := in_step_dispatch lookup toks q _ hss
    refine ⟨⟨es, he2.symm⟩, by rw [hr2, hr1], ?_⟩
    funext k
    rcases hopt k with ⟨a, b⟩ | c
    · rw [a, b]
    · exact c.symm

/-- Witness for C6: an undefined option in the middle does not keep `in`, `out` and
`last` from reaching `rest()`. -/
theorem parse_scans_every_token_without_collision_witness :
    "last".toList ∈ (sample.host_port.parse sample.host_port_keys
      ["prog".toList, "in".toList, "--nope".toList, "out".toList, "last".toList]).2.rest ∧
    (sample.host_port.parse sample.host_port_keys
      ["prog".toList, "in".toList, "--nope".toList, "out".toList, "last".toList]).2.rest =
      ["in".toList, "out".toList, "last".toList] ∧
    (sample.host_port.parse sample.host_port_keys
      ["prog".toList, "in".toList, "--nope".toList, "out".toList, "last".toList]).2.errors =
      ["undefined option: --nope".toList, "need option: --host".toList] :=
  ⟨(parse_scans_every_token_without_collision sample.host_port sample.host_port_keys
      host_port_enumerates host_port_short_names_distinct "prog".toList
      ["in".toList, "--nope".toList, "out".toList, "last".toList]).1 4 "last".toList
      "out".toList (by decide) rfl rfl (by decide) (by decide),
    by decide, by decide⟩

/-- C6 (counterexample): on the registry `clash`, whose flags `all` and `append` share the
short name `a`, `parse(["prog", "file"])` returns before the dispatch loop: the token
`file` at index 1, which neither starts with `-` nor follows a token that does, is not
in `rest()`. -/
theorem parse_scans_every_token_counterexample :
    (sample.clash.parse sample.clash_keys ["prog".toList, "file".toList]).2.rest = [] ∧
    "file".toList ∉ (sample.clash.parse sample.clash_keys
      ["prog".toList, "file".toList]).2.rest ∧
    parser.starts_with_dash "file".toList = false ∧
    parser.starts_with_dash "prog".toList = false ∧
    (sample.clash.parse sample.clash_keys ["prog".toList, "file".toList]).2.errors =
      ["short option 'a' is ambiguous".toList] := by
  refine ⟨by decide, by decide, by decide, by decide, by decide⟩

/-- C8: calling `parse` twice in a row with the same argument vector gives, after the
second call, the same return value, the same `errors()`, the same `rest()` and the same
`exist`/`get` result for every name and type as after the first call; this holds from
every registry state, a freshly built one included, and for the `std::vector` overload. -/
theorem parse_twice_yields_same_results [DecidableEq τ] (p : parser τ)
    (traversal : List string_t) (argv : List string_t) :
    ((p.parse traversal argv).2.parse traversal argv).1 = (p.parse traversal argv).1 ∧
    ((p.parse traversal argv).2.parse traversal argv).2.errors =
      (p.parse traversal argv).2.errors ∧
    ((p.parse traversal argv).2.parse traversal argv).2.rest =
      (p.parse traversal argv).2.rest ∧
    (∀ name, ((p.parse traversal argv).2.parse traversal argv).2.exist name =
      (p.parse traversal argv).2.exist name) ∧
    (∀ T name, ((p.parse traversal argv).2.parse traversal argv).2.get T name =
      (p.parse traversal argv).2.get T name) ∧
    (p.parse_vector traversal argv).2.parse_vector traversal argv =
      p.parse_vector traversal argv := by
  refine ⟨?_, ?_, ?_, ?_, ?_, ?_⟩
  · rw [parse_parse]
  · rw [parse_parse]
  · rw [parse_parse]
  · intro name; rw [parse_parse]
  · intro T name; rw [parse_parse]
  · exact parse_parse p traversal (argv.map c_str)

/-- C10 (as amended): `add` does not look at short names.  Registering a new name with
the short name of an already registered option succeeds (for a value-taking option:
when the value type is legal), the older option stays as it was and the new one
declares the same short name.  When both names are non-empty and the short name is not
the null character, the collision shows at parse time: every `parse` of a non-empty
argument vector returns `false` with exactly one error, about an ambiguous short option,
and an empty `rest()`. -/
theorem add_accepts_declared_short_name (p : parser τ) (name other : string_t)
    (o' : option_base τ) (hnew : p.options_ name = none) (hother : p.options_ other = some o')
    (d : string_t) :
    ((p.add name o'.short_name d).1 = Except.ok () ∧
      (p.add name o'.short_name d).2.options_ other = some o' ∧
      ((p.add name o'.short_name d).2.options_ name).map option_base.short_name =
        some o'.short_name) ∧
    (∀ (T : τ) (req : Bool) (dv : carrier T) (rd : string_t → Option (carrier T)),
      is_legal_type_v T = true →
      (p.add_value T name o'.short_name d req dv rd).1 = Except.ok () ∧
      (p.add_value T name o'.short_name d req dv rd).2.options_ other = some o' ∧
      ((p.add_value T name o'.short_name d req dv rd).2.options_ name).map
        option_base.short_name = some o'.short_name) ∧
    (name ≠ [] → other ≠ [] → o'.short_name ≠ NUL →
      ∀ (traversal : List string_t) (argv0 : string_t) (toks : List string_t),
        name ∈ traversal → other ∈ traversal →
        ((p.add name o'.short_name d).2.parse traversal (argv0 :: toks)).1 = false ∧
        ((p.add name o'.short_name d).2.parse traversal (argv0 :: toks)).2.rest = [] ∧
        ∃ c, ((p.add name o'.short_name d).2.parse traversal (argv0 :: toks)).2.errors =
          ["short option '".toList ++ [c] ++ "' is ambiguous".toList]) := by
  have hne : other ≠ name := by
    rintro rfl
    rw [hnew] at hother
    cases hother
  have hn : (p.options_ name).isSome = false := by simp [hnew]
  have hadd : (p.add name o'.short_name d).2.options_ other = some o' ∧
      (p.add name o'.short_name d).2.options_ name =
        some (option_base.without_value
          (option_without_value.mk_option name o'.short_name d)) := by
    simp [parser.add, hn, parser.insert_option, hne, hother]
  refine ⟨⟨by simp [parser.add, hn], hadd.1, by rw [hadd.2]; rfl⟩, ?_, ?_⟩
  · intro T req dv rd hl
    refine ⟨by simp [parser.add_value, hn, hl], ?_, ?_⟩
    · simp [parser.add_value, hn, hl, parser.insert_option, hne, hother]
    · simp [parser.add_value, hn, hl, parser.insert_option, option_base.short_name,
        option_with_value.mk_option]
  · intro hname hoth hnul traversal argv0 toks hm1 hm2
    obtain ⟨c, hc⟩ := parse_of_collision (p.add name o'.short_name d).2 traversal argv0 toks
      name other o'.short_name hm1 hm2 (Ne.symm hne)
      ⟨hname, hnul, _, hadd.2, rfl⟩ ⟨hoth, hnul, o', hadd.1, rfl⟩
    rw [hc]
    exact ⟨rfl, by simp [parser.rest], c, by simp [parser.errors]⟩

/-- Witness for C10: after the flag `all` with short name `a`, the flag `append` can be
registered with the same short name, and `parse` then reports the ambiguity. -/
theorem add_accepts_declared_short_name_witness :
    (((parser.empty : parser sample.cpp_type).add "all".toList 'a' [] ).2.add
        "append".toList 'a' []).1 = Except.ok () ∧
    (((parser.empty : parser sample.cpp_type).add "all".toList 'a' [] ).2.add_value
        sample.cpp_type.string_ "append".toList 'a' [] false ([] : string_t)
        (default_reader sample.lexical_cast_string)).1 = Except.ok () ∧
    ((((parser.empty : parser sample.cpp_type).add "all".toList 'a' []).2.add
        "append".toList 'a' []).2.parse ["all".toList, "append".toList]
          ["prog".toList, "file".toList]).1 = false :=
  ⟨(add_accepts_declared_short_name
      ((parser.empty : parser sample.cpp_type).add "all".toList 'a' []).2
      "append".toList "all".toList _ rfl rfl []).1.1,
    ((add_accepts_declared_short_name
      ((parser.empty : parser sample.cpp_type).add "all".toList 'a' []).2
      "append".toList "all".toList _ rfl rfl []).2.1 sample.cpp_type.string_ false
      ([] : string_t) (default_reader sample.lexical_cast_string) rfl).1,
    ((add_accepts_declared_short_name
      ((parser.empty : parser sample.cpp_type).add "all".toList 'a' []).2
      "append".toList "all".toList _ rfl rfl []).2.2 (by decide) (by decide) (by decide)
      ["all".toList, "append".toList] "prog".toList ["file".toList] (by decide)
      (by decide)).1⟩

/-- C10 (counterexample): starting from the empty registry, `add("all", 'a')` and then
`add("append", 'a')` both succeed, and the registry holds two options that declare the
short name `a`. -/
theorem add_short_name_collision_counterexample :
    ((parser.empty : parser sample.cpp_type).add "all".toList 'a' []).1 = Except.ok () ∧
    (((parser.empty : parser sample.cpp_type).add "all".toList 'a' []).2.add
        "append".toList 'a' []).1 = Except.ok () ∧
    ((((parser.empty : parser sample.cpp_type).add "all".toList 'a' []).2.add
        "append".toList 'a' []).2.options_ "all".toList).map option_base.short_name =
      some 'a' ∧
    ((((parser.empty : parser sample.cpp_type).add "all".toList 'a' []).2.add
        "append".toList 'a' []).2.options_ "append".toList).map option_base.short_name =
      some 'a' ∧
    (((parser.empty : parser sample.cpp_type).add "all".toList 'a' []).2.add
        "append".toList 'a' []).2.ordered_ = ["all".toList, "append".toList] := by
  refine ⟨rfl, rfl, by decide, by decide, by decide⟩

/-- C12: `get<T>(name)` has three outcomes.  For an unregistered name it fails with
`there is no flag: --name`; for a name registered as a flag or with another value type
it fails with `type mismatch flag 'name'`, a different message; for a name registered
with the value type `T` it returns the actual value of the option, which in every
reachable state is the registered default as long as `has_set_` is false, that is, as
long as no assignment succeeded. -/
theorem get_has_three_outcomes [DecidableEq τ] (p : parser τ) (T : τ) (name : string_t) :
    (p.options_ name = none →
      p.get T name = Except.error ("there is no flag: --".toList ++ name)) ∧
    (∀ o, p.options_ name = some (option_base.without_value o) →
      p.get T name = Except.error ("type mismatch flag '".toList ++ name ++ "'".toList)) ∧
    (∀ T' (o : option_with_value T'), p.options_ name = some (option_base.with_value T' o) →
      T' ≠ T →
      p.get T name = Except.error ("type mismatch flag '".toList ++ name ++ "'".toList)) ∧
    ("type mismatch flag '".toList ++ name ++ "'".toList ≠ "there is no flag: --".toList ++ name) ∧
    (∀ o : option_with_value T, p.options_ name = some (option_base.with_value T o) →
      p.get T name = Except.ok o.actual_value_ ∧
      (reachable p → o.has_set_ = false → p.get T name = Except.ok o.default_value_)) := by
  refine ⟨?_, ?_, ?_, ?_, ?_⟩
  · intro h
    simp [parser.get, h]
  · intro o h
    simp [parser.get, h]
  · intro T' o h hne
    simp [parser.get, h, hne]
  · intro h
    have := congrArg (fun l => l.drop 1 |>.head?) h
    simp at this
  · intro o h
    have hget : p.get T name = Except.ok o.actual_value_ := by
      simp [parser.get, h, option_with_value.get]
    refine ⟨hget, fun hr hset => ?_⟩
    rw [hget, (reachable_ok hr).2 name T o h hset]

/-- Witness for C12: on the registry `host`, `port`, after a parse that assigns
nothing, the name `nope` is unknown, `host` is not an `int`, and `port` still holds its
default 80. -/
theorem get_has_three_outcomes_witness :
    (sample.host_port.parse sample.host_port_keys ["prog".toList]).2.get
        sample.cpp_type.string_ "nope".toList = Except.error "there is no flag: --nope".toList ∧
    (sample.host_port.parse sample.host_port_keys ["prog".toList]).2.get
        sample.cpp_type.int_ "host".toList = Except.error "type mismatch flag 'host'".toList ∧
    (sample.host_port.parse sample.host_port_keys ["prog".toList]).2.get
        sample.cpp_type.int_ "port".toList = Except.ok (80 : Int) :=
  ⟨(get_has_three_outcomes (sample.host_port.parse sample.host_port_keys ["prog".toList]).2
      sample.cpp_type.string_ "nope".toList).1 rfl,
    (get_has_three_outcomes (sample.host_port.parse sample.host_port_keys ["prog".toList]).2
      sample.cpp_type.int_ "host".toList).2.2.1 sample.cpp_type.string_ _ rfl (by decide),
    ((get_has_three_outcomes (sample.host_port.parse sample.host_port_keys ["prog".toList]).2
      sample.cpp_type.int_ "port".toList).2.2.2.2 _ rfl).2
      (reachable.parse _ _ _ (reachable.add_value _ _ _ _ _ _ _ _
        (reachable.add_value _ _ _ _ _ _ _ _ reachable.empty))) rfl⟩

/-- C13: for an input with balanced quotes and no dangling escape the tokenizer
succeeds, and the concatenation of its tokens is the input without its quote markers,
its escape backslashes and its delimiter spaces, every other character kept once and
in order.  The input is cut at its delimiter spaces only, into one piece per delimiter
and a last piece; the tokens are these pieces, the last one left out when it is empty.
The string form of `parse` hands the tokens to the vector form. -/
theorem tokenizer_preserves_content (arg : string_t)
    (h : scan_state arg false = some false) :
    ∃ tokens, parser.tokenize arg = Except.ok tokens ∧
      tokens.flatten = stripped arg false ∧
      (∃ pieces last, pieces.length = delimiters arg false ∧
        tokens = (if last ≠ [] then pieces ++ [last] else pieces)) ∧
      (NUL ∉ arg → tokens.map c_str = tokens) ∧
      ∀ (p : parser τ) (traversal : List string_t),
        p.parse_string traversal arg = p.parse_vector traversal tokens := by
  rcases tokenize_spec arg with ⟨-, h'⟩ | ⟨-, h'⟩ | ⟨args, buf, -, htok, hflat, hlen⟩
  · rw [h] at h'; cases h'
  · rw [h] at h'; cases h'
  · have hjoin : (if buf ≠ [] then args ++ [buf] else args).flatten = stripped arg false := by
      by_cases hb : buf = []
      · rw [← hflat, hb]; simp
      · simp only [hb, ne_eq, not_false_eq_true, if_true]
        exact hflat
    refine ⟨_, htok, hjoin, ⟨args, buf, hlen, rfl⟩, fun hnul => ?_, fun p traversal => ?_⟩
    · refine (List.map_congr_left (fun t ht => ?_)).trans (List.map_id _)
      refine c_str_of_no_nul t (fun hm => hnul ?_)
      refine stripped_subset arg.length arg (Nat.le_refl _) false NUL ?_
      rw [← hjoin]
      exact List.mem_flatten.mpr ⟨t, ht, hm⟩
    · rw [parse_string_eq, htok]

/-- Witness for C13: the two inputs of the specification. -/
theorem tokenizer_preserves_content_witness :
    parser.tokenize "host \"a b\" c".toList =
      Except.ok ["host".toList, "a b".toList, "c".toList] ∧
    parser.tokenize "a\\ b".toList = Except.ok ["a b".toList] ∧
    (∃ tokens, parser.tokenize "host \"a b\" c".toList = Except.ok tokens ∧
      tokens.flatten = "hosta bc".toList) ∧
    (∃ tokens, parser.tokenize "a\\ b".toList = Except.ok tokens ∧
      tokens.flatten = "a b".toList) :=
  ⟨rfl, rfl,
    (@tokenizer_preserves_content sample.cpp_type _ "host \"a b\" c".toList
      (by decide)).imp (fun _ h => ⟨h.1, h.2.1.trans (by decide)⟩),
    (@tokenizer_preserves_content sample.cpp_type _ "a\\ b".toList
      (by decide)).imp (fun _ h => ⟨h.1, h.2.1.trans (by decide)⟩)⟩

/-- C14: the string form of `parse` fails at tokenization exactly when the input ends
inside an open quote or on a backslash with nothing after it, which for an input
without backslashes means an odd number of double quotes.  In that case `parse` returns
`false`, appends the tokenization error and does nothing else: no option and no
positional argument changes.  Otherwise the tokens go to the vector form. -/
theorem tokenization_fails_iff (arg : string_t) :
    ((∃ msg, parser.tokenize arg = Except.error msg) ↔
      (scan_state arg false = some true ∨ scan_state arg false = none)) ∧
    ('\\' ∉ arg →
      ((∃ msg, parser.tokenize arg = Except.error msg) ↔ arg.count '"' % 2 = 1)) ∧
    (∀ msg, parser.tokenize arg = Except.error msg →
      (msg = "quote is not closed".toList ∨
        msg = "unexpected occurrence of '\\' at end of string".toList) ∧
      ∀ (p : parser τ) (traversal : List string_t),
        (p.parse_string traversal arg).1 = false ∧
        (p.parse_string traversal arg).2.errors = p.errors ++ [msg] ∧
        (p.parse_string traversal arg).2.options_ = p.options_ ∧
        (p.parse_string traversal arg).2.rest = p.rest) ∧
    (∀ tokens, parser.tokenize arg = Except.ok tokens →
      ∀ (p : parser τ) (traversal : List string_t),
        p.parse_string traversal arg = p.parse_vector traversal tokens) := by
  have hiff : (∃ msg, parser.tokenize arg = Except.error msg) ↔
      (scan_state arg false = some true ∨ scan_state arg false = none) := by
    rcases tokenize_spec arg with ⟨h1, h2⟩ | ⟨h1, h2⟩ | ⟨args, buf, h2, h1, -, -⟩
    · exact ⟨fun _ => Or.inr h2, fun _ => ⟨_, h1⟩⟩
    · exact ⟨fun _ => Or.inl h2, fun _ => ⟨_, h1⟩⟩
    · constructor
      · rintro ⟨msg, hm⟩
        rw [h1] at hm
        cases hm
      · rintro (h | h)
        · rw [h2] at h; cases h
        · rw [h2] at h; cases h
  refine ⟨hiff, ?_, ?_, ?_⟩
  · intro hno
    rw [hiff, scan_state_of_no_backslash arg hno false]
    by_cases hp : arg.count '"' % 2 = 1
    · simp [hp]
    · simp [hp]
  · intro msg hmsg
    constructor
    · rcases tokenize_spec arg with ⟨h1, -⟩ | ⟨h1, -⟩ | ⟨args, buf, -, h1, -, -⟩
      · rw [h1] at hmsg
        cases hmsg
        exact Or.inr rfl
      · rw [h1] at hmsg
        cases hmsg
        exact Or.inl rfl
      · rw [h1] at hmsg
        cases hmsg
    · intro p traversal
      rw [parse_string_eq, hmsg]
      exact ⟨rfl, rfl, rfl, rfl⟩
  · intro tokens htok p traversal
    rw [parse_string_eq, htok]

/-- Witness for C14: the input `"unterminated` has one double quote and no backslash;
a final backslash that is itself escaped is an ordinary character. -/
theorem tokenization_fails_iff_witness :
    (∃ msg, parser.tokenize "\"unterminated".toList = Except.error msg) ∧
    (sample.host_port.parse_string sample.host_port_keys "\"unterminated".toList).1 = false ∧
    (sample.host_port.parse_string sample.host_port_keys "\"unterminated".toList).2.errors =
      sample.host_port.errors ++ ["quote is not closed".toList] ∧
    (sample.host_port.parse_string sample.host_port_keys "\"unterminated".toList).2.options_ =
      sample.host_port.options_ ∧
    parser.tokenize "a b".toList = Except.ok ["a".toList, "b".toList] ∧
    parser.tokenize "a\\\\".toList = Except.ok ["a\\".toList] ∧
    sample.host_port.parse_string sample.host_port_keys "a b".toList =
      sample.host_port.parse_vector sample.host_port_keys ["a".toList, "b".toList] :=
  ⟨((@tokenization_fails_iff sample.cpp_type _ "\"unterminated".toList).2.1
      (by decide)).mpr (by decide),
    (((tokenization_fails_iff "\"unterminated".toList).2.2.1 "quote is not closed".toList
      rfl).2 sample.host_port sample.host_port_keys).1,
    (((tokenization_fails_iff "\"unterminated".toList).2.2.1 "quote is not closed".toList
      rfl).2 sample.host_port sample.host_port_keys).2.1,
    (((tokenization_fails_iff "\"unterminated".toList).2.2.1 "quote is not closed".toList
      rfl).2 sample.host_port sample.host_port_keys).2.2.1,
    rfl, rfl,
    (tokenization_fails_iff "a b".toList).2.2.2 ["a".toList, "b".toList] rfl
      sample.host_port sample.host_port_keys⟩

/-- C17 (as amended): for a value type with comparisons `<` and `<=`, bounds `begin`,
`end` and a string `s` such that the value `v` the default reader parses `s` to is
comparable with both bounds (`begin <= v` holds exactly when `v < begin` fails, and
`v <= end` exactly when `v > end` fails), the range reader returns `v` exactly when the
default reader parses `s` to `v` and `begin <= v <= end`, and fails in every other case;
this covers every linearly ordered value type (integral types, strings) and the
floating-point values when neither a bound nor the parsed value is NaN.  The one-of
reader returns `v` exactly when the default reader parses the string to `v` and `v` is
in the allowed set, and fails in every other case. -/
theorem validating_readers_accept_exactly_the_valid_values :
    (∀ (V : Type) [LT V] [LE V] [DecidableRel (fun (a b : V) => a < b)]
        (lexical_cast : string_t → Option V) (begin_ end_ : V) (s : string_t),
      (∀ v, default_reader lexical_cast s = some v →
        (begin_ ≤ v ↔ ¬ v < begin_) ∧ (v ≤ end_ ↔ ¬ v > end_)) →
      (∀ v, range_reader lexical_cast begin_ end_ s = some v ↔
        default_reader lexical_cast s = some v ∧ begin_ ≤ v ∧ v ≤ end_) ∧
      (range_reader lexical_cast begin_ end_ s = none ↔
        ¬ ∃ v, default_reader lexical_cast s = some v ∧ begin_ ≤ v ∧ v ≤ end_)) ∧
    (∀ (V : Type) [LinearOrder V] (lexical_cast : string_t → Option V) (begin_ end_ : V)
        (s : string_t),
      (∀ v, range_reader lexical_cast begin_ end_ s = some v ↔
        default_reader lexical_cast s = some v ∧ begin_ ≤ v ∧ v ≤ end_) ∧
      (range_reader lexical_cast begin_ end_ s = none ↔
        ¬ ∃ v, default_reader lexical_cast s = some v ∧ begin_ ≤ v ∧ v ≤ end_)) ∧
    (∀ (lexical_cast : string_t → Option sample.fp_value) (begin_ end_ : sample.fp_value)
        (s : string_t),
      begin_ ≠ sample.fp_value.nan → end_ ≠ sample.fp_value.nan →
      lexical_cast s ≠ some sample.fp_value.nan →
      (∀ v, range_reader lexical_cast begin_ end_ s = some v ↔
        default_reader lexical_cast s = some v ∧ begin_ ≤ v ∧ v ≤ end_) ∧
      (range_reader lexical_cast begin_ end_ s = none ↔
        ¬ ∃ v, default_reader lexical_cast s = some v ∧ begin_ ≤ v ∧ v ≤ end_)) ∧
    (∀ (V : Type) [DecidableEq V] (lexical_cast : string_t → Option V) (allowed : List V)
        (s : string_t),
      (∀ v, oneof_reader lexical_cast allowed s = some v ↔
        default_reader lexical_cast s = some v ∧ v ∈ allowed) ∧
      (oneof_reader lexical_cast allowed s = none ↔
        ¬ ∃ v, default_reader lexical_cast s = some v ∧ v ∈ allowed)) := by
  have hrange : ∀ (V : Type) [LT V] [LE V] [DecidableRel (fun (a b : V) => a < b)]
      (lexical_cast : string_t → Option V) (begin_ end_ : V) (s : string_t),
      (∀ v, default_reader lexical_cast s = some v →
        (begin_ ≤ v ↔ ¬ v < begin_) ∧ (v ≤ end_ ↔ ¬ v > end_)) →
      (∀ v, range_reader lexical_cast begin_ end_ s = some v ↔
        default_reader lexical_cast s = some v ∧ begin_ ≤ v ∧ v ≤ end_) ∧
      (range_reader lexical_cast begin_ end_ s = none ↔
        ¬ ∃ v, default_reader lexical_cast s = some v ∧ begin_ ≤ v ∧ v ≤ end_) := by
    intro V _ _ _ lexical_cast begin_ end_ s hcmp
    unfold range_reader
    cases hd : default_reader lexical_cast s with
    | none => simp
    | some ret =>
        obtain ⟨hb, he⟩ := hcmp ret hd
        dsimp only
        by_cases hr : ret > end_ ∨ ret < begin_
        · have hn : ¬ (begin_ ≤ ret ∧ ret ≤ end_) := by
            rintro ⟨h1, h2⟩
            rcases hr with h | h
            · exact he.mp h2 h
            · exact hb.mp h1 h
          rw [if_pos hr]
          refine ⟨fun v => ?_, ?_⟩
          · constructor
            · intro h
              cases h
            · rintro ⟨h1, h2⟩
              cases h1
              exact absurd h2 hn
          · constructor
            · rintro - ⟨v, h1, h2⟩
              cases h1
              exact hn h2
            · intro _
              rfl
        · have hy : begin_ ≤ ret ∧ ret ≤ end_ :=
            ⟨hb.mpr (fun h => hr (Or.inr h)), he.mpr (fun h => hr (Or.inl h))⟩
          rw [if_neg hr]
          refine ⟨fun v => ?_, ?_⟩
          · constructor
            · intro h
              cases h
              exact ⟨rfl, hy⟩
            · rintro ⟨h1, -⟩
              exact h1
          · constructor
            · intro h
              cases h
            · intro h
              exact absurd ⟨ret, rfl, hy⟩ h
  refine ⟨hrange, ?_, ?_, ?_⟩
  · intro V _ lexical_cast begin_ end_ s
    exact hrange V lexical_cast begin_ end_ s
      (fun v _ => ⟨not_lt.symm, not_lt.symm⟩)
  · intro lexical_cast begin_ end_ s hb he hs
    refine hrange sample.fp_value lexical_cast begin_ end_ s (fun v hv => ?_)
    have hv' : v ≠ sample.fp_value.nan := by
      rintro rfl
      exact hs hv
    exact ⟨fp_value_le_iff_not_lt begin_ v hb hv', fp_value_le_iff_not_lt v end_ hv' he⟩
  · intro V _ lexical_cast allowed s
    unfold oneof_reader
    cases hd : default_reader lexical_cast s with
    | none => simp
    | some ret =>
        dsimp only
        by_cases hr : ret ∈ allowed
        · rw [if_pos hr]
          refine ⟨fun v => ?_, ?_⟩
          · constructor
            · intro h
              cases h
              exact ⟨rfl, hr⟩
            · rintro ⟨h1, -⟩
              exact h1
          · constructor
            · intro h
              cases h
            · intro h
              exact absurd ⟨ret, rfl, hr⟩ h
        · rw [if_neg hr]
          refine ⟨fun v => ?_, ?_⟩
          · constructor
            · intro h
              cases h
            · rintro ⟨h1, h2⟩
              cases h1
              exact absurd h2 hr
          · constructor
            · rintro - ⟨v, h1, h2⟩
              cases h1
              exact hr h2
            · intro _
              rfl

/-- Witness for C17: the reader `range(1, 65535)` of the option `port` over `int`, where
every value is comparable with both bounds. -/
theorem validating_readers_accept_exactly_the_valid_values_witness :
    (sample.port_reader "8080".toList = some 8080 ↔
      default_reader sample.lexical_cast_int "8080".toList = some 8080 ∧
        (1 : Int) ≤ 8080 ∧ (8080 : Int) ≤ 65535) ∧
    sample.port_reader "8080".toList = some 8080 ∧
    (sample.port_reader "70000".toList = none ↔
      ¬ ∃ v, default_reader sample.lexical_cast_int "70000".toList = some v ∧
        (1 : Int) ≤ v ∧ v ≤ 65535) ∧
    sample.port_reader "70000".toList = none :=
  ⟨(validating_readers_accept_exactly_the_valid_values.1 Int sample.lexical_cast_int 1 65535
      "8080".toList (fun _ _ => ⟨not_lt.symm, not_lt.symm⟩)).1 8080,
    by decide,
    (validating_readers_accept_exactly_the_valid_values.1 Int sample.lexical_cast_int 1 65535
      "70000".toList (fun _ _ => ⟨not_lt.symm, not_lt.symm⟩)).2,
    by decide⟩

/-- C17 (counterexample): for the value type `double` and the reader `range(NaN, 10.0)`
the claim fails on the string `5`.  Whatever the conversion does elsewhere, when it
parses `5` to the number 5 the check `ret > end_ || ret < begin_` is false, so the range
reader returns 5, although `NaN <= 5` does not hold and the claimed equivalence fails;
the same happens with the reader `range(1.0, NaN)`. -/
theorem range_reader_nan_bound_counterexample :
    (∀ (lexical_cast : string_t → Option sample.fp_value),
      lexical_cast "5".toList = some (sample.fp_value.finite 5) →
      (range_reader lexical_cast sample.fp_value.nan (sample.fp_value.finite 10) "5".toList =
        some (sample.fp_value.finite 5) ∧
       ¬ (range_reader lexical_cast sample.fp_value.nan (sample.fp_value.finite 10)
            "5".toList = some (sample.fp_value.finite 5) ↔
          default_reader lexical_cast "5".toList = some (sample.fp_value.finite 5) ∧
            sample.fp_value.nan ≤ sample.fp_value.finite 5 ∧
            sample.fp_value.finite 5 ≤ sample.fp_value.finite 10)) ∧
      (range_reader lexical_cast (sample.fp_value.finite 1) sample.fp_value.nan "5".toList =
        some (sample.fp_value.finite 5) ∧
       ¬ (range_reader lexical_cast (sample.fp_value.finite 1) sample.fp_value.nan
            "5".toList = some (sample.fp_value.finite 5) ↔
          default_reader lexical_cast "5".toList = some (sample.fp_value.finite 5) ∧
            sample.fp_value.finite 1 ≤ sample.fp_value.finite 5 ∧
            sample.fp_value.finite 5 ≤ sample.fp_value.nan))) ∧
    ¬ (sample.fp_value.nan ≤ sample.fp_value.finite 5) ∧
    ¬ (sample.fp_value.finite 5 ≤ sample.fp_value.nan) ∧
    ¬ (sample.fp_value.finite 5 > sample.fp_value.finite 10 ∨
      sample.fp_value.finite 5 < sample.fp_value.nan) ∧
    ¬ (sample.fp_value.finite 5 > sample.fp_value.nan ∨
      sample.fp_value.finite 5 < sample.fp_value.finite 1) := by
  have h1 : ¬ (sample.fp_value.nan ≤ sample.fp_value.finite 5) := fun h => by cases h
  have h2 : ¬ (sample.fp_value.finite 5 ≤ sample.fp_value.nan) := fun h => by cases h
  have h3 : ¬ (sample.fp_value.finite 5 > sample.fp_value.finite 10 ∨
      sample.fp_value.finite 5 < sample.fp_value.nan) := by
    rintro (h | h)
    · have h' : sample.fp_value.lt (sample.fp_value.finite 10) (sample.fp_value.finite 5) =
          true := h
      simp only [sample.fp_value.lt, decide_eq_true_eq] at h'
      norm_num at h'
    · cases h
  have h4 : ¬ (sample.fp_value.finite 5 > sample.fp_value.nan ∨
      sample.fp_value.finite 5 < sample.fp_value.finite 1) := by
    rintro (h | h)
    · cases h
    · have h' : sample.fp_value.lt (sample.fp_value.finite 5) (sample.fp_value.finite 1) =
          true := h
      simp only [sample.fp_value.lt, decide_eq_true_eq] at h'
      norm_num at h'
  refine ⟨fun lexical_cast h => ?_, h1, h2, h3, h4⟩
  have r1 : range_reader lexical_cast sample.fp_value.nan (sample.fp_value.finite 10)
      "5".toList = some (sample.fp_value.finite 5) := by
    unfold range_reader default_reader
    rw [h]
    exact if_neg h3
  have r2 : range_reader lexical_cast (sample.fp_value.finite 1) sample.fp_value.nan
      "5".toList = some (sample.fp_value.finite 5) := by
    unfold range_reader default_reader
    rw [h]
    exact if_neg h4
  exact ⟨⟨r1, fun hiff => h1 (hiff.mp r1).2.1⟩, ⟨r2, fun hiff => h2 (hiff.mp r2).2.2⟩⟩

/-- C18 (as amended): tokenizing the input made of two double quotes yields no token at
all, since the empty last piece is not handed on; the string form of `parse` therefore
calls the vector form with an empty vector, which returns `false` with the error
`argument number must be longer than 0`. -/
theorem tokenize_two_quotes_yields_no_token (p : parser τ) (traversal : List string_t) :
    parser.tokenize "\"\"".toList = Except.ok [] ∧
    p.parse_string traversal "\"\"".toList = p.parse_vector traversal [] ∧
    (p.parse_string traversal "\"\"".toList).1 = false ∧
    (p.parse_string traversal "\"\"".toList).2.errors =
      ["argument number must be longer than 0".toList] :=
  ⟨rfl, rfl, rfl, rfl⟩

/-- C18 (counterexample): the tokens of the two-character input `""` are not the single
empty string but the empty list, and on the registry `host`, `port` the string form of
`parse` fails on it with the error for an empty argument vector. -/
theorem tokenize_two_quotes_counterexample :
    parser.tokenize "\"\"".toList ≠ Except.ok [([] : string_t)] ∧
    parser.tokenize "\"\"".toList = Except.ok [] ∧
    (sample.host_port.parse_string sample.host_port_keys "\"\"".toList).1 = false ∧
    (sample.host_port.parse_string sample.host_port_keys "\"\"".toList).2.errors =
      ["argument number must be longer than 0".toList] := by
  refine ⟨?_, rfl, rfl, rfl⟩
  intro h
  have h2 : (Except.ok [] : Except string_t (List string_t)) = Except.ok [[]] := h
  injection h2 with h3
  cases h3

/-- C19 (as amended): a token that is exactly `-` is neither a cluster nor positional.
When the dispatch loop examines it, the loop body changes nothing and moves to the next
token, so the rest of the run is the one without that token; in particular `parse` of
a vector with `-` at index 1 is `parse` of the vector without it.  No call of `parse`
puts `-`, or any token starting with `-`, into `rest()`. -/
theorem lone_dash_is_skipped (p : parser τ) :
    (∀ (lookup : Char → Option string_t) (next : Option string_t),
      parser.dispatch_step lookup p ['-'] next = (p, false)) ∧
    (∀ (lookup : Char → Option string_t) (toks : List string_t),
      parser.dispatch lookup p (['-'] :: toks) = parser.dispatch lookup p toks) ∧
    (∀ (traversal : List string_t) (argv0 : string_t) (toks : List string_t),
      p.parse traversal (argv0 :: ['-'] :: toks) = p.parse traversal (argv0 :: toks)) ∧
    (∀ (traversal argv : List string_t), ∀ t ∈ (p.parse traversal argv).2.rest,
      parser.starts_with_dash t = false) ∧
    (∀ (traversal argv : List string_t), ['-'] ∉ (p.parse traversal argv).2.rest) := by
  have hstep : ∀ (q : parser τ) (lookup : Char → Option string_t) (next : Option string_t),
      parser.dispatch_step lookup q ['-'] next = (q, false) := fun _ _ _ => rfl
  have hdisp : ∀ (q : parser τ) (lookup : Char → Option string_t) (toks : List string_t),
      parser.dispatch lookup q (['-'] :: toks) = parser.dispatch lookup q toks := by
    intro q lookup toks
    rw [parser.dispatch_cons, hstep]
    rfl
  refine ⟨hstep p, hdisp p, ?_, parse_rest_no_dash p, ?_⟩
  · intro traversal argv0 toks
    rw [parse_cons, parse_cons]
    cases parser.build_lookup (prepare p argv0) traversal (fun _ => none) with
    | error c => rfl
    | ok lk =>
        dsimp only
        rw [hdisp]
  · intro traversal argv hm
    have := parse_rest_no_dash p traversal argv _ hm
    exact absurd this (by decide)

/-- C19 (counterexample): on the registry `host`, `port` the call
`parse(["prog", "-", "x"])` leaves `rest()` equal to `["x"]`: the token `-` at index 1,
which is not consumed as a value, is not appended. -/
theorem lone_dash_counterexample :
    (sample.host_port.parse sample.host_port_keys
      ["prog".toList, "-".toList, "x".toList]).2.rest = ["x".toList] ∧
    "-".toList ∉ (sample.host_port.parse sample.host_port_keys
      ["prog".toList, "-".toList, "x".toList]).2.rest ∧
    (sample.host_port.parse sample.host_port_keys
      ["prog".toList, "-".toList, "x".toList]).2.errors = ["need option: --host".toList] := by
  refine ⟨by decide, by decide, by decide⟩

/-- C20: `parse` never resets an option.  Through a call of any overload an option
object is either left exactly as it was, actual value included, or it is the object
after a successful assignment; an option whose `has_set` flag is true keeps it true
through every sequence of calls; and such an option, once no missing-required message
for it is in the error list, gets none in any later call, whatever the input. -/
theorem parse_never_resets_options (traversal : List string_t) (p : parser τ)
    (k : string_t) (o : option_base τ) (ho : p.options_ k = some o) :
    (∀ call, (run_call traversal p call).options_ k = some o ∨
      ∃ o', (run_call traversal p call).options_ k = some o' ∧ assigned_from o o') ∧
    (o.has_set = true → ∀ calls,
      ∃ o', (run_calls traversal p calls).options_ k = some o' ∧ o'.has_set = true) ∧
    (o.has_set = true → ∀ argv, need_option k ∉ (p.parse traversal argv).2.errors) ∧
    (o.has_set = true → need_option k ∉ p.errors → ∀ calls,
      need_option k ∉ (run_calls traversal p calls).errors) := by
  have hseq : ∀ (calls : List parse_call) (q : parser τ) (oq : option_base τ),
      q.options_ k = some oq → oq.has_set = true →
      (∃ o', (run_calls traversal q calls).options_ k = some o' ∧ o'.has_set = true) ∧
      (need_option k ∉ q.errors_ → need_option k ∉ (run_calls traversal q calls).errors_) := by
    intro calls
    induction calls with
    | nil => intro q oq hq hset; exact ⟨⟨oq, hq, hset⟩, fun h => h⟩
    | cons call calls ih =>
        intro q oq hq hset
        rw [run_calls_cons]
        obtain ⟨o1, ho1, hset1⟩ := has_set_of_assigns (run_call_frame traversal q call).2.2.1
          k oq hq hset
        refine ⟨(ih _ o1 ho1 hset1).1, fun hold => (ih _ o1 ho1 hset1).2 ?_⟩
        exact need_option_not_mem_run_call traversal q call k oq hq hset hold
  refine ⟨fun call => ?_, fun hset calls => (hseq calls p o ho hset).1,
    fun hset argv => need_option_not_mem_parse p traversal argv k o ho hset,
    fun hset hold calls => (hseq calls p o ho hset).2 hold⟩
  rcases (run_call_frame traversal p call).2.2.1 k with e | ⟨o1, o', h1, h2, ha⟩
  · exact Or.inl (e.trans ho)
  · rw [ho] at h1
    cases h1
    exact Or.inr ⟨o', h2, ha⟩

/-- Witness for C20: on the registry `host`, `port`, once `--host=srv` has been parsed,
a later `parse(["prog"])` and a later `parse("x y")` keep `host` set and succeed
without a missing-required error. -/
theorem parse_never_resets_options_witness :
    (∃ o', (run_calls sample.host_port_keys
        (sample.host_port.parse sample.host_port_keys ["prog".toList, "--host=srv".toList]).2
        [parse_call.argv ["prog".toList], parse_call.text "x y".toList]).options_
          "host".toList = some o' ∧ o'.has_set = true) ∧
    need_option "host".toList ∉ (run_calls sample.host_port_keys
        (sample.host_port.parse sample.host_port_keys ["prog".toList, "--host=srv".toList]).2
        [parse_call.argv ["prog".toList], parse_call.text "x y".toList]).errors ∧
    ((sample.host_port.parse sample.host_port_keys
        ["prog".toList, "--host=srv".toList]).2.parse sample.host_port_keys
          ["prog".toList]).1 = true ∧
    ((sample.host_port.parse sample.host_port_keys
        ["prog".toList, "--host=srv".toList]).2.parse sample.host_port_keys
          ["prog".toList]).2.get sample.cpp_type.string_ "host".toList =
      Except.ok "srv".toList :=
  ⟨(parse_never_resets_options sample.host_port_keys
      (sample.host_port.parse sample.host_port_keys ["prog".toList, "--host=srv".toList]).2
      "host".toList _ rfl).2.1 rfl _,
    (parse_never_resets_options sample.host_port_keys
      (sample.host_port.parse sample.host_port_keys ["prog".toList, "--host=srv".toList]).2
      "host".toList _ rfl).2.2.2 rfl (by decide) _,
    by decide, rfl⟩

/-- C15 (as amended): `usage()` depends on the parse state through the program name
only.  When the program name is not empty before a call of `parse` (any overload, any
input), `usage()` after the call is `usage()` before it; when it is empty, a call with a
non-empty argument vector stores `argv[0]` as the program name, and `usage()` after the
call is that of the registry with this program name set; a call with an empty vector
leaves `usage()` as it was. -/
theorem usage_after_parse (fuel : Nat) (p : parser τ) (traversal : List string_t) :
    (p.program_name_ ≠ [] → ∀ call, (run_call traversal p call).usage fuel = p.usage fuel) ∧
    (p.program_name_ = [] → ∀ argv0 toks,
      (p.parse traversal (argv0 :: toks)).2.usage fuel =
        (p.set_program_name argv0).usage fuel) ∧
    (p.parse traversal []).2.usage fuel = p.usage fuel := by
  refine ⟨fun hne call => ?_, fun he argv0 toks => ?_, ?_⟩
  · obtain ⟨h1, h2, h3, h4⟩ := run_call_frame traversal p call
    exact usage_congr fuel (same_static_of_assigns h3) h1 (h4 hne) h2
  · obtain ⟨h1, h2, h3, -⟩ := parse_frame p traversal (argv0 :: toks)
    refine usage_congr fuel (same_static_of_assigns h3) h1 ?_ h2
    rw [parse_program_name, if_pos he]
    rfl
  · obtain ⟨h1, h2, h3, -⟩ := parse_frame p traversal []
    exact usage_congr fuel (same_static_of_assigns h3) h1 rfl h2

/-- Witness for C15: with the program name `sample` set, as in the sample program, a
call of `parse` leaves the usage text alone; without it, the first call puts `prog`
into the text. -/
theorem usage_after_parse_witness :
    ((sample.host_port.set_program_name "sample".toList).parse sample.host_port_keys
        ["prog".toList, "--host=srv".toList]).2.usage 12 =
      (sample.host_port.set_program_name "sample".toList).usage 12 ∧
    (sample.host_port.parse sample.host_port_keys
        ["prog".toList, "--host=srv".toList]).2.usage 12 =
      (sample.host_port.set_program_name "prog".toList).usage 12 :=
  ⟨(usage_after_parse 12 (sample.host_port.set_program_name "sample".toList)
      sample.host_port_keys).1 (by decide)
      (parse_call.argv ["prog".toList, "--host=srv".toList]),
    (usage_after_parse 12 sample.host_port sample.host_port_keys).2.1 rfl "prog".toList
      ["--host=srv".toList]⟩

/-- C15 (counterexample): on the registry `host`, `port`, built without a program name,
`usage()` starts with `Usage:  --host=String` before `parse(["prog"])` and with
`Usage: prog --host=String` after it. -/
theorem usage_after_parse_counterexample :
    sample.host_port.usage 12 =
      some ("Usage:  --host=String [options] ... \nOptions:\n" ++
        "  -h, --host    host name (String)\n" ++
        "  -p, --port    port number (Integral [=80])\n").toList ∧
    (sample.host_port.parse sample.host_port_keys ["prog".toList]).2.usage 12 =
      some ("Usage: prog --host=String [options] ... \nOptions:\n" ++
        "  -h, --host    host name (String)\n" ++
        "  -p, --port    port number (Integral [=80])\n").toList ∧
    (sample.host_port.parse sample.host_port_keys ["prog".toList]).2.usage 12 ≠
      sample.host_port.usage 12 := by
  refine ⟨by decide, by decide, by decide⟩

/-- C16: in every reachable state with at least one option, `ordered_` resolves to the
registered options, each once, in declaration order, and `usage()` (given enough iterations for its
padding loops) is the reference rendering: the usage line with the short descriptions of
exactly the required options in declaration order, each `--name=TYPE`, then
`[options] ... ` and the footer, the line `Options:`, and one line per option in
declaration order made of the alias prefix, `--` and the name, `maxlen + 4 - length(name)`
spaces and the description.  Every description starts in column `maxlen + 12`. -/
theorem usage_equals_reference_rendering (p : parser τ) (hreach : reachable p)
    (hne : p.ordered_ ≠ []) :
    ∃ items, parser.resolve p p.ordered_ = some items ∧
      items.map option_base.name = p.ordered_ ∧
      p.ordered_.Nodup ∧ (∀ k, k ∈ p.ordered_ ↔ (p.options_ k).isSome = true) ∧
      (∀ o ∈ items, p.options_ o.name = some o) ∧
      (∀ fuel, longest_name items + 4 ≤ fuel → p.usage fuel = some (reference_usage p items)) ∧
      (∀ o ∈ items, (line_front (longest_name items) o).length = longest_name items + 12) ∧
      (∀ o ∈ items, o.is_required = true →
        ∃ T a, o = option_base.with_value T a ∧
          o.short_description = "--".toList ++ o.name ++ "=".toList ++ type_name T) := by
  obtain ⟨⟨hnodup, hmem, hname⟩, -⟩ := reachable_ok hreach
  obtain ⟨items, h1, h2, h3⟩ := resolve_of_mem p p.ordered_ (fun k hk => (hmem k).mp hk) hname
  have hitems : items ≠ [] := by
    intro he
    rw [he] at h2
    exact hne h2.symm
  refine ⟨items, h1, h2, hnodup, hmem, fun o ho => (h3 o ho).2, fun fuel hf => ?_,
    fun o ho => ?_, fun o ho hr => ?_⟩
  · obtain ⟨w, hw, hlen⟩ := max_element_longest items hitems
    unfold parser.usage
    rw [h1]
    dsimp only
    unfold parser.usage_text
    rw [hw]
    dsimp only
    rw [hlen, usage_lines_eq fuel (longest_name items) hf items
      (fun o ho => name_le_longest items o ho), usage_required_eq]
    rfl
  · exact line_front_length _ o (name_le_longest items o ho)
  · cases o with
    | without_value a => cases hr
    | with_value T a => exact ⟨T, a, rfl, rfl⟩

/-- Witness for C16: the usage text of the registry `host`, `port`. -/
theorem usage_equals_reference_rendering_witness :
    ∃ items, parser.resolve sample.host_port sample.host_port.ordered_ = some items ∧
      sample.host_port.usage 12 = some (reference_usage sample.host_port items) ∧
      sample.host_port.usage 12 =
        some ("Usage:  --host=String [options] ... \nOptions:\n" ++
          "  -h, --host    host name (String)\n" ++
          "  -p, --port    port number (Integral [=80])\n").toList :=
  (usage_equals_reference_rendering sample.host_port
    (reachable.add_value _ _ _ _ _ _ _ _ (reachable.add_value _ _ _ _ _ _ _ _ reachable.empty))
    (by decide)).imp
    (fun items h => ⟨h.1, h.2.2.2.2.2.1 12 (by
      have h1 := h.1
      have h2 : items.map option_base.name = ["host".toList, "port".toList] := h.2.1
      have hl : longest_name items = 4 := by
        unfold longest_name
        have : items.map (fun o => o.name.length) =
            (items.map option_base.name).map List.length := by simp
        rw [this, h2]
        rfl
      omega), by decide⟩)

/-- C11 (as amended): on a registry without short-name collision, for a cluster token
`-c1c2...ck` (`k >= 1`, `c1` not `-`) in which every character is the non-zero short
name of a registered flag with a non-empty name, parsing `[prog, "-c1c2...ck"]` sets
every one of these flags (`exist` returns true for each), adds nothing to `rest()` and
records no dispatch error: every error in the list is a missing-required message. -/
theorem parse_cluster_sets_every_flag (p : parser τ) (traversal : List string_t)
    (henum : enumerates p traversal) (hd : short_names_distinct p) (prog : string_t)
    (c : Char) (cs : string_t) (hc : c ≠ '-')
    (hflags : ∀ d ∈ c :: cs, d ≠ NUL ∧ ∃ k a, k ≠ [] ∧
      p.options_ k = some (option_base.without_value a) ∧ a.short_name_ = d) :
    (∀ d ∈ c :: cs, ∀ k a, k ≠ [] → p.options_ k = some (option_base.without_value a) →
      a.short_name_ = d →
      (p.parse traversal [prog, '-' :: c :: cs]).2.exist k = Except.ok true) ∧
    (p.parse traversal [prog, '-' :: c :: cs]).2.rest = [] ∧
    ∀ e ∈ (p.parse traversal [prog, '-' :: c :: cs]).2.errors,
      ∃ k, k ∈ traversal ∧ e = need_option k := by
  obtain ⟨lk, hlk, hspec⟩ := lookup_of_registry p traversal henum hd prog
  have hres : ∀ d ∈ c :: cs, ∃ k a, lk d = some k ∧ k ≠ [] ∧
      (prepare p prog).options_ k = some (option_base.without_value a) := by
    intro d hd'
    obtain ⟨hnul, k, a, hk, ha, hs⟩ := hflags d hd'
    exact ⟨k, a, (hspec d k).mpr ⟨hk, hnul, _, ha, hs⟩, hk, by rw [prepare_options]; exact ha⟩
  obtain ⟨hkeep, hset⟩ := dispatch_step_of_flags lk (prepare p prog) c cs hc hres
  have hD : parser.dispatch lk (prepare p prog) ['-' :: c :: cs] =
      (parser.dispatch_step lk (prepare p prog) ('-' :: c :: cs) none).1 := rfl
  have hparse : (p.parse traversal [prog, '-' :: c :: cs]).2 =
      parser.validate (parser.dispatch_step lk (prepare p prog) ('-' :: c :: cs) none).1
        traversal := by
    rw [parse_cons, hlk]
    dsimp only
    rw [hD]
  rw [hparse, parser.validate_eq]
  refine ⟨fun d hd' k a hk ha hs => ?_, ?_, fun e he => ?_⟩
  · have hnul := (hflags d hd').1
    obtain ⟨a', ha', hs'⟩ := hset d hd' k ((hspec d k).mpr ⟨hk, hnul, _, ha, hs⟩)
    simp [parser.exist, ha', option_base.has_set, hs']
  · simp [parser.rest, hkeep.2.1]
  · simp only [parser.errors, hkeep.1, prepare_errors, List.nil_append] at he
    obtain ⟨k, hk, hek, -⟩ := mem_missing _ _ _ he
    exact ⟨k, hk, hek⟩

/-- Witness for C11: the flags `a`, `b`, `c` and the argument vector `["prog", "-abc"]`. -/
theorem parse_cluster_sets_every_flag_witness :
    (sample.abc.parse sample.abc.ordered_ ["prog".toList, "-abc".toList]).2.exist
        "a".toList = Except.ok true ∧
    (sample.abc.parse sample.abc.ordered_ ["prog".toList, "-abc".toList]).2.exist
        "b".toList = Except.ok true ∧
    (sample.abc.parse sample.abc.ordered_ ["prog".toList, "-abc".toList]).2.exist
        "c".toList = Except.ok true ∧
    (sample.abc.parse sample.abc.ordered_ ["prog".toList, "-abc".toList]).2.rest = [] ∧
    (sample.abc.parse sample.abc.ordered_ ["prog".toList, "-abc".toList]).1 = true := by
  have hreach : reachable sample.abc :=
    reachable.add _ _ _ _ (reachable.add _ _ _ _ (reachable.add _ _ _ _ reachable.empty))
  have henum := enumerates_ordered hreach
  have hd := short_names_distinct_of_nodup sample.abc sample.abc.ordered_ henum (by decide)
  have hflags : ∀ d ∈ 'a' :: "bc".toList, d ≠ NUL ∧ ∃ k a, k ≠ [] ∧
      sample.abc.options_ k = some (option_base.without_value a) ∧ a.short_name_ = d := by
    intro d hmem
    have h3 : d = 'a' ∨ d = 'b' ∨ d = 'c' := by simpa using hmem
    rcases h3 with rfl | rfl | rfl
    · exact ⟨by decide, "a".toList, _, by decide, rfl, rfl⟩
    · exact ⟨by decide, "b".toList, _, by decide, rfl, rfl⟩
    · exact ⟨by decide, "c".toList, _, by decide, rfl, rfl⟩
  have h := parse_cluster_sets_every_flag sample.abc sample.abc.ordered_ henum hd
    "prog".toList 'a' "bc".toList (by decide) hflags
  exact ⟨h.1 'a' (by decide) "a".toList _ (by decide) rfl rfl,
    h.1 'b' (by decide) "b".toList _ (by decide) rfl rfl,
    h.1 'c' (by decide) "c".toList _ (by decide) rfl rfl, h.2.1, by decide⟩

/-- C11 (counterexample): on the registry `abc_clash`, where `a`, `b`, `c` are each the
short name of exactly one flag and two further flags share the short name `z`,
`parse(["prog", "-abc"])` stops before dispatch and sets none of the three flags; on the
registry `dash_flag`, whose only flag has the short name `-`, the cluster `--` is read
as a long option with an empty name and the flag stays unset. -/
theorem parse_cluster_counterexample :
    ((sample.abc_clash.parse sample.abc_clash.ordered_ ["prog".toList, "-abc".toList]).1 =
        false ∧
      (sample.abc_clash.parse sample.abc_clash.ordered_
        ["prog".toList, "-abc".toList]).2.exist "a".toList = Except.ok false ∧
      (sample.abc_clash.parse sample.abc_clash.ordered_
        ["prog".toList, "-abc".toList]).2.errors = ["short option 'z' is ambiguous".toList]) ∧
    ((sample.dash_flag.parse sample.dash_flag.ordered_ ["prog".toList, "--".toList]).2.exist
        "dash".toList = Except.ok false ∧
      (sample.dash_flag.parse sample.dash_flag.ordered_
        ["prog".toList, "--".toList]).2.errors = ["undefined option: --".toList]) := by
  refine ⟨⟨by decide, rfl, by decide⟩, rfl, by decide⟩

/-- C21: when two registered options with non-empty names declare the same non-zero
short name, `parse` of every non-empty argument vector (through `parse(argc, argv)` or
the vector overload) returns false with exactly one error, the message
`short option 'x' is ambiguous` for a short name `x` that two different options
declare; `rest()` is empty, no `need option` message is recorded, and `options_` and
`ordered_` are unchanged, so no actual value or `has_set` flag changes.  Moreover no
state produced by the member functions, and no single call of `parse` on any state,
holds a dispatch-time message `ambiguous short options: -c`. -/
theorem short_name_collision_is_fatal (p : parser τ) (traversal : List string_t)
    (henum : enumerates p traversal) (k1 k2 : string_t) (c : Char) (hne : k1 ≠ k2)
    (hd1 : declares_short p c k1) (hd2 : declares_short p c k2) :
    (∀ (argv0 : string_t) (toks : List string_t),
      ∃ x j1 j2, j1 ≠ j2 ∧ declares_short p x j1 ∧ declares_short p x j2 ∧
        (p.parse traversal (argv0 :: toks)).1 = false ∧
        (p.parse traversal (argv0 :: toks)).2.errors =
          ["short option '".toList ++ [x] ++ "' is ambiguous".toList] ∧
        (p.parse traversal (argv0 :: toks)).2.rest = [] ∧
        (∀ k, need_option k ∉ (p.parse traversal (argv0 :: toks)).2.errors) ∧
        (p.parse traversal (argv0 :: toks)).2.options_ = p.options_ ∧
        (p.parse traversal (argv0 :: toks)).2.ordered_ = p.ordered_) ∧
    (∀ (args : List string_t), args ≠ [] →
      ∃ x, (p.parse_vector traversal args).1 = false ∧
        (p.parse_vector traversal args).2.errors =
          ["short option '".toList ++ [x] ++ "' is ambiguous".toList] ∧
        (p.parse_vector traversal args).2.rest = [] ∧
        (p.parse_vector traversal args).2.options_ = p.options_) ∧
    (∀ (q : parser τ), reachable q →
      ∀ d, "ambiguous short options: -".toList ++ [d] ∉ q.errors) ∧
    (∀ (q : parser τ) (tr argv : List string_t) (d : Char),
      "ambiguous short options: -".toList ++ [d] ∉ (q.parse tr argv).2.errors) := by
  have hm1 : k1 ∈ traversal := by
    obtain ⟨_, _, o, ho, _⟩ := hd1
    exact (henum.2 k1).mpr (by simp [ho])
  have hm2 : k2 ∈ traversal := by
    obtain ⟨_, _, o, ho, _⟩ := hd2
    exact (henum.2 k2).mpr (by simp [ho])
  have hmain : ∀ (argv0 : string_t) (toks : List string_t),
      ∃ x j1 j2, j1 ≠ j2 ∧ declares_short p x j1 ∧ declares_short p x j2 ∧
        p.parse traversal (argv0 :: toks) = (false, (prepare p argv0).push_error
          ("short option '".toList ++ [x] ++ "' is ambiguous".toList)) := by
    intro argv0 toks
    obtain ⟨x, hx⟩ := build_lookup_error (prepare p argv0) traversal (fun _ => none)
      (Or.inl ⟨k1, k2, c, hm1, hm2, hne, (declares_short_prepare p argv0 c k1).mpr hd1,
        (declares_short_prepare p argv0 c k2).mpr hd2⟩)
    obtain ⟨j1, j2, hj, hj1, hj2⟩ := build_lookup_error_declared (prepare p argv0) traversal
      (fun _ => none) x henum.1 (fun _ _ h => by cases h) hx
    exact ⟨x, j1, j2, hj, (declares_short_prepare p argv0 x j1).mp hj1,
      (declares_short_prepare p argv0 x j2).mp hj2, by rw [parse_cons, hx]⟩
  have hsecond : ∀ d : Char, ("ambiguous short options: -".toList ++ [d])[1]? = some 'm' :=
    fun _ => rfl
  refine ⟨fun argv0 toks => ?_, fun args hargs => ?_, fun q hq d hmem => ?_,
    fun q tr argv d hmem => ?_⟩
  · obtain ⟨x, j1, j2, hj, hj1, hj2, heq⟩ := hmain argv0 toks
    refine ⟨x, j1, j2, hj, hj1, hj2, ?_⟩
    rw [heq]
    refine ⟨rfl, by simp [parser.errors], by simp [parser.rest], fun k hk => ?_, by simp,
      by simp⟩
    have hk' : need_option k = "short option '".toList ++ [x] ++ "' is ambiguous".toList := by
      simpa [parser.errors] using hk
    have := congrArg List.head? hk'
    rw [need_option_head] at this
    simp at this
  · cases args with
    | nil => exact absurd rfl hargs
    | cons a as =>
        obtain ⟨x, -, -, -, -, -, heq⟩ := hmain (c_str a) (as.map c_str)
        refine ⟨x, ?_⟩
        have hv : p.parse_vector traversal (a :: as) =
            p.parse traversal (c_str a :: as.map c_str) := rfl
        rw [hv, heq]
        exact ⟨rfl, by simp [parser.errors], by simp [parser.rest], by simp⟩
  · exact reachable_errors_second_char hq _ hmem (hsecond d)
  · exact parse_errors_second_char q tr argv _ hmem (hsecond d)

/-- Witness for C21: the registry `clash`, whose flags `all` and `append` both declare
`a`, parsed on a command line that uses no short option. -/
theorem short_name_collision_is_fatal_witness :
    enumerates sample.clash sample.clash.ordered_ ∧
    declares_short sample.clash 'a' "all".toList ∧
    declares_short sample.clash 'a' "append".toList ∧
    (sample.clash.parse sample.clash.ordered_
      ["prog".toList, "--name=v".toList, "file".toList]).2.errors =
        ["short option 'a' is ambiguous".toList] ∧
    ∃ x, (sample.clash.parse sample.clash.ordered_
        ["prog".toList, "--name=v".toList, "file".toList]).1 = false ∧
      (sample.clash.parse sample.clash.ordered_
        ["prog".toList, "--name=v".toList, "file".toList]).2.errors =
          ["short option '".toList ++ [x] ++ "' is ambiguous".toList] ∧
      (sample.clash.parse sample.clash.ordered_
        ["prog".toList, "--name=v".toList, "file".toList]).2.rest = [] ∧
      (sample.clash.parse sample.clash.ordered_
        ["prog".toList, "--name=v".toList, "file".toList]).2.options_ =
          sample.clash.options_ :=
  have hreach : reachable sample.clash :=
    reachable.add_value _ _ _ _ _ _ _ _
      (reachable.add _ _ _ _ (reachable.add _ _ _ _ reachable.empty))
  have h1 : declares_short sample.clash 'a' "all".toList :=
    ⟨by decide, by decide, _, rfl, rfl⟩
  have h2 : declares_short sample.clash 'a' "append".toList :=
    ⟨by decide, by decide, _, rfl, rfl⟩
  ⟨enumerates_ordered hreach, h1, h2, by decide,
    ((short_name_collision_is_fatal sample.clash sample.clash.ordered_
        (enumerates_ordered hreach) "all".toList "append".toList 'a' (by decide) h1 h2).1
      "prog".toList ["--name=v".toList, "file".toList]).elim
      (fun x h => h.elim (fun j1 h => h.elim (fun j2 h =>
        ⟨x, h.2.2.2.1, h.2.2.2.2.1, h.2.2.2.2.2.1, h.2.2.2.2.2.2.2.1⟩)))⟩

/-- C22: in every state the member functions produce, `ordered_` resolves to the
registered options, and `usage()` returns a text (for some bound on the iterations of
its padding loops) exactly when at least one option is registered.  With an option
registered, `max_element` yields a registered option `w` whose name has the maximum
length `maxlen`, every registered name is at most that long, the padding loop of each
option, from `length(name)` up to `maxlen + 4`, stops after exactly
`maxlen + 4 - length(name)` iterations (it returns within `fuel` iterations exactly when
`maxlen + 4 - length(name) ≤ fuel`) having written that many spaces, and `usage()`
returns a text exactly when the bound is at least `maxlen + 4 - length(name)` for every
option.  With no option registered, `max_element` has no element to return and `usage()`
yields no text, whatever the bound. -/
theorem usage_total_iff_registry_nonempty (p : parser τ) (hreach : reachable p) :
    ∃ items, parser.resolve p p.ordered_ = some items ∧
      items.map option_base.name = p.ordered_ ∧
      ((∃ fuel, (p.usage fuel).isSome = true) ↔ ∃ k, (p.options_ k).isSome = true) ∧
      ((∃ k, (p.options_ k).isSome = true) →
        ∃ w, parser.max_element
            (fun lhs rhs => decide (lhs.name.length < rhs.name.length)) items = some w ∧
          w ∈ items ∧ w.name.length = longest_name items ∧
          (∀ o ∈ items, o.name.length ≤ w.name.length ∧
            ∀ fuel, parser.padding fuel o.name.length (w.name.length + 4) =
              if w.name.length + 4 - o.name.length ≤ fuel then
                some (List.replicate (w.name.length + 4 - o.name.length) ' ')
              else none) ∧
          ∀ fuel, (p.usage fuel).isSome = true ↔
            ∀ o ∈ items, w.name.length + 4 - o.name.length ≤ fuel) ∧
      ((∀ k, p.options_ k = none) →
        items = [] ∧
        parser.max_element
          (fun lhs rhs => decide (lhs.name.length < rhs.name.length)) items = none ∧
        ∀ fuel, p.usage fuel = none) := by
  obtain ⟨⟨-, hmem, hname⟩, -⟩ := reachable_ok hreach
  obtain ⟨items, h1, h2, h3⟩ := resolve_of_mem p p.ordered_ (fun k hk => (hmem k).mp hk) hname
  have husage : ∀ fuel, p.usage fuel = parser.usage_text fuel p items := by
    intro fuel
    unfold parser.usage
    rw [h1]
  have hnonempty : (∃ k, (p.options_ k).isSome = true) → items ≠ [] := by
    rintro ⟨k, hk⟩ he
    have hk' := (hmem k).mpr hk
    rw [← h2, he] at hk'
    cases hk'
  have hfull : (∃ k, (p.options_ k).isSome = true) →
      ∃ w, parser.max_element
          (fun lhs rhs => decide (lhs.name.length < rhs.name.length)) items = some w ∧
        w ∈ items ∧ w.name.length = longest_name items ∧
        (∀ o ∈ items, o.name.length ≤ w.name.length ∧
          ∀ fuel, parser.padding fuel o.name.length (w.name.length + 4) =
            if w.name.length + 4 - o.name.length ≤ fuel then
              some (List.replicate (w.name.length + 4 - o.name.length) ' ')
            else none) ∧
        ∀ fuel, (p.usage fuel).isSome = true ↔
          ∀ o ∈ items, w.name.length + 4 - o.name.length ≤ fuel := by
    intro hex
    obtain ⟨w, hw, hlen⟩ := max_element_longest items (hnonempty hex)
    have hle : ∀ o ∈ items, o.name.length ≤ w.name.length :=
      fun o ho => hlen ▸ name_le_longest items o ho
    refine ⟨w, hw, max_element_mem items w hw, hlen,
      fun o ho => ⟨hle o ho, fun fuel => padding_iff fuel _ _ (by have := hle o ho; omega)⟩,
      fun fuel => ?_⟩
    rw [husage]
    unfold parser.usage_text
    rw [hw]
    dsimp only
    have hmap : ∀ (f : string_t → string_t) (x : Option string_t),
        (x.map f).isSome = x.isSome := fun f x => by cases x <;> rfl
    rw [hmap]
    constructor
    · intro hsome o ho
      by_contra hlt
      have hpad := padding_none fuel o.name.length (w.name.length + 4)
        (by have := hle o ho; omega) (by omega)
      rw [usage_lines_none fuel w.name.length items o ho hpad] at hsome
      cases hsome
    · intro hall
      have hlines : ∀ (xs : List (option_base τ)), (∀ o ∈ xs, o ∈ items) →
          (parser.usage_lines fuel w.name.length xs).isSome = true := by
        intro xs
        induction xs with
        | nil => intro _; rfl
        | cons x xs ih =>
            intro hsub
            have hx := hsub x (List.mem_cons_self _ _)
            rw [parser.usage_lines, padding_eq fuel x.name.length (w.name.length + 4)
              (by have := hle x hx; omega) (hall x hx)]
            cases hxs : parser.usage_lines fuel w.name.length xs with
            | none =>
                have := ih (fun o ho => hsub o (List.mem_cons_of_mem _ ho))
                rw [hxs] at this
                cases this
            | some lines => rfl
      exact hlines items (fun _ ho => ho)
  refine ⟨items, h1, h2, ⟨?_, fun hex => ?_⟩, hfull, fun hnone => ?_⟩
  · rintro ⟨fuel, hfuel⟩
    by_contra hno
    have hnil : items = [] := by
      cases items with
      | nil => rfl
      | cons o os =>
          exact absurd ⟨o.name, by rw [(h3 o (List.mem_cons_self _ _)).2]; rfl⟩ hno
    rw [husage, hnil] at hfuel
    cases hfuel
  · obtain ⟨w, -, -, -, -, hiff⟩ := hfull hex
    exact ⟨w.name.length + 4, (hiff _).mpr (fun o _ => by omega)⟩
  · have hnil : items = [] := by
      cases items with
      | nil => rfl
      | cons o os =>
          have := (h3 o (List.mem_cons_self _ _)).2
          rw [hnone] at this
          cases this
    refine ⟨hnil, by rw [hnil]; rfl, fun fuel => ?_⟩
    rw [husage, hnil]
    rfl

/-- Witness for C22: the registry `host`, `port` (both names of length 4, so every
padding loop runs 4 times) and the empty registry. -/
theorem usage_total_iff_registry_nonempty_witness :
    ((∃ fuel, (sample.host_port.usage fuel).isSome = true) ↔
      ∃ k, (sample.host_port.options_ k).isSome = true) ∧
    (sample.host_port.usage 4).isSome = true ∧ sample.host_port.usage 3 = none ∧
    parser.padding 4 4 8 = some "    ".toList ∧ parser.padding 3 4 8 = none ∧
    (∃ items, parser.resolve (parser.empty : parser sample.cpp_type)
        (parser.empty : parser sample.cpp_type).ordered_ = some items ∧
      parser.max_element
        (fun lhs rhs => decide (lhs.name.length < rhs.name.length)) items = none ∧
      ∀ fuel, (parser.empty : parser sample.cpp_type).usage fuel = none) :=
  ⟨(usage_total_iff_registry_nonempty sample.host_port
      (reachable.add_value _ _ _ _ _ _ _ _
        (reachable.add_value _ _ _ _ _ _ _ _ reachable.empty))).elim
      (fun _ h => h.2.2.1),
    by decide, by decide, by decide, by decide,
    (usage_total_iff_registry_nonempty (parser.empty : parser sample.cpp_type)
      reachable.empty).elim
      (fun items h => ⟨items, h.1, (h.2.2.2.2 (fun _ => rfl)).2.1,
        (h.2.2.2.2 (fun _ => rfl)).2.2⟩)⟩

end claims

end program_options
